import Mathlib

/-!
# Split tree, layout pass and smooth scrolling of `editor/win.go`

A shallow embedding of the window layout engine of `src/editor/win.go`:

* `Frame` is the Go struct `Frame`.  The children slice is a list; the `parent`
  pointer is not stored: a frame is designated by its position in the tree of
  `topFrame` (a reference, see `nodeAt`), and its parent is the frame one step up.
  The field `addr` stands for the address of the Go object, so that "the same node"
  can be told apart from "an equal node".
* Go `int` is modelled by `Int` (pixel and row quantities stay far below `2^63`);
  Go integer division truncates toward zero and is `Int.tdiv`.
* The goroutine of `smoothScroll` is modelled by the list of deltas it sends on the
  editor-wide update queue, in order.
-/

namespace Lapce

/-! ## Data model -/

/-- The Go struct `Frame`: `addr` is the identity of the object, `win` the id of the window
it holds (`none` for the nil pointer), `children` the slice of child frames. -/
inductive Frame where
  | mk (addr : Nat) (vertical : Bool) (width height x y : Int) (win : Option Nat)
      (children : List Frame)
  deriving Repr

namespace Frame

/-- Field `addr`. -/
def addr : Frame → Nat
  | mk a _ _ _ _ _ _ _ => a

/-- Field `vertical`. -/
def vertical : Frame → Bool
  | mk _ v _ _ _ _ _ _ => v

/-- Field `width`. -/
def width : Frame → Int
  | mk _ _ w _ _ _ _ _ => w

/-- Field `height`. -/
def height : Frame → Int
  | mk _ _ _ h _ _ _ _ => h

/-- Field `x`. -/
def x : Frame → Int
  | mk _ _ _ _ x _ _ _ => x

/-- Field `y`. -/
def y : Frame → Int
  | mk _ _ _ _ _ y _ _ => y

/-- Field `win`. -/
def win : Frame → Option Nat
  | mk _ _ _ _ _ _ w _ => w

/-- Field `children`. -/
def children : Frame → List Frame
  | mk _ _ _ _ _ _ _ cs => cs

/-- `hasChildren`: `f.children != nil && len(f.children) > 0`. -/
def hasChildren (f : Frame) : Bool := !f.children.isEmpty

/-- Extent of a frame along an axis: the width for the vertical axis (`true`),
the height otherwise. -/
def extent (f : Frame) (vertical : Bool) : Int :=
  if vertical then f.width else f.height

/-- Offset of a frame along an axis: `x` for the vertical axis (`true`), `y` otherwise. -/
def offset (f : Frame) (vertical : Bool) : Int :=
  if vertical then f.x else f.y

/-! ## countSplits -/

mutual
/-- `Frame.countSplits`: 1 without children; otherwise the loop over the children, which
adds the counts when the orientation of the node is the queried one and keeps the largest
count otherwise (both loops start from `n := 0`). -/
def countSplits : Frame → Bool → Int
  | mk _ _ _ _ _ _ _ [], _ => 1
  | mk _ fv _ _ _ _ _ (c :: cs), vertical =>
    if fv = vertical then countSum (c :: cs) vertical 0 else countMax (c :: cs) vertical 0
/-- The loop `n += child.countSplits(vertical)` with accumulator `n`. -/
def countSum : List Frame → Bool → Int → Int
  | [], _, n => n
  | c :: cs, vertical, n => countSum cs vertical (n + countSplits c vertical)
/-- The loop `v := child.countSplits(vertical); if v > n then n = v` with accumulator `n`. -/
def countMax : List Frame → Bool → Int → Int
  | [], _, n => n
  | c :: cs, vertical, n =>
    countMax cs vertical (if countSplits c vertical > n then countSplits c vertical else n)
end

/-! ## setSize and setPos -/

mutual
/-- `Frame.setSize`: a frame without children takes `singleValue` as its extent along the
axis; otherwise its extent is `max * singleValue` with `max := countSplits(vertical)`, and the
children are resized with the same unit when the orientation of the node is the axis, and
with `singleValue*max/n` (`n` the count of the child) otherwise.  The products are exact
integers here; `setSize64` below wraps them as the Go type `int` does, and the two agree as
long as `max * singleValue` is a value of `int` (`setSize64_eq`). -/
def setSize : Frame → Bool → Int → Frame
  | mk a fv w h x y win [], vertical, singleValue =>
    if vertical then mk a fv singleValue h x y win [] else mk a fv w singleValue x y win []
  | mk a fv w h x y win (c :: cs), vertical, singleValue =>
    let max := countSplits (mk a fv w h x y win (c :: cs)) vertical
    let w1 := if vertical then max * singleValue else w
    let h1 := if vertical then h else max * singleValue
    if fv = vertical then
      mk a fv w1 h1 x y win (setSizeSame (c :: cs) vertical singleValue)
    else
      mk a fv w1 h1 x y win (setSizeScaled (c :: cs) vertical singleValue max)
/-- The loop `child.setSize(vertical, singleValue)` of the branch `f.vertical == vertical`. -/
def setSizeSame : List Frame → Bool → Int → List Frame
  | [], _, _ => []
  | c :: cs, vertical, singleValue =>
    setSize c vertical singleValue :: setSizeSame cs vertical singleValue
/-- The loop `n := child.countSplits(vertical); child.setSize(vertical, singleValue*max/n)`. -/
def setSizeScaled : List Frame → Bool → Int → Int → List Frame
  | [], _, _, _ => []
  | c :: cs, vertical, singleValue, max =>
    setSize c vertical (Int.tdiv (singleValue * max) (countSplits c vertical))
      :: setSizeScaled cs vertical singleValue max
end

mutual
/-- `Frame.setPos`: stores `x, y` and places the children one after the other, advancing
`x` by the width of the child just placed when the node is vertical and `y` by its height
otherwise (the early return of a frame without children is the loop over no child).  The
sums are exact integers here; `setPos64` below wraps them as the Go type `int` does, and the
two agree as long as the frame placed fits into the range of `int` (`setPos64_eq`). -/
def setPos : Frame → Int → Int → Frame
  | mk a fv w h _ _ win cs, x, y => mk a fv w h x y win (setPosChildren cs fv x y)
/-- The loop over the children of `setPos`, `fv` being the orientation of the parent. -/
def setPosChildren : List Frame → Bool → Int → Int → List Frame
  | [], _, _, _ => []
  | c :: cs, fv, x, y =>
    setPos c x y ::
      (if fv then setPosChildren cs fv (x + (setPos c x y).width) y
       else setPosChildren cs fv x (y + (setPos c x y).height))
end

/-! ## setSize and setPos in the arithmetic of the Go type `int`

`setSize` and `setPos` above compute in exact integers.  The Go type `int` has 64 bits, and
a product or a sum whose exact value leaves the range `-2^63 .. 2^63 - 1` wraps around.  The
definitions below are the same functions with every product and sum reduced as Go reduces
it; the counts of `countSplits` are left exact (a count is at most the number of frames of
the tree), and so is the quotient `singleValue*max/n`, whose divisor is at least 1. -/

/-- The value of a Go `int` operation whose exact result is `n`: the number of the range
`-2^63 .. 2^63 - 1` that differs from `n` by a multiple of `2^64`. -/
def wrap (n : Int) : Int :=
  (n + 9223372036854775808) % 18446744073709551616 - 9223372036854775808

/-- The values of the Go type `int`: `-2^63 <= n < 2^63`. -/
def inRange (n : Int) : Prop := -9223372036854775808 ≤ n ∧ n < 9223372036854775808

instance (n : Int) : Decidable (inRange n) := by
  unfold inRange; exact inferInstance

mutual
/-- `Frame.setSize` in the arithmetic of `int`: as `setSize`, with `max * singleValue` and
`singleValue*max` wrapped. -/
def setSize64 : Frame → Bool → Int → Frame
  | mk a fv w h x y win [], vertical, singleValue =>
    if vertical then mk a fv singleValue h x y win [] else mk a fv w singleValue x y win []
  | mk a fv w h x y win (c :: cs), vertical, singleValue =>
    let max := countSplits (mk a fv w h x y win (c :: cs)) vertical
    let w1 := if vertical then wrap (max * singleValue) else w
    let h1 := if vertical then h else wrap (max * singleValue)
    if fv = vertical then
      mk a fv w1 h1 x y win (setSizeSame64 (c :: cs) vertical singleValue)
    else
      mk a fv w1 h1 x y win (setSizeScaled64 (c :: cs) vertical singleValue max)
/-- The loop `child.setSize(vertical, singleValue)` of the branch `f.vertical == vertical`. -/
def setSizeSame64 : List Frame → Bool → Int → List Frame
  | [], _, _ => []
  | c :: cs, vertical, singleValue =>
    setSize64 c vertical singleValue :: setSizeSame64 cs vertical singleValue
/-- The loop `n := child.countSplits(vertical); child.setSize(vertical, singleValue*max/n)`,
the product being wrapped before the division. -/
def setSizeScaled64 : List Frame → Bool → Int → Int → List Frame
  | [], _, _, _ => []
  | c :: cs, vertical, singleValue, max =>
    setSize64 c vertical (Int.tdiv (wrap (singleValue * max)) (countSplits c vertical))
      :: setSizeScaled64 cs vertical singleValue max
end

mutual
/-- `Frame.setPos` in the arithmetic of `int`: as `setPos`, with the sums `x += child.width`
and `y += child.height` wrapped. -/
def setPos64 : Frame → Int → Int → Frame
  | mk a fv w h _ _ win cs, x, y => mk a fv w h x y win (setPosChildren64 cs fv x y)
/-- The loop over the children of `setPos`, `fv` being the orientation of the parent. -/
def setPosChildren64 : List Frame → Bool → Int → Int → List Frame
  | [], _, _, _ => []
  | c :: cs, fv, x, y =>
    setPos64 c x y ::
      (if fv then setPosChildren64 cs fv (wrap (x + (setPos64 c x y).width)) y
       else setPosChildren64 cs fv x (wrap (y + (setPos64 c x y).height)))
end

/-- The unit that `f.setSize(vertical, unit)` hands to its child `c` in the arithmetic of
`int`: the unit itself when `f` splits along the axis, and `unit*max/n` with the product
wrapped otherwise. -/
def childUnit64 (f c : Frame) (vertical : Bool) (unit : Int) : Int :=
  if f.vertical = vertical then unit
  else Int.tdiv (wrap (unit * f.countSplits vertical)) (c.countSplits vertical)

/-- The frame with its `children` field replaced (`f.children = cs`). -/
def setChildren : Frame → List Frame → Frame
  | mk a fv w h x y win _, cs => mk a fv w h x y win cs

/-- The leaf reached by `setFocus`: `f.children[0]` repeatedly while the frame has
children. -/
def firstLeaf : Frame → Frame
  | mk a fv w h x y win [] => mk a fv w h x y win []
  | mk _ _ _ _ _ _ _ (c :: _) => firstLeaf c

/-- The frame designated by a reference.  A reference lists the child indices from the
frame up to the root: `[]` is the root, and `i :: parent` is child number `i` of the frame
designated by `parent` (so the tail of a reference is the `parent` pointer). -/
def nodeAt (root : Frame) : List Nat → Option Frame
  | [] => some root
  | i :: parent => (nodeAt root parent).bind (fun p => p.children.get? i)

/-- In-place mutation of the frame designated by a reference: the frame is replaced by
`g` of it and the change is carried up to the root. -/
def updateAt (root : Frame) : List Nat → (Frame → Frame) → Frame
  | [], g => g root
  | i :: parent, g => updateAt root parent (fun p => setChildren p (List.modify g i p.children))

/-- The loop of `split` that rebuilds the children of the parent: every child is kept and
the new frame is appended right after the child that is `f` (child number `i`). -/
def insertAfter : List Frame → Nat → Frame → List Frame
  | [], _, _ => []
  | c :: cs, 0, newFrame => c :: newFrame :: cs
  | c :: cs, i + 1, newFrame => c :: insertAfter cs i newFrame

/-- The assignment `cs[i], cs[j] = cs[j], cs[i]` of `exchange`. -/
def swapChildren (cs : List Frame) (i j : Nat) : List Frame :=
  match cs.get? i, cs.get? j with
  | some a, some b => (cs.set i b).set j a
  | _, _ => cs

/-- Modelled from the spec: the layout pass of `Editor.equalWins` (in `editor.go`, which is
not part of the sources at hand): `setSize(true, W / countSplits(true))`,
`setSize(false, H / countSplits(false))`, `setPos(0, 0)` on the root, for a canvas of
`W x H`. -/
def layout (f : Frame) (W H : Int) : Frame :=
  ((f.setSize true (Int.tdiv W (f.countSplits true))).setSize false
    (Int.tdiv H ((f.setSize true (Int.tdiv W (f.countSplits true))).countSplits false))).setPos 0 0

/-- The three calls of the layout pass with given units and origin:
`f.setSize(true, uw)`, `f.setSize(false, uh)`, `f.setPos(x, y)`. -/
def place (f : Frame) (uw uh x y : Int) : Frame :=
  ((f.setSize true uw).setSize false uh).setPos x y

/-- The unit that `f.setSize(vertical, unit)` hands to its child `c`: the unit itself when
`f` splits along the axis, and `unit*max/n` otherwise (in exact integers, see
`childUnit64`). -/
def childUnit (f c : Frame) (vertical : Bool) (unit : Int) : Int :=
  if f.vertical = vertical then unit
  else Int.tdiv (unit * f.countSplits vertical) (c.countSplits vertical)

/-- All frames of a tree, the root first, in depth-first order. -/
def nodes : Frame → List Frame
  | mk a fv w h x y win cs => mk a fv w h x y win cs :: nodesList cs
where
  /-- The frames of a list of trees. -/
  nodesList : List Frame → List Frame
    | [] => []
    | c :: cs => nodes c ++ nodesList cs

/-- The frames without children of a tree, from first to last in layout order. -/
def leaves : Frame → List Frame
  | mk a fv w h x y win [] => [mk a fv w h x y win []]
  | mk _ _ _ _ _ _ _ (c :: cs) => leavesList (c :: cs)
where
  /-- The leaves of a list of trees. -/
  leavesList : List Frame → List Frame
    | [] => []
    | c :: cs => leaves c ++ leavesList cs

/-- The rectangles `[x, x+width) x [y, y+height)` of two frames have a point in common. -/
def overlaps (f g : Frame) : Prop :=
  max f.x g.x < min (f.x + f.width) (g.x + g.width) ∧
    max f.y g.y < min (f.y + f.height) (g.y + g.height)

instance (f g : Frame) : Decidable (overlaps f g) := by
  unfold overlaps; exact inferInstance

/-- The children of a frame are placed one after the other: child number `k` starts, along
the split axis of the frame, at the offset of the frame plus the extents of the children
before it, and has the coordinate of the frame on the other axis. -/
def childrenPlaced (f : Frame) : Prop :=
  ∀ k (hk : k < f.children.length),
    (f.children.get ⟨k, hk⟩).offset f.vertical =
        f.offset f.vertical + ((f.children.take k).map (fun c => c.extent f.vertical)).sum ∧
      (f.children.get ⟨k, hk⟩).offset (!f.vertical) = f.offset (!f.vertical)

/-- The extents along an axis fit: in every frame of the tree the extent is not negative,
the extents of the children add up to at most the extent of the frame when the frame splits
along the axis, and no child is longer than the frame otherwise. -/
def axisOK (f : Frame) (v : Bool) : Prop :=
  ∀ n ∈ nodes f, 0 ≤ n.extent v ∧
    if n.vertical = v then (n.children.map (fun c => c.extent v)).sum ≤ n.extent v
    else ∀ c ∈ n.children, c.extent v ≤ n.extent v

/-- A frame lies in the rectangle `[x0, x0+w) x [y0, y0+h)`. -/
def inside (f : Frame) (x0 y0 w h : Int) : Prop :=
  x0 ≤ f.x ∧ f.x + f.width ≤ x0 + w ∧ y0 ≤ f.y ∧ f.y + f.height ≤ y0 + h

/-- The rectangle `(x, y, width, height)` of a frame. -/
def rect (f : Frame) : Int × Int × Int × Int := (f.x, f.y, f.width, f.height)

/-- A leaf with a window, all geometry zero. -/
def leafOf (addr win : Nat) : Frame := mk addr false 0 0 0 0 (some win) []

/-- Example: a vertical root with three leaves (`vsplit, vsplit`). -/
def exampleRow : Frame :=
  mk 0 true 0 0 0 0 none [leafOf 2 0, leafOf 3 2, leafOf 1 1]

/-- Example: a horizontal root over a vertical node with two leaves and a vertical node
with three leaves. -/
def exampleMixed : Frame :=
  mk 0 false 0 0 0 0 none
    [mk 2 true 0 0 0 0 none [leafOf 4 0, leafOf 3 2],
     mk 1 true 0 0 0 0 none [leafOf 6 1, leafOf 7 4, leafOf 5 3]]

/-- Example: a vertical root with five leaves. -/
def exampleFive : Frame :=
  mk 0 true 0 0 0 0 none [leafOf 1 0, leafOf 2 1, leafOf 3 2, leafOf 4 3, leafOf 5 4]

mutual
/-- The shape of a tree: the same frames (address, orientation, window, children in order)
with the geometry set to zero. -/
def skeleton : Frame → Frame
  | mk a fv _ _ _ _ win cs => mk a fv 0 0 0 0 win (skeletonList cs)
/-- The shapes of a list of trees. -/
def skeletonList : List Frame → List Frame
  | [] => []
  | c :: cs => skeleton c :: skeletonList cs
end

/-- The node invariant: every frame of the tree is a leaf (a window, no children) or an
internal node (no window, at least one child). -/
def nodeInv (f : Frame) : Prop :=
  ∀ n ∈ nodes f, (n.win.isSome = true ∧ n.children = []) ∨ (n.win = none ∧ n.children ≠ [])

/-- A root without window and without children (what is left when the last leaf has been
closed). -/
def emptyRoot (f : Frame) : Prop := f.win = none ∧ f.children = []

/-- The frames of a tree in depth-first order, each as the pair of its address and its
window. -/
def tags (f : Frame) : List (Nat × Option Nat) :=
  (nodes f).map (fun n => (n.addr, n.win))

end Frame

/-! ## Editor state and the structural operations -/

/-- The part of the Go struct `Editor` used by the split tree: the root frame, the window
registry `wins` (window id to the address of `win.frame`), the counter `winIndex`, the next
free frame address (the allocator), the active window and the size of the canvas. -/
structure Editor where
  topFrame : Frame
  wins : List (Nat × Nat)
  winIndex : Nat
  frameIndex : Nat
  activeWin : Option Nat
  width : Int
  height : Int
  deriving Repr

namespace Editor

/-- `editor.wins[id] = w`, the window `w` having `w.frame` at address `addr`. -/
def registerWin (wins : List (Nat × Nat)) (id addr : Nat) : List (Nat × Nat) :=
  (id, addr) :: wins.filter (fun p => p.1 ≠ id)

/-- `delete(editor.wins, id)`. -/
def deleteWin (wins : List (Nat × Nat)) (id : Nat) : List (Nat × Nat) :=
  wins.filter (fun p => p.1 ≠ id)

/-- `win.frame = frame` for the window `id`, as seen through the registry. -/
def setWinFrame (wins : List (Nat × Nat)) (id addr : Nat) : List (Nat × Nat) :=
  wins.map (fun p => if p.1 = id then (id, addr) else p)

/-- Modelled from the spec: `Editor.equalWins` (in `editor.go`, which is not part of the
sources at hand) recomputes the geometry of the whole tree for the canvas of the editor. -/
def equalWins (e : Editor) : Editor :=
  { e with topFrame := e.topFrame.layout e.width e.height }

/-- `Frame.setFocus` on the frame designated by `f`: descends to the first leaf and makes
its window the active one.  `none` is the nil dereference of a leaf without window (or a
reference that designates no frame). -/
def setFocus (e : Editor) (f : List Nat) : Option Editor :=
  match Frame.nodeAt e.topFrame f with
  | none => none
  | some n =>
    match n.firstLeaf.win with
    | none => none
    | some id => some { e with activeWin := some id }

/-- The orientation of the parent of the frame designated by `f` (`none`: no parent). -/
def parentVertical (e : Editor) : List Nat → Option Bool
  | [] => none
  | _ :: parent => (Frame.nodeAt e.topFrame parent).map Frame.vertical

/-- The branch `parent != nil && parent.vertical == vertical` of `split`, `NewWindow`
included: the new frame (address `frameIndex`) holds the new window (id `winIndex`) and is
put into the children of the parent right after `f`. -/
def splitInsert (e : Editor) (f : List Nat) : Editor :=
  { e with
    topFrame := Frame.updateAt e.topFrame f.tail (fun p =>
      Frame.setChildren p (Frame.insertAfter p.children f.headI
        (Frame.mk e.frameIndex false 0 0 0 0 (some e.winIndex) [])))
    wins := registerWin e.wins e.winIndex e.frameIndex
    winIndex := e.winIndex + 1
    frameIndex := e.frameIndex + 1 }

/-- The other branch of `split`, `NewWindow` included: `f` (address `a`, geometry
`w, h, x, y`, window `wid`) becomes a node of the orientation of the split, without window,
over a new frame (address `frameIndex + 1`) that takes the window `wid` and the new frame
(address `frameIndex`) that holds the new window (id `winIndex`). -/
def splitConvert (e : Editor) (f : List Nat) (vertical : Bool) (a : Nat) (w h x y : Int)
    (wid : Nat) : Editor :=
  { e with
    topFrame := Frame.updateAt e.topFrame f (fun _ =>
      Frame.mk a vertical w h x y none
        [Frame.mk (e.frameIndex + 1) false 0 0 0 0 (some wid) [],
         Frame.mk e.frameIndex false 0 0 0 0 (some e.winIndex) []])
    wins := setWinFrame (registerWin e.wins e.winIndex e.frameIndex) wid (e.frameIndex + 1)
    winIndex := e.winIndex + 1
    frameIndex := e.frameIndex + 2 }

/-- `Frame.split` on the frame designated by `f`.  `none`: the reference designates no
frame, or a nil dereference in `setFocus`. -/
def split (e : Editor) (f : List Nat) (vertical : Bool) : Option Editor :=
  match Frame.nodeAt e.topFrame f with
  | none => none
  | some (Frame.mk a fv w h x y win cs) =>
    if (Frame.mk a fv w h x y win cs).hasChildren then some e
    else
      match win with
      | none => some e
      | some wid =>
        if parentVertical e f = some vertical then
          setFocus (equalWins (splitInsert e f)) f
        else
          setFocus (equalWins (splitConvert e f vertical a w h x y wid)) f

/-- `Frame.close` on the frame designated by the reference: the editor after the call and
the returned frame (`newFocus`, as a reference into the new tree; `none` is nil).  The outer
`none` is a nil dereference in `setFocus` or a reference that designates no frame. -/
def close (e : Editor) : List Nat → Option (Editor × Option (List Nat))
  | [] => some (e, none)
  | i :: parent =>
    match Frame.nodeAt e.topFrame (i :: parent), Frame.nodeAt e.topFrame parent with
    | some f, some p =>
      if f.hasChildren then some (e, none)
      else
        let children := p.children.eraseIdx i
        let e1 : Editor :=
          { e with topFrame := Frame.updateAt e.topFrame parent (fun q =>
              Frame.setChildren q children) }
        let r : Option (Editor × Option (List Nat)) :=
          if children.length = 0 then close e1 parent
          else some (e1, some ((if i > 0 then i - 1 else i) :: parent))
        match r with
        | none => none
        | some (e2, newFocus) =>
          match f.win with
          | none => some (e2, newFocus)
          | some id =>
            let e3 := equalWins { e2 with wins := deleteWin e2.wins id }
            match newFocus with
            | none => some (e3, none)
            | some nf => (setFocus e3 nf).map (fun e4 => (e4, some nf))
    | _, _ => none

/-- `Frame.exchange` on the frame designated by the reference.  `none`: a nil dereference
in `setFocus` or a reference that designates no frame. -/
def exchange (e : Editor) : List Nat → Option Editor
  | [] => some e
  | i :: parent =>
    match Frame.nodeAt e.topFrame (i :: parent), Frame.nodeAt e.topFrame parent with
    | some _, some p =>
      if p.children.length = 1 then exchange e parent
      else
        let children :=
          if i = p.children.length - 1 then Frame.swapChildren p.children i (i - 1)
          else Frame.swapChildren p.children i (i + 1)
        let e1 : Editor :=
          { e with topFrame := Frame.updateAt e.topFrame parent (fun q =>
              Frame.setChildren q children) }
        setFocus (equalWins e1) (i :: parent)
    | _, _ => none

/-- The editors reachable from an editor whose tree is a single leaf with a window, by
calls of `split`, `close` and `exchange` that return. -/
inductive Reachable : Editor → Prop
  | init (a wid : Nat) (fv : Bool) (w h x y : Int) (wins : List (Nat × Nat))
      (winIndex frameIndex : Nat) (activeWin : Option Nat) (width height : Int) :
      Reachable
        { topFrame := Frame.mk a fv w h x y (some wid) [], wins := wins, winIndex := winIndex,
          frameIndex := frameIndex, activeWin := activeWin, width := width, height := height }
  | split (e e2 : Editor) (f : List Nat) (vertical : Bool) :
      Reachable e → split e f vertical = some e2 → Reachable e2
  | close (e e2 : Editor) (f : List Nat) (newFocus : Option (List Nat)) :
      Reachable e → close e f = some (e2, newFocus) → Reachable e2
  | exchange (e e2 : Editor) (f : List Nat) :
      Reachable e → exchange e f = some e2 → Reachable e2

/-- Example: an editor with one window on a canvas of 300 x 100. -/
def exampleEditor : Editor :=
  { topFrame := Frame.mk 0 false 300 100 0 0 (some 0) [], wins := [(0, 0)], winIndex := 1,
    frameIndex := 1, activeWin := some 0, width := 300, height := 100 }

/-- Example: the editor with the row of three leaves on a canvas of 300 x 100. -/
def exampleRowEditor : Editor :=
  { topFrame := Frame.exampleRow, wins := [(2, 3), (1, 1), (0, 2)], winIndex := 3,
    frameIndex := 4, activeWin := some 0, width := 300, height := 100 }

/-! ## Moving the focus to a neighbour -/

/-- The frame `win.frame` of a registry entry: the first frame of the tree with the address
the registry holds for the window (`none`: no frame of the tree has this address). -/
def frameAt (root : Frame) (addr : Nat) : Option Frame :=
  (Frame.nodes root).find? (fun n => n.addr == addr)

/-- `Frame.setFocus` on a frame given as such: descends to the first leaf and makes its
window the active one (`none`: the nil dereference of a leaf without window). -/
def focusFrame (e : Editor) (c : Frame) : Option Editor :=
  match c.firstLeaf.win with
  | none => none
  | some id => some { e with activeWin := some id }

/-- The loop `for _, win := range editor.wins` of the four focus functions: the first
window, in the order of the iteration, whose frame passes the test gets the focus and the
loop ends; when no frame passes, nothing changes.  The list is the order in which the Go
map is iterated, which the language leaves open.  `none`: a window whose frame is not in
the tree, or a nil dereference in `setFocus`. -/
def focusScan (e : Editor) (test : Frame → Bool) : List (Nat × Nat) → Option Editor
  | [] => some e
  | (_, addr) :: rest =>
    match frameAt e.topFrame addr with
    | none => none
    | some c => if test c then focusFrame e c else focusScan e test rest

/-- The test of `focusAbove` for the frame `c` of a window, seen from the frame `f`. -/
def isAbove (f c : Frame) : Bool :=
  let y := f.y - (c.y + c.height)
  let x1 := f.x - c.x
  let x2 := f.x - (c.x + c.width)
  decide (y < 1) && decide (y ≥ 0) && decide (x1 ≥ 0) && decide (x2 < 0)

/-- The test of `focusBelow` for the frame `c` of a window, seen from the frame `f`. -/
def isBelow (f c : Frame) : Bool :=
  let y := c.y - (f.y + f.height)
  let x1 := f.x - c.x
  let x2 := f.x - (c.x + c.width)
  decide (y < 1) && decide (y ≥ 0) && decide (x1 ≥ 0) && decide (x2 < 0)

/-- The test of `focusLeft` for the frame `c` of a window, seen from the frame `f`. -/
def isLeft (f c : Frame) : Bool :=
  let x := f.x - (c.x + c.width)
  let y1 := f.y - c.y
  let y2 := f.y - (c.y + c.height)
  decide (x < 1) && decide (x ≥ 0) && decide (y1 ≥ 0) && decide (y2 < 0)

/-- The test of `focusRight` for the frame `c` of a window, seen from the frame `f`. -/
def isRight (f c : Frame) : Bool :=
  let x := c.x - (f.x + f.width)
  let y1 := f.y - c.y
  let y2 := f.y - (c.y + c.height)
  decide (x < 1) && decide (x ≥ 0) && decide (y1 ≥ 0) && decide (y2 < 0)

/-- `Frame.focusAbove` on the frame designated by `f`, the registry being iterated in the
given order. -/
def focusAbove (e : Editor) (f : List Nat) (order : List (Nat × Nat)) : Option Editor :=
  match Frame.nodeAt e.topFrame f with
  | none => none
  | some n => focusScan e (isAbove n) order

/-- `Frame.focusBelow` on the frame designated by `f`, the registry being iterated in the
given order. -/
def focusBelow (e : Editor) (f : List Nat) (order : List (Nat × Nat)) : Option Editor :=
  match Frame.nodeAt e.topFrame f with
  | none => none
  | some n => focusScan e (isBelow n) order

/-- `Frame.focusLeft` on the frame designated by `f`, the registry being iterated in the
given order. -/
def focusLeft (e : Editor) (f : List Nat) (order : List (Nat × Nat)) : Option Editor :=
  match Frame.nodeAt e.topFrame f with
  | none => none
  | some n => focusScan e (isLeft n) order

/-- `Frame.focusRight` on the frame designated by `f`, the registry being iterated in the
given order. -/
def focusRight (e : Editor) (f : List Nat) (order : List (Nat × Nat)) : Option Editor :=
  match Frame.nodeAt e.topFrame f with
  | none => none
  | some n => focusScan e (isRight n) order

/-- Every window of the registry has its frame in the tree, and that frame is a leaf that
holds the window. -/
def registryOK (e : Editor) : Prop :=
  ∀ p ∈ e.wins,
    (frameAt e.topFrame p.2).map (fun c => (c.hasChildren, c.win)) = some (false, some p.1)

instance (e : Editor) : Decidable (registryOK e) := by
  unfold registryOK; exact inferInstance

/-- Example: two staggered leaves, window 0 at `(0, 0)` and window 1 at `(100, 50)`, both
200 wide and 50 high. -/
def exampleStaggered : Editor :=
  { topFrame := Frame.mk 0 false 300 100 0 0 none
      [Frame.mk 1 false 200 50 0 0 (some 0) [], Frame.mk 2 false 200 50 100 50 (some 1) []],
    wins := [(0, 1), (1, 2)], winIndex := 2, frameIndex := 3, activeWin := some 0,
    width := 300, height := 100 }

/-- Example: a vertical root over a leaf (window 0) and a horizontal frame whose only child
is a leaf (window 1), as `split` followed by `close` leaves it, laid out for 300 x 100. -/
def exampleChain : Editor :=
  { topFrame := Frame.mk 0 true 300 100 0 0 none
      [Frame.mk 1 false 150 100 0 0 (some 0) [],
       Frame.mk 2 false 150 100 150 0 none [Frame.mk 3 false 150 100 150 0 (some 1) []]],
    wins := [(0, 1), (1, 3)], winIndex := 2, frameIndex := 4, activeWin := some 1,
    width := 300, height := 100 }

/-- Example: the editor with one window after `split(true)` of its root. -/
def exampleSplit : Editor :=
  { topFrame := Frame.mk 0 true 300 100 0 0 none
      [Frame.mk 2 false 150 100 0 0 (some 0) [], Frame.mk 1 false 150 100 150 0 (some 1) []],
    wins := [(1, 1), (0, 2)], winIndex := 2, frameIndex := 3, activeWin := some 0,
    width := 300, height := 100 }

/-! ## The registry and the tree -/

/-- A registry `wins` matches the frames `tags` of a tree: no two frames have the same
address and no two entries the same window id, the addresses lie below `frameIndex` and the
ids below `winIndex` (new frames and `NewWindow` take the next ones), and the registry
holds the entry `(id, addr)` exactly when the frame at `addr` holds the window `id`. -/
def registryMatches (tags : List (Nat × Option Nat)) (wins : List (Nat × Nat))
    (frameIndex winIndex : Nat) : Prop :=
  (tags.map Prod.fst).Nodup ∧ (∀ x ∈ tags, x.1 < frameIndex) ∧
  (wins.map Prod.fst).Nodup ∧ (∀ p ∈ wins, p.1 < winIndex) ∧
  ∀ id addr, (id, addr) ∈ wins ↔ (addr, some id) ∈ tags

/-- Consistency of the registry with the tree: the tree has the node invariant, up to the
empty root, and the registry matches its frames. -/
def consistent (e : Editor) : Prop :=
  (Frame.nodeInv e.topFrame ∨ Frame.emptyRoot e.topFrame) ∧
    registryMatches (Frame.tags e.topFrame) e.wins e.frameIndex e.winIndex

/-- An editor whose tree is a single leaf with a window, which is the one entry of the
registry, the counters being beyond the address and the id in use. -/
def singleLeaf (e : Editor) : Prop :=
  e.topFrame.children = [] ∧
    ∃ wid, e.topFrame.win = some wid ∧ e.wins = [(wid, e.topFrame.addr)] ∧
      wid < e.winIndex ∧ e.topFrame.addr < e.frameIndex

/-- The editors reachable from the editor `e0` by calls of `split`, `close` and `exchange`
that return. -/
inductive ReachableFrom (e0 : Editor) : Editor → Prop
  | start : ReachableFrom e0 e0
  | split (e e2 : Editor) (f : List Nat) (vertical : Bool) :
      ReachableFrom e0 e → split e f vertical = some e2 → ReachableFrom e0 e2
  | close (e e2 : Editor) (f : List Nat) (newFocus : Option (List Nat)) :
      ReachableFrom e0 e → close e f = some (e2, newFocus) → ReachableFrom e0 e2
  | exchange (e e2 : Editor) (f : List Nat) :
      ReachableFrom e0 e → exchange e f = some e2 → ReachableFrom e0 e2

end Editor

/-! ## smoothScroll -/

/-- Modelled from the spec: the helper `Abs` (defined outside `win.go`) is the magnitude
of an integer. -/
def Abs (n : Int) : Int := if n < 0 then -n else n

/-- The number of steps `total` of `smoothScroll`: 10, or 3 when both magnitudes are
below 100. -/
def scrollTotal (x y : Int) : Int :=
  if Abs y < 100 ∧ Abs x < 100 then 3 else 10

/-- The initial value of `scroll.dx` (and of `scroll.dy`): the sign of the request when
its magnitude is below `total`, and `x / total` otherwise. -/
def firstStep (x total : Int) : Int :=
  if Abs x < total then
    (if x > 0 then 1 else if x < 0 then -1 else 0)
  else Int.tdiv x total

/-- The adjustment at the head of the loop: when the remaining distance `xDiff` is positive
and smaller than the step, the step becomes the remaining distance with the sign of the
request. -/
def clampStep (x xDiff step : Int) : Int :=
  if xDiff > 0 ∧ xDiff < Abs step then (if x < 0 then -xDiff else xDiff) else step

/-- The step sent when the stop signal is observed: the remaining distance with the sign of
the request. -/
def settleStep (x xDiff : Int) : Int :=
  if x < 0 then -xDiff else xDiff

/-- The `for` loop of the goroutine of `smoothScroll`, as the list of deltas it sends on
`updates`.  `sdx, sdy` are `scroll.dx, scroll.dy`, and `dx, dy` the cumulative magnitudes.
`stop` tells which `select` observes the stop signal: `none` never, `some k` after the timer
has won `k` times.  The first argument bounds the number of iterations (`none`: bound
reached).  A delta is recorded with the values `scroll` has when it is sent. -/
def tickLoop (x y : Int) : Nat → Option Nat → Int → Int → Int → Int → Option (List (Int × Int))
  | 0, _, _, _, _, _ => none
  | fuel + 1, stop, sdx, sdy, dx, dy =>
    let sdx1 := clampStep x (Abs x - dx) sdx
    let sdy1 := clampStep y (Abs y - dy) sdy
    let dx1 := dx + Abs sdx1
    let dy1 := dy + Abs sdy1
    let xDiff := Abs x - dx1
    let yDiff := Abs y - dy1
    match stop with
    | some 0 =>
      if xDiff ≤ 0 ∧ yDiff ≤ 0 then some [(sdx1, sdy1)]
      else some [(sdx1, sdy1), (settleStep x xDiff, settleStep y yDiff)]
    | some (k + 1) =>
      if xDiff ≤ 0 ∧ yDiff ≤ 0 then some [(sdx1, sdy1)]
      else (tickLoop x y fuel (some k) sdx1 sdy1 dx1 dy1).map (fun l => (sdx1, sdy1) :: l)
    | none =>
      if xDiff ≤ 0 ∧ yDiff ≤ 0 then some [(sdx1, sdy1)]
      else (tickLoop x y fuel none sdx1 sdy1 dx1 dy1).map (fun l => (sdx1, sdy1) :: l)

/-- `Window.smoothScroll(x, y, _, _)`: the deltas sent on `updates` until `finished` is
closed; none at all for the request `(0, 0)`.  `fuel` bounds the iterations of the loop and
`stop` is as in `tickLoop`. -/
def smoothScroll (fuel : Nat) (x y : Int) (stop : Option Nat) : Option (List (Int × Int)) :=
  if x = 0 ∧ y = 0 then some []
  else
    tickLoop x y fuel stop (firstStep x (scrollTotal x y)) (firstStep y (scrollTotal x y)) 0 0

/-- The first goroutine of `smoothScrollJob` serving the requests of a list in order: each
request comes with the `stop` of its animation, that is `some k` when the next request
arrives (and the job closes `stop` and waits for `finished`) once the timer has won `k`
times, and `none` when the animation is left to finish.  The result is everything sent on
`updates`. -/
def smoothScrollJob (fuel : Nat) : List ((Int × Int) × Option Nat) → Option (List (Int × Int))
  | [] => some []
  | ((dx, dy), stop) :: rest =>
    match smoothScroll fuel dx dy stop, smoothScrollJob fuel rest with
    | some a, some r => some (a ++ r)
    | _, _ => none

/-- The sum of a list of deltas, axis by axis. -/
def sumDeltas : List (Int × Int) → Int × Int
  | [] => (0, 0)
  | (dx, dy) :: l => (dx + (sumDeltas l).1, dy + (sumDeltas l).2)

/-- The cumulative magnitudes `dx, dy` of the loop after a list of deltas. -/
def cumulative : List (Int × Int) → Int × Int
  | [] => (0, 0)
  | (dx, dy) :: l => (Abs dx + (cumulative l).1, Abs dy + (cumulative l).2)

/-- Modelled from the spec: the rendering side (not in `win.go`) applies every delta it
receives to the scroll offset of the pane. -/
def applyDeltas (start : Int × Int) (l : List (Int × Int)) : Int × Int :=
  (start.1 + (sumDeltas l).1, start.2 + (sumDeltas l).2)

/-! ## The target of a cursor movement -/

namespace Window

/-- The entry `w.buffer.lines[row]` of the lines of a buffer, each line being nil (`none`)
or a text, of which the length `len(text)` is kept.  The outer `none` is an index out of
range. -/
def lineAt (lines : List (Option Nat)) (row : Int) : Option (Option Nat) :=
  if row < 0 then none else lines.get? row.toNat

/-- The length of the text of a line, 0 for a line that is nil (as `setPos` and
`smoothScrollNew` take it) or out of range. -/
def textLen (lines : List (Option Nat)) (row : Int) : Int :=
  match lineAt lines row with
  | some (some n) => (n : Int)
  | _ => 0

/-- The target `(row, col)` computed by `Window.smoothScrollNew` for a request
`(rows, cols)`, from the cursor `(w.row, w.col)`, the sticky column `w.scrollCol` and the
lines of the buffer.  `none`: an index out of range. -/
def smoothScrollNew (lines : List (Option Nat)) (wrow wcol scrollCol rows cols : Int) :
    Option (Int × Int) :=
  let row := wrow + rows
  let col := if cols = 0 then scrollCol else wcol + cols
  let maxRow := (lines.length : Int) - 1
  let row := if row < 0 then 0 else if row > maxRow then maxRow else row
  match lineAt lines row with
  | none => none
  | some line =>
    let maxCol : Int :=
      match line with
      | none => 0
      | some n => (n : Int) - 1
    let maxCol := if maxCol < 0 then 0 else maxCol
    let col := if col < 0 then 0 else if col > maxCol then maxCol else col
    some (row, col)

/-- The target `(row, col)` computed by `Window.scrollRow` for a request `rows`, from the
cursor row `w.row`, the sticky column `w.scrollCol` and the lines of the buffer (the
position the cursor gets when the call jumps).  `none`: an index out of range. -/
def scrollRow (lines : List (Option Nat)) (wrow scrollCol rows : Int) : Option (Int × Int) :=
  let row := wrow + rows
  let row :=
    if row < 0 then 0
    else if row > (lines.length : Int) - 1 then (lines.length : Int) - 1 else row
  match lineAt lines row with
  | none => none
  | some none => some (row, scrollCol)
  | some (some n) =>
    let maxCol : Int := (n : Int) - 2
    let maxCol := if maxCol < 0 then 0 else maxCol
    some (row, if scrollCol > maxCol then maxCol else scrollCol)

end Window

end Lapce

/-! # Theorems -/

namespace Lapce
namespace Frame

/-! ## Induction over frames -/

/-- Induction over a tree of frames: a property holds of every frame when it holds of a
frame as soon as it holds of all its children. -/
theorem induct {P : Frame → Prop}
    (step : ∀ a fv w h x y win cs, (∀ c ∈ cs, P c) → P (mk a fv w h x y win cs)) :
    ∀ f, P f := by
  intro f
  exact @Frame.rec P (fun cs => ∀ c ∈ cs, P c)
    (fun a fv w h x y win cs ih => step a fv w h x y win cs ih)
    (fun c hc => by cases hc)
    (fun c cs hc hcs d hd => by
      rcases List.mem_cons.1 hd with rfl | hd
      · exact hc
      · exact hcs d hd) f

/-! ## Facts about `countSplits` -/

theorem countSum_eq (cs : List Frame) (v : Bool) (n : Int) :
    countSum cs v n = n + (cs.map (fun c => countSplits c v)).sum := by
  induction cs generalizing n with
  | nil => simp [countSum]
  | cons c cs ih => simp [countSum, ih, add_assoc]

theorem countMax_ge_acc (cs : List Frame) (v : Bool) (n : Int) : n ≤ countMax cs v n := by
  induction cs generalizing n with
  | nil => simp [countMax]
  | cons c cs ih =>
    simp only [countMax]
    refine le_trans ?_ (ih _)
    split <;> omega

theorem countMax_ge_mem (cs : List Frame) (v : Bool) (n : Int) :
    ∀ c ∈ cs, countSplits c v ≤ countMax cs v n := by
  induction cs generalizing n with
  | nil => intro c hc; cases hc
  | cons d cs ih =>
    intro c hc
    simp only [countMax]
    rcases List.mem_cons.1 hc with rfl | hc
    · refine le_trans ?_ (countMax_ge_acc cs v _)
      split <;> omega
    · exact ih _ c hc

theorem countSplits_leaf (a : Nat) (fv : Bool) (w h x y : Int) (win : Option Nat) (v : Bool) :
    countSplits (mk a fv w h x y win []) v = 1 := by
  simp [countSplits]

theorem countSplits_node (a : Nat) (fv : Bool) (w h x y : Int) (win : Option Nat)
    (c : Frame) (cs : List Frame) (v : Bool) :
    countSplits (mk a fv w h x y win (c :: cs)) v =
      if fv = v then countSum (c :: cs) v 0 else countMax (c :: cs) v 0 := by
  simp [countSplits]

theorem countSplits_pos (f : Frame) (v : Bool) : 1 ≤ countSplits f v := by
  induction f using induct with
  | step a fv w h x y win cs ih =>
    cases cs with
    | nil => simp [countSplits]
    | cons c cs =>
      rw [countSplits_node]
      split
      · rw [countSum_eq]
        have h1 := ih c (List.mem_cons_self _ _)
        have h2 : 0 ≤ (cs.map (fun c => countSplits c v)).sum := by
          apply List.sum_nonneg
          intro z hz
          rcases List.mem_map.1 hz with ⟨d, hd, rfl⟩
          have := ih d (List.mem_cons_of_mem _ hd)
          omega
        simp only [List.map_cons, List.sum_cons]
        omega
      · exact le_trans (ih c (List.mem_cons_self _ _))
          (countMax_ge_mem (c :: cs) v 0 c (List.mem_cons_self _ _))

theorem countSplits_same (f : Frame) (h : f.children ≠ []) :
    countSplits f f.vertical = (f.children.map (fun c => countSplits c f.vertical)).sum := by
  cases f with
  | mk a fv w h' x y win cs =>
    cases cs with
    | nil => exact absurd rfl h
    | cons c cs =>
      simp only [vertical, children]
      rw [countSplits_node, if_pos rfl, countSum_eq]
      simp

end Frame
end Lapce

namespace Lapce
namespace Frame

/-! ## Facts about `setSize` -/

theorem setSizeSame_eq_map (cs : List Frame) (v : Bool) (u : Int) :
    setSizeSame cs v u = cs.map (fun c => setSize c v u) := by
  induction cs with
  | nil => simp [setSizeSame]
  | cons c cs ih => simp [setSizeSame, ih]

theorem setSizeScaled_eq_map (cs : List Frame) (v : Bool) (u m : Int) :
    setSizeScaled cs v u m =
      cs.map (fun c => setSize c v (Int.tdiv (u * m) (countSplits c v))) := by
  induction cs with
  | nil => simp [setSizeScaled]
  | cons c cs ih => simp [setSizeScaled, ih]

theorem setSize_node (a : Nat) (fv : Bool) (w h x y : Int) (win : Option Nat) (c : Frame)
    (cs : List Frame) (v : Bool) (u : Int) :
    setSize (mk a fv w h x y win (c :: cs)) v u =
      mk a fv (if v then countSplits (mk a fv w h x y win (c :: cs)) v * u else w)
        (if v then h else countSplits (mk a fv w h x y win (c :: cs)) v * u) x y win
        (if fv = v then (c :: cs).map (fun d => setSize d v u)
         else (c :: cs).map (fun d => setSize d v
          (Int.tdiv (u * countSplits (mk a fv w h x y win (c :: cs)) v) (countSplits d v)))) := by
  by_cases hv : fv = v
  · simp only [setSize, hv, if_true, setSizeSame_eq_map]
  · simp only [setSize, hv, if_false, setSizeScaled_eq_map]

theorem setSize_children (f : Frame) (v : Bool) (u : Int) :
    (setSize f v u).children =
      if f.vertical = v then f.children.map (fun c => setSize c v u)
      else f.children.map
        (fun c => setSize c v (Int.tdiv (u * countSplits f v) (countSplits c v))) := by
  cases f with
  | mk a fv w h x y win cs =>
    cases cs with
    | nil => cases v <;> simp [setSize, children]
    | cons c cs => rw [setSize_node]; simp only [children, vertical]

theorem setSize_vertical (f : Frame) (v : Bool) (u : Int) :
    (setSize f v u).vertical = f.vertical := by
  cases f with
  | mk a fv w h x y win cs =>
    cases cs with
    | nil => cases v <;> simp [setSize, vertical]
    | cons c cs => rw [setSize_node]; simp [vertical]

theorem setSize_addr (f : Frame) (v : Bool) (u : Int) : (setSize f v u).addr = f.addr := by
  cases f with
  | mk a fv w h x y win cs =>
    cases cs with
    | nil => cases v <;> simp [setSize, addr]
    | cons c cs => rw [setSize_node]; simp [addr]

theorem setSize_win (f : Frame) (v : Bool) (u : Int) : (setSize f v u).win = f.win := by
  cases f with
  | mk a fv w h x y win cs =>
    cases cs with
    | nil => cases v <;> simp [setSize, Frame.win]
    | cons c cs => rw [setSize_node]; simp [Frame.win]

theorem setSize_x (f : Frame) (v : Bool) (u : Int) : (setSize f v u).x = f.x := by
  cases f with
  | mk a fv w h x y win cs =>
    cases cs with
    | nil => cases v <;> simp [setSize, Frame.x]
    | cons c cs => rw [setSize_node]; simp [Frame.x]

theorem setSize_y (f : Frame) (v : Bool) (u : Int) : (setSize f v u).y = f.y := by
  cases f with
  | mk a fv w h x y win cs =>
    cases cs with
    | nil => cases v <;> simp [setSize, Frame.y]
    | cons c cs => rw [setSize_node]; simp [Frame.y]

/-- After `setSize(vertical, unit)` the extent along the axis is `countSplits * unit`. -/
theorem setSize_extent (f : Frame) (v : Bool) (u : Int) :
    (setSize f v u).extent v = countSplits f v * u := by
  cases f with
  | mk a fv w h x y win cs =>
    cases cs with
    | nil => cases v <;> simp [setSize, extent, width, height, countSplits]
    | cons c cs =>
      rw [setSize_node]
      cases v <;> simp [extent, width, height]

/-- `setSize` leaves the extent along the other axis alone. -/
theorem setSize_extent_other (f : Frame) (v : Bool) (u : Int) :
    (setSize f v u).extent (!v) = f.extent (!v) := by
  cases f with
  | mk a fv w h x y win cs =>
    cases cs with
    | nil => cases v <;> simp [setSize, extent, width, height]
    | cons c cs =>
      rw [setSize_node]
      cases v <;> simp [extent, width, height]

theorem countSum_congr (cs ds : List Frame) (v : Bool) (n : Int)
    (h : cs.map (fun c => countSplits c v) = ds.map (fun c => countSplits c v)) :
    countSum cs v n = countSum ds v n := by
  rw [countSum_eq, countSum_eq, h]

theorem countMax_congr (cs ds : List Frame) (v : Bool) (n : Int)
    (h : cs.map (fun c => countSplits c v) = ds.map (fun c => countSplits c v)) :
    countMax cs v n = countMax ds v n := by
  induction cs generalizing ds n with
  | nil =>
    cases ds with
    | nil => rfl
    | cons d ds => simp at h
  | cons c cs ih =>
    cases ds with
    | nil => simp at h
    | cons d ds =>
      simp only [List.map_cons, List.cons.injEq] at h
      simp only [countMax, h.1]
      exact ih ds _ h.2

/-- The count of a frame is determined by its orientation and the counts of its children. -/
theorem countSplits_congr (f g : Frame) (v : Bool) (hv : f.vertical = g.vertical)
    (h : f.children.map (fun c => countSplits c v) = g.children.map (fun c => countSplits c v)) :
    countSplits f v = countSplits g v := by
  cases f with
  | mk a fv w h1 x y win cs =>
    cases g with
    | mk a2 gv w2 h2 x2 y2 win2 ds =>
      simp only [vertical, children] at hv h
      subst hv
      cases cs with
      | nil =>
        cases ds with
        | nil => simp [countSplits]
        | cons d ds => simp at h
      | cons c cs =>
        cases ds with
        | nil => simp at h
        | cons d ds =>
          rw [countSplits_node, countSplits_node]
          split
          · exact countSum_congr _ _ _ _ h
          · exact countMax_congr _ _ _ _ h

/-- `setSize` does not change any count. -/
theorem countSplits_setSize (f : Frame) (v : Bool) (u : Int) (v2 : Bool) :
    countSplits (setSize f v u) v2 = countSplits f v2 := by
  induction f using induct generalizing u with
  | step a fv w h x y win cs ih =>
    apply countSplits_congr
    · exact setSize_vertical _ _ _
    · rw [setSize_children]
      simp only [children]
      split
      · rw [List.map_map]
        apply List.map_congr_left
        intro c hc
        exact ih c hc u
      · rw [List.map_map]
        apply List.map_congr_left
        intro c hc
        exact ih c hc _

end Frame
end Lapce

namespace Lapce
namespace Frame

/-! ## Facts about `setPos`, `nodes` and `leaves` -/

@[simp] theorem addr_mk (a : Nat) (fv : Bool) (w h x y : Int) (win : Option Nat)
    (cs : List Frame) : (mk a fv w h x y win cs).addr = a := rfl

@[simp] theorem vertical_mk (a : Nat) (fv : Bool) (w h x y : Int) (win : Option Nat)
    (cs : List Frame) : (mk a fv w h x y win cs).vertical = fv := rfl

@[simp] theorem width_mk (a : Nat) (fv : Bool) (w h x y : Int) (win : Option Nat)
    (cs : List Frame) : (mk a fv w h x y win cs).width = w := rfl

@[simp] theorem height_mk (a : Nat) (fv : Bool) (w h x y : Int) (win : Option Nat)
    (cs : List Frame) : (mk a fv w h x y win cs).height = h := rfl

@[simp] theorem x_mk (a : Nat) (fv : Bool) (w h x y : Int) (win : Option Nat)
    (cs : List Frame) : (mk a fv w h x y win cs).x = x := rfl

@[simp] theorem y_mk (a : Nat) (fv : Bool) (w h x y : Int) (win : Option Nat)
    (cs : List Frame) : (mk a fv w h x y win cs).y = y := rfl

@[simp] theorem win_mk (a : Nat) (fv : Bool) (w h x y : Int) (win : Option Nat)
    (cs : List Frame) : (mk a fv w h x y win cs).win = win := rfl

@[simp] theorem children_mk (a : Nat) (fv : Bool) (w h x y : Int) (win : Option Nat)
    (cs : List Frame) : (mk a fv w h x y win cs).children = cs := rfl

theorem extent_true (f : Frame) : f.extent true = f.width := rfl

theorem extent_false (f : Frame) : f.extent false = f.height := rfl

theorem setPos_width (f : Frame) (x y : Int) : (setPos f x y).width = f.width := by
  cases f; simp [setPos, width]

theorem setPos_height (f : Frame) (x y : Int) : (setPos f x y).height = f.height := by
  cases f; simp [setPos, height]

theorem setPos_x (f : Frame) (x y : Int) : (setPos f x y).x = x := by
  cases f; simp [setPos, Frame.x]

theorem setPos_y (f : Frame) (x y : Int) : (setPos f x y).y = y := by
  cases f; simp [setPos, Frame.y]

theorem setPos_vertical (f : Frame) (x y : Int) : (setPos f x y).vertical = f.vertical := by
  cases f; simp [setPos, vertical]

theorem setPos_children (f : Frame) (x y : Int) :
    (setPos f x y).children = setPosChildren f.children f.vertical x y := by
  cases f; simp [setPos, children, vertical]

theorem setPosChildren_cons (c : Frame) (cs : List Frame) (fv : Bool) (x y : Int) :
    setPosChildren (c :: cs) fv x y =
      setPos c x y :: setPosChildren cs fv (if fv then x + c.width else x)
        (if fv then y else y + c.height) := by
  cases fv <;> simp [setPosChildren, setPos_width, setPos_height]

theorem setPosChildren_length (cs : List Frame) (fv : Bool) (x y : Int) :
    (setPosChildren cs fv x y).length = cs.length := by
  induction cs generalizing x y with
  | nil => simp [setPosChildren]
  | cons c cs ih => rw [setPosChildren_cons]; simp [ih]

theorem mem_nodesList (cs : List Frame) (n : Frame) :
    n ∈ nodes.nodesList cs ↔ ∃ c ∈ cs, n ∈ nodes c := by
  induction cs with
  | nil => simp [nodes.nodesList]
  | cons c cs ih => simp [nodes.nodesList, ih]

theorem mem_nodes_mk (a : Nat) (fv : Bool) (w h x y : Int) (win : Option Nat)
    (cs : List Frame) (n : Frame) :
    n ∈ nodes (mk a fv w h x y win cs) ↔
      n = mk a fv w h x y win cs ∨ ∃ c ∈ cs, n ∈ nodes c := by
  simp [nodes, mem_nodesList]

theorem mem_nodes_iff (f n : Frame) :
    n ∈ nodes f ↔ n = f ∨ ∃ c ∈ f.children, n ∈ nodes c := by
  cases f; simp [mem_nodes_mk, children]

theorem leaves_eq (f : Frame) :
    leaves f = if f.hasChildren then leaves.leavesList f.children else [f] := by
  cases f with
  | mk a fv w h x y win cs =>
    cases cs <;> simp [leaves, children, hasChildren]

theorem leavesList_cons (c : Frame) (cs : List Frame) :
    leaves.leavesList (c :: cs) = leaves c ++ leaves.leavesList cs := by
  simp [leaves.leavesList]

end Frame
end Lapce

namespace Lapce
namespace Frame

/-! ## The size invariant of the layout pass -/

theorem axisOK_iff (f : Frame) (v : Bool) :
    axisOK f v ↔
      (0 ≤ f.extent v ∧
        (if f.vertical = v then (f.children.map (fun c => c.extent v)).sum ≤ f.extent v
         else ∀ c ∈ f.children, c.extent v ≤ f.extent v)) ∧
      ∀ c ∈ f.children, axisOK c v := by
  unfold axisOK
  constructor
  · intro h
    refine ⟨h f ((mem_nodes_iff f f).2 (Or.inl rfl)), ?_⟩
    intro c hc n hn
    exact h n ((mem_nodes_iff f n).2 (Or.inr ⟨c, hc, hn⟩))
  · rintro ⟨h1, h2⟩ n hn
    rcases (mem_nodes_iff f n).1 hn with rfl | ⟨c, hc, hn⟩
    · exact h1
    · exact h2 c hc n hn

theorem sum_map_mul (cs : List Frame) (g : Frame → Int) (u : Int) :
    (cs.map (fun c => g c * u)).sum = (cs.map g).sum * u := by
  induction cs with
  | nil => simp
  | cons c cs ih => simp [ih, add_mul]

/-- The unit handed to a child of the other orientation is at least the unit of the
parent, and the extent of the child is at most that of the parent. -/
theorem scaled_bounds (u m n : Int) (hu : 0 ≤ u) (hn : 1 ≤ n) (hnm : n ≤ m) :
    u ≤ Int.tdiv (u * m) n ∧ n * Int.tdiv (u * m) n ≤ m * u := by
  have hm : 0 ≤ m := by omega
  have hum : 0 ≤ u * m := Int.mul_nonneg hu hm
  rw [Int.tdiv_eq_ediv hum (by omega)]
  constructor
  · apply Int.le_ediv_of_mul_le (by omega)
    nlinarith
  · have := Int.ediv_mul_le (u * m) (show n ≠ 0 by omega)
    nlinarith

/-- After `setSize` with a unit that is not negative the extents along the axis fit. -/
theorem axisOK_setSize (f : Frame) (v : Bool) (u : Int) (hu : 0 ≤ u) :
    axisOK (setSize f v u) v := by
  induction f using induct generalizing u with
  | step a fv w h x y win cs ih =>
    rw [axisOK_iff]
    have hpos := countSplits_pos (mk a fv w h x y win cs) v
    refine ⟨⟨?_, ?_⟩, ?_⟩
    · rw [setSize_extent]
      exact Int.mul_nonneg (by omega) hu
    · rw [setSize_extent, setSize_vertical, setSize_children]
      simp only [vertical, children]
      split
      · rename_i hv
        rw [List.map_map]
        have : (List.map ((fun c => c.extent v) ∘ fun c => c.setSize v u) cs)
            = cs.map (fun c => countSplits c v * u) := by
          apply List.map_congr_left
          intro c _
          simp [setSize_extent]
        rw [this, sum_map_mul]
        cases cs with
        | nil => simp [countSplits]; exact hu
        | cons c cs =>
          rw [countSplits_node, if_pos hv, countSum_eq]
          simp
      · rename_i hv
        intro c hc
        rcases List.mem_map.1 hc with ⟨d, hd, rfl⟩
        rw [setSize_extent]
        have hdpos := countSplits_pos d v
        have hle : countSplits d v ≤ countSplits (mk a fv w h x y win cs) v := by
          cases cs with
          | nil => cases hd
          | cons c cs =>
            rw [countSplits_node, if_neg hv]
            exact countMax_ge_mem _ _ _ d hd
        have := (scaled_bounds u _ _ hu hdpos hle).2
        linarith
    · rw [setSize_children]
      simp only [vertical, children]
      split
      · intro c hc
        rcases List.mem_map.1 hc with ⟨d, hd, rfl⟩
        exact ih d hd u hu
      · rename_i hv
        intro c hc
        rcases List.mem_map.1 hc with ⟨d, hd, rfl⟩
        apply ih d hd
        have hdpos := countSplits_pos d v
        have hle : countSplits d v ≤ countSplits (mk a fv w h x y win cs) v := by
          cases cs with
          | nil => cases hd
          | cons c cs =>
            rw [countSplits_node, if_neg hv]
            exact countMax_ge_mem _ _ _ d hd
        have := (scaled_bounds u _ _ hu hdpos hle).1
        omega

/-- `setSize` along one axis keeps the fit along the other axis. -/
theorem axisOK_setSize_other (f : Frame) (v : Bool) (u : Int) (h : axisOK f (!v)) :
    axisOK (setSize f v u) (!v) := by
  induction f using induct generalizing u with
  | step a fv w h1 x y win cs ih =>
    rw [axisOK_iff] at h ⊢
    obtain ⟨⟨h0, hn⟩, hc⟩ := h
    have key : ∀ (g : Frame → Int), (List.map (fun c => c.extent (!v))
        (cs.map (fun c => setSize c v (g c)))) = cs.map (fun c => c.extent (!v)) := by
      intro g
      rw [List.map_map]
      apply List.map_congr_left
      intro c _
      simp [setSize_extent_other]
    refine ⟨⟨?_, ?_⟩, ?_⟩
    · rw [setSize_extent_other]; exact h0
    · rw [setSize_extent_other, setSize_vertical, setSize_children]
      simp only [vertical, children] at hn ⊢
      by_cases hv : fv = !v
      · rw [if_pos hv] at hn ⊢
        split
        · rw [key (fun _ => u)]; exact hn
        · rw [key]; exact hn
      · rw [if_neg hv] at hn ⊢
        split
        · intro c hc
          rcases List.mem_map.1 hc with ⟨d, hd, rfl⟩
          rw [setSize_extent_other]; exact hn d hd
        · intro c hc
          rcases List.mem_map.1 hc with ⟨d, hd, rfl⟩
          rw [setSize_extent_other]; exact hn d hd
    · rw [setSize_children]
      simp only [vertical, children] at hc ⊢
      split
      · intro c hc2
        rcases List.mem_map.1 hc2 with ⟨d, hd, rfl⟩
        exact ih d hd u (hc d hd)
      · intro c hc2
        rcases List.mem_map.1 hc2 with ⟨d, hd, rfl⟩
        exact ih d hd _ (hc d hd)

end Frame
end Lapce

namespace Lapce
namespace Frame

/-! ## Leaves after `setPos` -/

theorem not_overlaps_of_left (f g : Frame) (h : f.x + f.width ≤ g.x) : ¬ overlaps f g := by
  unfold overlaps
  rw [max_lt_iff, lt_min_iff, lt_min_iff]
  omega

theorem not_overlaps_of_above (f g : Frame) (h : f.y + f.height ≤ g.y) : ¬ overlaps f g := by
  unfold overlaps
  rw [max_lt_iff, max_lt_iff, lt_min_iff, lt_min_iff]
  omega

theorem sum_extent_nonneg (cs : List Frame) (v : Bool) (h : ∀ c ∈ cs, 0 ≤ c.extent v) :
    0 ≤ (cs.map (fun c => c.extent v)).sum := by
  apply List.sum_nonneg
  intro z hz
  rcases List.mem_map.1 hz with ⟨d, hd, rfl⟩
  exact h d hd

/-- The leaves of children placed by the loop of `setPos` lie in the strip that starts at
`(x, y)`, is as long as the children together along the split axis and `B` wide across, and
no two of them overlap, provided this holds inside every child. -/
theorem leavesList_setPos (fv : Bool) (B : Int) (cs : List Frame)
    (ih : ∀ c ∈ cs, ∀ x y, (∀ l ∈ leaves (setPos c x y), inside l x y c.width c.height) ∧
      (leaves (setPos c x y)).Pairwise (fun a b => ¬ overlaps a b))
    (hnn : ∀ c ∈ cs, 0 ≤ c.extent fv)
    (hB : ∀ c ∈ cs, c.extent (!fv) ≤ B) (x y : Int) :
    (∀ l ∈ leaves.leavesList (setPosChildren cs fv x y),
        inside l x y (if fv then (cs.map (fun c => c.extent fv)).sum else B)
          (if fv then B else (cs.map (fun c => c.extent fv)).sum)) ∧
      (leaves.leavesList (setPosChildren cs fv x y)).Pairwise (fun a b => ¬ overlaps a b) := by
  induction cs generalizing x y with
  | nil => simp [setPosChildren, leaves.leavesList]
  | cons c cs ihc =>
    have ih1 := ih c (List.mem_cons_self _ _) x y
    have hrest := ihc (fun d hd => ih d (List.mem_cons_of_mem _ hd))
      (fun d hd => hnn d (List.mem_cons_of_mem _ hd))
      (fun d hd => hB d (List.mem_cons_of_mem _ hd))
    have hs := sum_extent_nonneg cs fv (fun d hd => hnn d (List.mem_cons_of_mem _ hd))
    have hc0 := hnn c (List.mem_cons_self _ _)
    have hcB := hB c (List.mem_cons_self _ _)
    rw [setPosChildren_cons, leavesList_cons]
    have h2 := hrest (if fv then x + c.width else x) (if fv then y else y + c.height)
    constructor
    · intro l hl
      rcases List.mem_append.1 hl with hl | hl
      · have := ih1.1 l hl
        unfold inside at this ⊢
        cases fv <;> simp [extent] at * <;> omega
      · have := h2.1 l hl
        unfold inside at this ⊢
        cases fv <;> simp [extent] at * <;> omega
    · rw [List.pairwise_append]
      refine ⟨ih1.2, h2.2, ?_⟩
      intro l1 hl1 l2 hl2
      have a1 := ih1.1 l1 hl1
      have a2 := h2.1 l2 hl2
      unfold inside at a1 a2
      cases fv
      · apply not_overlaps_of_above
        simp [extent] at *
        omega
      · apply not_overlaps_of_left
        simp [extent] at *
        omega

/-- When the extents fit along both axes, the leaves placed by `setPos(x, y)` lie in the
rectangle of the frame and no two of them overlap. -/
theorem leaves_setPos (f : Frame) (ht : axisOK f true) (hf : axisOK f false) (x y : Int) :
    (∀ l ∈ leaves (setPos f x y), inside l x y f.width f.height) ∧
      (leaves (setPos f x y)).Pairwise (fun a b => ¬ overlaps a b) := by
  induction f using induct generalizing x y with
  | step a fv w h x0 y0 win cs ih =>
    rw [axisOK_iff] at ht hf
    cases cs with
    | nil =>
      simp [setPos, setPosChildren, leaves, inside]
    | cons c cs =>
      have hsub := leavesList_setPos fv
        ((mk a fv w h x0 y0 win (c :: cs)).extent (!fv)) (c :: cs)
        (fun d hd x y => ih d hd (ht.2 d hd) (hf.2 d hd) x y)
        (fun d hd => by
          cases fv
          · exact ((axisOK_iff d false).1 (hf.2 d hd)).1.1
          · exact ((axisOK_iff d true).1 (ht.2 d hd)).1.1)
        (fun d hd => by
          cases fv
          · have := ht.1.2
            simp only [vertical_mk, children_mk, Bool.false_eq_true, if_false] at this
            exact this d hd
          · have := hf.1.2
            simp only [vertical_mk, children_mk, Bool.true_eq_false, if_false] at this
            exact this d hd)
        x y
      have hl : leaves (setPos (mk a fv w h x0 y0 win (c :: cs)) x y)
          = leaves.leavesList (setPosChildren (c :: cs) fv x y) := by
        rw [leaves_eq, setPos_children, hasChildren, setPos_children, children_mk,
          vertical_mk, setPosChildren_cons]
        rfl
      rw [hl]
      refine ⟨?_, hsub.2⟩
      intro l hl2
      have h1 := hsub.1 l hl2
      have h3 := ht.1.2
      have h4 := hf.1.2
      unfold inside at h1 ⊢
      cases fv
      · simp only [vertical_mk, children_mk, extent_true, extent_false, width_mk, height_mk,
          Bool.false_eq_true, if_false, if_true, Bool.not_false] at h1 h3 h4 ⊢
        omega
      · simp only [vertical_mk, children_mk, extent_true, extent_false, width_mk, height_mk,
          Bool.true_eq_false, if_false, if_true, Bool.not_true] at h1 h3 h4 ⊢
        omega

end Frame
end Lapce

namespace Lapce
namespace Frame

/-! ## Offsets of the children after `setPos` -/

theorem mem_setPosChildren (cs : List Frame) (fv : Bool) (x y : Int) (c : Frame)
    (hc : c ∈ setPosChildren cs fv x y) : ∃ d ∈ cs, ∃ x1 y1, c = setPos d x1 y1 := by
  induction cs generalizing x y with
  | nil => simp [setPosChildren] at hc
  | cons d ds ih =>
    rw [setPosChildren_cons] at hc
    rcases List.mem_cons.1 hc with rfl | hc
    · exact ⟨d, List.mem_cons_self _ _, x, y, rfl⟩
    · obtain ⟨e, he, x1, y1, h⟩ := ih _ _ hc
      exact ⟨e, List.mem_cons_of_mem _ he, x1, y1, h⟩

theorem offset_setPos (f : Frame) (x y : Int) (v : Bool) :
    (setPos f x y).offset v = if v then x else y := by
  cases v <;> simp [offset, setPos_x, setPos_y]

theorem extent_setPos (f : Frame) (x y : Int) (v : Bool) :
    (setPos f x y).extent v = f.extent v := by
  cases v <;> simp [extent, setPos_width, setPos_height]

/-- The loop of `setPos` puts child number `k` at the start offset plus the extents of the
children before it. -/
theorem setPosChildren_get (cs : List Frame) (fv : Bool) (x y : Int) (k : Nat) (d : Frame)
    (hk : (setPosChildren cs fv x y)[k]? = some d) :
    d.offset fv =
        (if fv then x else y) +
          (((setPosChildren cs fv x y).take k).map (fun c => c.extent fv)).sum ∧
      d.offset (!fv) = if fv then y else x := by
  induction cs generalizing x y k with
  | nil => simp [setPosChildren] at hk
  | cons c cs ih =>
    rw [setPosChildren_cons] at hk ⊢
    cases k with
    | zero =>
      simp only [List.getElem?_cons_zero, Option.some.injEq] at hk
      subst hk
      simp only [List.take_zero, List.map_nil, List.sum_nil, add_zero, offset_setPos]
      cases fv <;> simp
    | succ k =>
      simp only [List.getElem?_cons_succ] at hk
      have := ih _ _ k hk
      simp only [List.take_succ_cons, List.map_cons, List.sum_cons, extent_setPos]
      cases fv
      · simp only [Bool.false_eq_true, if_false, extent_false, Bool.not_false] at this ⊢
        exact ⟨by rw [this.1]; ring, this.2⟩
      · simp only [if_true, extent_true, Bool.not_true] at this ⊢
        exact ⟨by rw [this.1]; ring, this.2⟩

/-- After `setPos` the children of every frame of the tree are placed one after the other. -/
theorem childrenPlaced_setPos (f : Frame) (x y : Int) :
    ∀ n ∈ nodes (setPos f x y), childrenPlaced n := by
  induction f using induct generalizing x y with
  | step a fv w h x0 y0 win cs ih =>
    intro n hn
    rcases (mem_nodes_iff _ n).1 hn with rfl | ⟨c, hc, hn⟩
    · intro k hk
      have hk2 : (setPos (mk a fv w h x0 y0 win cs) x y).children[k]? =
          some ((setPos (mk a fv w h x0 y0 win cs) x y).children.get ⟨k, hk⟩) := by
        rw [List.get_eq_getElem, List.getElem?_eq_getElem]
      generalize (setPos (mk a fv w h x0 y0 win cs) x y).children.get ⟨k, hk⟩ = d at hk2 ⊢
      rw [setPos_children] at hk2
      have := setPosChildren_get _ _ x y k d hk2
      rw [setPos_vertical, setPos_children, offset_setPos, offset_setPos]
      simp only [vertical_mk, children_mk] at this ⊢
      cases fv
      · simpa using this
      · simpa using this
    · rw [setPos_children] at hc
      obtain ⟨d, hd, x1, y1, rfl⟩ := mem_setPosChildren _ _ _ _ _ hc
      exact ih d hd x1 y1 n hn

end Frame
end Lapce

namespace Lapce

/-! ## Claims about the geometry -/

/-- C2, failing input: in a horizontal root over a node with two columns and a node with
three columns, `setSize(true, 101)` makes the root 303 wide and hands the first child the
unit `101*3/2 = 151`, so that child ends 302 wide while its sibling is 303 wide. -/
theorem setSize_cross_axis_gap :
    (Frame.exampleMixed.setSize true 101).extent true = 303 ∧
      (Frame.exampleMixed.setSize true 101).children.map (fun c => c.extent true)
        = [302, 303] := by
  decide

end Lapce

namespace Lapce

/-! ## Facts about the loop of `smoothScroll` -/

theorem Abs_cases (n : Int) : (0 ≤ n ∧ Abs n = n) ∨ (n < 0 ∧ Abs n = -n) := by
  unfold Abs
  by_cases h : n < 0
  · right; simp [h]
  · left; simp [h]; omega

theorem Abs_nonneg (n : Int) : 0 ≤ Abs n := by
  rcases Abs_cases n with h | h <;> omega

theorem tdiv_cases (x t : Int) (ht : 0 < t) :
    (0 ≤ x ∧ Int.tdiv x t = x / t) ∨ (x < 0 ∧ Int.tdiv x t = -((-x) / t)) := by
  by_cases h : 0 ≤ x
  · left; exact ⟨h, Int.tdiv_eq_ediv h (le_of_lt ht)⟩
  · right
    refine ⟨by omega, ?_⟩
    have h1 : Int.tdiv (-x) t = (-x) / t := Int.tdiv_eq_ediv (by omega) (le_of_lt ht)
    rw [← h1, Int.neg_tdiv, neg_neg]

theorem scrollTotal_cases (x y : Int) : scrollTotal x y = 3 ∨ scrollTotal x y = 10 := by
  unfold scrollTotal
  split <;> simp

/-- The first step has the sign of the request and is not zero unless the request is. -/
theorem firstStep_spec (x t : Int) (ht : t = 3 ∨ t = 10) :
    (x < 0 → firstStep x t ≤ 0) ∧ (0 ≤ x → 0 ≤ firstStep x t) ∧
      (x ≠ 0 → 1 ≤ Abs (firstStep x t)) ∧ (x = 0 → firstStep x t = 0) := by
  unfold firstStep
  have h0 : Abs 0 = 0 := rfl
  have h1 : Abs 1 = 1 := rfl
  have h2 : Abs (-1) = 1 := rfl
  rcases ht with rfl | rfl
  · rcases tdiv_cases x 3 (by decide) with h | h <;>
    rcases Abs_cases x with hx | hx <;>
    rcases Abs_cases (x.tdiv 3) with h3 | h3 <;>
    refine ⟨fun _ => ?_, fun _ => ?_, fun _ => ?_, fun _ => ?_⟩ <;>
    split_ifs <;> (try simp only [h0, h1, h2]) <;> omega
  · rcases tdiv_cases x 10 (by decide) with h | h <;>
    rcases Abs_cases x with hx | hx <;>
    rcases Abs_cases (x.tdiv 10) with h3 | h3 <;>
    refine ⟨fun _ => ?_, fun _ => ?_, fun _ => ?_, fun _ => ?_⟩ <;>
    split_ifs <;> (try simp only [h0, h1, h2]) <;> omega

/-- The adjusted step keeps the sign of the request, stays at least 1 in magnitude, and
does not pass a positive remaining distance. -/
theorem clampStep_spec (x d s : Int) (hneg : x < 0 → s ≤ 0) (hpos : 0 ≤ x → 0 ≤ s) :
    (x < 0 → clampStep x d s ≤ 0) ∧ (0 ≤ x → 0 ≤ clampStep x d s) ∧
      (1 ≤ Abs s → 1 ≤ Abs (clampStep x d s)) ∧ (0 < d → Abs (clampStep x d s) ≤ d) ∧
      (d ≤ 0 → clampStep x d s = s) := by
  unfold clampStep
  rcases Abs_cases s with hs | hs
  · split
    · split
      · rcases Abs_cases (-d) with h2 | h2 <;> omega
      · rcases Abs_cases d with h2 | h2 <;> omega
    · omega
  · split
    · split
      · rcases Abs_cases (-d) with h2 | h2 <;> omega
      · rcases Abs_cases d with h2 | h2 <;> omega
    · omega

theorem cumulative_cons (a : Int × Int) (l : List (Int × Int)) :
    cumulative (a :: l) = (Abs a.1 + (cumulative l).1, Abs a.2 + (cumulative l).2) := by
  cases a; rfl

theorem sumDeltas_cons (a : Int × Int) (l : List (Int × Int)) :
    sumDeltas (a :: l) = (a.1 + (sumDeltas l).1, a.2 + (sumDeltas l).2) := by
  cases a; rfl

theorem cumulative_nonneg (l : List (Int × Int)) :
    0 ≤ (cumulative l).1 ∧ 0 ≤ (cumulative l).2 := by
  induction l with
  | nil => simp [cumulative]
  | cons a l ih =>
    rw [cumulative_cons]
    have h1 := Abs_nonneg a.1
    have h2 := Abs_nonneg a.2
    simp only
    omega

theorem sumDeltas_append (l m : List (Int × Int)) :
    sumDeltas (l ++ m) = ((sumDeltas l).1 + (sumDeltas m).1, (sumDeltas l).2 + (sumDeltas m).2) := by
  induction l with
  | nil => simp [sumDeltas]
  | cons a l ih =>
    rw [List.cons_append, sumDeltas_cons, sumDeltas_cons, ih]
    simp only [Prod.mk.injEq]
    constructor <;> ring

/-- One iteration of the loop. -/
theorem tickLoop_succ (x y : Int) (fuel : Nat) (stop : Option Nat) (sdx sdy dx dy : Int) :
    tickLoop x y (fuel + 1) stop sdx sdy dx dy =
      if Abs x - (dx + Abs (clampStep x (Abs x - dx) sdx)) ≤ 0 ∧
          Abs y - (dy + Abs (clampStep y (Abs y - dy) sdy)) ≤ 0 then
        some [(clampStep x (Abs x - dx) sdx, clampStep y (Abs y - dy) sdy)]
      else
        match stop with
        | some 0 =>
          some [(clampStep x (Abs x - dx) sdx, clampStep y (Abs y - dy) sdy),
            (settleStep x (Abs x - (dx + Abs (clampStep x (Abs x - dx) sdx))),
              settleStep y (Abs y - (dy + Abs (clampStep y (Abs y - dy) sdy))))]
        | some (k + 1) =>
          (tickLoop x y fuel (some k) (clampStep x (Abs x - dx) sdx)
            (clampStep y (Abs y - dy) sdy) (dx + Abs (clampStep x (Abs x - dx) sdx))
            (dy + Abs (clampStep y (Abs y - dy) sdy))).map
            (fun l => (clampStep x (Abs x - dx) sdx, clampStep y (Abs y - dy) sdy) :: l)
        | none =>
          (tickLoop x y fuel none (clampStep x (Abs x - dx) sdx)
            (clampStep y (Abs y - dy) sdy) (dx + Abs (clampStep x (Abs x - dx) sdx))
            (dy + Abs (clampStep y (Abs y - dy) sdy))).map
            (fun l => (clampStep x (Abs x - dx) sdx, clampStep y (Abs y - dy) sdy) :: l) := by
  rcases stop with _ | _ | k <;> simp only [tickLoop]

/-- One more unit of fuel does not change a result. -/
theorem tickLoop_fuel_succ (x y : Int) (fuel : Nat) :
    ∀ (stop : Option Nat) (sdx sdy dx dy : Int) (t : List (Int × Int)),
      tickLoop x y fuel stop sdx sdy dx dy = some t →
      tickLoop x y (fuel + 1) stop sdx sdy dx dy = some t := by
  induction fuel with
  | zero => intro stop sdx sdy dx dy t h; simp [tickLoop] at h
  | succ n ih =>
    intro stop sdx sdy dx dy t h
    rw [tickLoop_succ] at h
    rw [tickLoop_succ]
    split
    · rename_i hfin; rw [if_pos hfin] at h; exact h
    · rename_i hfin
      rw [if_neg hfin] at h
      rcases stop with _ | _ | k
      · simp only at h ⊢
        rcases Option.map_eq_some'.1 h with ⟨r, hr, rfl⟩
        rw [ih _ _ _ _ _ _ hr]; rfl
      · exact h
      · simp only at h ⊢
        rcases Option.map_eq_some'.1 h with ⟨r, hr, rfl⟩
        rw [ih _ _ _ _ _ _ hr]; rfl

theorem tickLoop_fuel_le (x y : Int) (fuel fuel2 : Nat) (hle : fuel ≤ fuel2)
    (stop : Option Nat) (sdx sdy dx dy : Int) (t : List (Int × Int))
    (h : tickLoop x y fuel stop sdx sdy dx dy = some t) :
    tickLoop x y fuel2 stop sdx sdy dx dy = some t := by
  induction hle with
  | refl => exact h
  | step _ ih => exact tickLoop_fuel_succ _ _ _ _ _ _ _ _ _ ih

end Lapce

namespace Lapce

/-- The uninterrupted loop ends: started with steps of magnitude at least 1 on every axis
with a request, on a state where some axis is unfinished, with fuel for the remaining
distance, it sends at least one delta and at most as many as the larger remaining distance;
every delta advances every unfinished axis by at least 1, no earlier delta completes both
axes, and the last one does. -/
theorem tickLoop_none_spec (x y : Int) (fuel : Nat) :
    ∀ (sdx sdy dx dy : Int),
      (x ≠ 0 → 1 ≤ Abs sdx) → (y ≠ 0 → 1 ≤ Abs sdy) →
      (x < 0 → sdx ≤ 0) → (0 ≤ x → 0 ≤ sdx) → (y < 0 → sdy ≤ 0) → (0 ≤ y → 0 ≤ sdy) →
      0 ≤ dx → 0 ≤ dy →
      (0 < Abs x - dx ∨ 0 < Abs y - dy) →
      Abs x - dx ≤ fuel → Abs y - dy ≤ fuel →
      ∃ t, tickLoop x y fuel none sdx sdy dx dy = some t ∧ t ≠ [] ∧
        (t.length : Int) ≤ max (Abs x - dx) (Abs y - dy) ∧
        (∀ p a s, t = p ++ a :: s →
          (0 < Abs x - dx - (cumulative p).1 → 1 ≤ Abs a.1) ∧
          (0 < Abs y - dy - (cumulative p).2 → 1 ≤ Abs a.2)) ∧
        (∀ p s, t = p ++ s → p ≠ [] → s ≠ [] →
          ¬ (Abs x - dx ≤ (cumulative p).1 ∧ Abs y - dy ≤ (cumulative p).2)) ∧
        (Abs x - dx ≤ (cumulative t).1 ∧ Abs y - dy ≤ (cumulative t).2) := by
  induction fuel with
  | zero =>
    intro sdx sdy dx dy _ _ _ _ _ _ _ _ hpre hx hy
    simp only [Nat.cast_zero] at hx hy
    omega
  | succ n ih =>
    intro sdx sdy dx dy h1x h1y hnx hpx hny hpy h0x h0y hpre hx hy
    have cx := clampStep_spec x (Abs x - dx) sdx hnx hpx
    have cy := clampStep_spec y (Abs y - dy) sdy hny hpy
    have ax := Abs_cases x
    have ay := Abs_cases y
    have nx := Abs_nonneg (clampStep x (Abs x - dx) sdx)
    have ny := Abs_nonneg (clampStep y (Abs y - dy) sdy)
    have gx : 0 < Abs x - dx → 1 ≤ Abs (clampStep x (Abs x - dx) sdx) := by
      intro h; exact cx.2.2.1 (h1x (by omega))
    have gy : 0 < Abs y - dy → 1 ≤ Abs (clampStep y (Abs y - dy) sdy) := by
      intro h; exact cy.2.2.1 (h1y (by omega))
    rw [tickLoop_succ]
    by_cases hfin : Abs x - (dx + Abs (clampStep x (Abs x - dx) sdx)) ≤ 0 ∧
        Abs y - (dy + Abs (clampStep y (Abs y - dy) sdy)) ≤ 0
    · rw [if_pos hfin]
      refine ⟨_, rfl, by simp, ?_, ?_, ?_, ?_⟩
      · simp only [List.length_singleton, Nat.cast_one]
        rw [le_max_iff]; omega
      · intro p a s hpas
        cases p with
        | nil =>
          simp only [List.nil_append, List.cons.injEq] at hpas
          obtain ⟨rfl, _⟩ := hpas
          simp only [cumulative, sub_zero]
          exact ⟨gx, gy⟩
        | cons b p =>
          simp only [List.cons_append, List.cons.injEq] at hpas
          have := hpas.2
          simp at this
      · intro p s hps hp hs
        cases p with
        | nil => exact absurd rfl hp
        | cons b p =>
          simp only [List.cons_append, List.cons.injEq] at hps
          have := hps.2
          cases p with
          | nil => simp only [List.nil_append] at this; exact absurd this.symm hs
          | cons c p => simp at this
      · simp only [cumulative, add_zero]
        omega
    · rw [if_neg hfin]
      simp only
      have hpre2 : 0 < Abs x - (dx + Abs (clampStep x (Abs x - dx) sdx)) ∨
          0 < Abs y - (dy + Abs (clampStep y (Abs y - dy) sdy)) := by omega
      have hx2 : Abs x - (dx + Abs (clampStep x (Abs x - dx) sdx)) ≤ (n : Int) := by
        have : ((n + 1 : Nat) : Int) = (n : Int) + 1 := by simp
        by_cases h : 0 < Abs x - dx
        · have := gx h; omega
        · omega
      have hy2 : Abs y - (dy + Abs (clampStep y (Abs y - dy) sdy)) ≤ (n : Int) := by
        have : ((n + 1 : Nat) : Int) = (n : Int) + 1 := by simp
        by_cases h : 0 < Abs y - dy
        · have := gy h; omega
        · omega
      obtain ⟨t, ht, hne, hlen, hb, hc, hd⟩ := ih (clampStep x (Abs x - dx) sdx)
        (clampStep y (Abs y - dy) sdy) (dx + Abs (clampStep x (Abs x - dx) sdx))
        (dy + Abs (clampStep y (Abs y - dy) sdy))
        (fun h => cx.2.2.1 (h1x h)) (fun h => cy.2.2.1 (h1y h)) cx.1 cx.2.1 cy.1 cy.2.1
        (by omega) (by omega) hpre2 hx2 hy2
      rw [ht]
      refine ⟨_, rfl, by simp, ?_, ?_, ?_, ?_⟩
      · simp only [List.length_cons, Nat.cast_add, Nat.cast_one]
        rw [le_max_iff] at hlen ⊢
        rcases hlen with hlen | hlen
        · left
          by_cases h : 0 < Abs x - dx
          · have := gx h; omega
          · have : (0 : Int) ≤ t.length := by positivity
            cases t with
            | nil => exact absurd rfl hne
            | cons _ _ => simp only [List.length_cons, Nat.cast_add, Nat.cast_one] at hlen; omega
        · right
          by_cases h : 0 < Abs y - dy
          · have := gy h; omega
          · cases t with
            | nil => exact absurd rfl hne
            | cons _ _ => simp only [List.length_cons, Nat.cast_add, Nat.cast_one] at hlen; omega
      · intro p a s hpas
        cases p with
        | nil =>
          simp only [List.nil_append, List.cons.injEq] at hpas
          obtain ⟨rfl, _⟩ := hpas
          simp only [cumulative, sub_zero]
          exact ⟨gx, gy⟩
        | cons b p =>
          simp only [List.cons_append, List.cons.injEq] at hpas
          obtain ⟨rfl, hrest⟩ := hpas
          have := hb p a s hrest
          rw [cumulative_cons]
          simp only
          constructor
          · intro h; apply this.1; omega
          · intro h; apply this.2; omega
      · intro p s hps hp hs
        cases p with
        | nil => exact absurd rfl hp
        | cons b p =>
          simp only [List.cons_append, List.cons.injEq] at hps
          obtain ⟨rfl, hrest⟩ := hps
          rw [cumulative_cons]
          simp only
          cases p with
          | nil =>
            simp only [cumulative, add_zero]
            omega
          | cons c p =>
            have := hc (c :: p) s hrest (by simp) hs
            intro hcon
            apply this
            omega
      · rw [cumulative_cons]
        simp only
        omega

end Lapce

namespace Lapce

/-- Every delta of the uninterrupted loop has the sign of the request. -/
theorem tickLoop_none_signs (x y : Int) (fuel : Nat) :
    ∀ (sdx sdy dx dy : Int) (t : List (Int × Int)),
      (x < 0 → sdx ≤ 0) → (0 ≤ x → 0 ≤ sdx) → (y < 0 → sdy ≤ 0) → (0 ≤ y → 0 ≤ sdy) →
      tickLoop x y fuel none sdx sdy dx dy = some t →
      ∀ a ∈ t, ((x < 0 → a.1 ≤ 0) ∧ (0 ≤ x → 0 ≤ a.1)) ∧ ((y < 0 → a.2 ≤ 0) ∧ (0 ≤ y → 0 ≤ a.2)) := by
  induction fuel with
  | zero => intro sdx sdy dx dy t _ _ _ _ h; simp [tickLoop] at h
  | succ n ih =>
    intro sdx sdy dx dy t hnx hpx hny hpy h
    have cx := clampStep_spec x (Abs x - dx) sdx hnx hpx
    have cy := clampStep_spec y (Abs y - dy) sdy hny hpy
    rw [tickLoop_succ] at h
    split at h
    · simp only [Option.some.injEq] at h
      subst h
      intro a ha
      simp only [List.mem_singleton] at ha
      subst ha
      exact ⟨⟨cx.1, cx.2.1⟩, ⟨cy.1, cy.2.1⟩⟩
    · simp only at h
      rcases Option.map_eq_some'.1 h with ⟨r, hr, rfl⟩
      intro a ha
      rcases List.mem_cons.1 ha with rfl | ha
      · exact ⟨⟨cx.1, cx.2.1⟩, ⟨cy.1, cy.2.1⟩⟩
      · exact ih _ _ _ _ r cx.1 cx.2.1 cy.1 cy.2.1 hr a ha

/-- Deltas that have the sign of the request add up to the cumulative magnitude with that
sign. -/
theorem sumDeltas_of_signs (x y : Int) (p : List (Int × Int))
    (h : ∀ a ∈ p, ((x < 0 → a.1 ≤ 0) ∧ (0 ≤ x → 0 ≤ a.1)) ∧
      ((y < 0 → a.2 ≤ 0) ∧ (0 ≤ y → 0 ≤ a.2))) :
    sumDeltas p = (settleStep x (cumulative p).1, settleStep y (cumulative p).2) := by
  induction p with
  | nil => simp [sumDeltas, cumulative, settleStep]
  | cons a p ih =>
    have ha := h a (List.mem_cons_self _ _)
    rw [sumDeltas_cons, cumulative_cons, ih (fun b hb => h b (List.mem_cons_of_mem _ hb))]
    simp only [settleStep, Prod.mk.injEq]
    rcases Abs_cases a.1 with h1 | h1 <;> rcases Abs_cases a.2 with h2 | h2 <;>
      constructor <;> split_ifs <;> omega

/-- The stop signal observed after the timer has won `j` times, in a run that would send
more than `j + 1` deltas if left alone: the loop sends the first `j + 1` deltas of the
uninterrupted run and then the remaining distance. -/
theorem tickLoop_stop_spec (x y : Int) (fuel : Nat) :
    ∀ (j : Nat) (sdx sdy dx dy : Int) (t : List (Int × Int)),
      tickLoop x y fuel none sdx sdy dx dy = some t → j + 1 < t.length →
      tickLoop x y fuel (some j) sdx sdy dx dy =
        some (t.take (j + 1) ++
          [(settleStep x (Abs x - dx - (cumulative (t.take (j + 1))).1),
            settleStep y (Abs y - dy - (cumulative (t.take (j + 1))).2))]) := by
  induction fuel with
  | zero => intro j sdx sdy dx dy t h; simp [tickLoop] at h
  | succ n ih =>
    intro j sdx sdy dx dy t h hj
    rw [tickLoop_succ] at h
    rw [tickLoop_succ]
    split at h
    · simp only [Option.some.injEq] at h
      subst h
      simp at hj
    · rename_i hfin
      rw [if_neg hfin]
      simp only at h
      rcases Option.map_eq_some'.1 h with ⟨r, hr, rfl⟩
      cases j with
      | zero =>
        simp only [zero_add, List.take_succ_cons, List.take_zero, cumulative_cons, cumulative,
          add_zero, List.singleton_append, Option.some.injEq, List.cons.injEq, Prod.mk.injEq,
          and_true, true_and]
        constructor <;> congr 1 <;> ring
      | succ j =>
        simp only [List.length_cons] at hj
        have := ih j _ _ _ _ r hr (by omega)
        simp only
        rw [this]
        simp only [Option.map_some', List.take_succ_cons, List.cons_append, cumulative_cons,
          Option.some.injEq, List.cons.injEq, true_and, List.append_cancel_left_eq,
          Prod.mk.injEq, and_true]
        constructor <;> congr 1 <;> ring

/-- A request along the horizontal axis alone is covered exactly by the uninterrupted loop. -/
theorem tickLoop_exact_x (x : Int) (fuel : Nat) :
    ∀ (sdx dx : Int) (t : List (Int × Int)),
      (x < 0 → sdx ≤ 0) → (0 ≤ x → 0 ≤ sdx) → 0 < Abs x - dx →
      tickLoop x 0 fuel none sdx 0 dx 0 = some t →
      (cumulative t).1 = Abs x - dx ∧ (cumulative t).2 = 0 := by
  have h0 : Abs 0 = 0 := rfl
  have hc0 : clampStep 0 (0 - 0) 0 = 0 := by decide
  induction fuel with
  | zero => intro sdx dx t _ _ _ h; simp [tickLoop] at h
  | succ n ih =>
    intro sdx dx t hnx hpx hpre h
    have cx := clampStep_spec x (Abs x - dx) sdx hnx hpx
    have nx := Abs_nonneg (clampStep x (Abs x - dx) sdx)
    rw [tickLoop_succ] at h
    simp only [hc0, h0, add_zero] at h
    split at h
    · rename_i hfin
      simp only [Option.some.injEq] at h
      subst h
      simp only [cumulative, add_zero, h0, and_true]
      have := cx.2.2.2.1 hpre
      omega
    · rename_i hfin
      rcases Option.map_eq_some'.1 h with ⟨r, hr, rfl⟩
      have := ih _ _ r cx.1 cx.2.1 (by omega) hr
      rw [cumulative_cons]
      simp only [h0]
      omega

/-- A request along the vertical axis alone is covered exactly by the uninterrupted loop. -/
theorem tickLoop_exact_y (y : Int) (fuel : Nat) :
    ∀ (sdy dy : Int) (t : List (Int × Int)),
      (y < 0 → sdy ≤ 0) → (0 ≤ y → 0 ≤ sdy) → 0 < Abs y - dy →
      tickLoop 0 y fuel none 0 sdy 0 dy = some t →
      (cumulative t).1 = 0 ∧ (cumulative t).2 = Abs y - dy := by
  have h0 : Abs 0 = 0 := rfl
  have hc0 : clampStep 0 (0 - 0) 0 = 0 := by decide
  induction fuel with
  | zero => intro sdy dy t _ _ _ h; simp [tickLoop] at h
  | succ n ih =>
    intro sdy dy t hny hpy hpre h
    have cy := clampStep_spec y (Abs y - dy) sdy hny hpy
    have ny := Abs_nonneg (clampStep y (Abs y - dy) sdy)
    rw [tickLoop_succ] at h
    simp only [hc0, h0, add_zero] at h
    split at h
    · rename_i hfin
      simp only [Option.some.injEq] at h
      subst h
      simp only [cumulative, add_zero, h0, true_and]
      have := cy.2.2.2.1 hpre
      omega
    · rename_i hfin
      rcases Option.map_eq_some'.1 h with ⟨r, hr, rfl⟩
      have := ih _ _ r cy.1 cy.2.1 (by omega) hr
      rw [cumulative_cons]
      simp only [h0]
      omega

theorem settleStep_Abs (x : Int) : settleStep x (Abs x) = x := by
  unfold settleStep
  rcases Abs_cases x with h | h <;> split_ifs <;> omega

theorem settleStep_add (x c d : Int) :
    settleStep x c + settleStep x d = settleStep x (c + d) := by
  unfold settleStep
  split_ifs <;> omega

end Lapce

namespace Lapce

theorem smoothScroll_nonzero (fuel : Nat) (x y : Int) (stop : Option Nat)
    (h : ¬ (x = 0 ∧ y = 0)) :
    smoothScroll fuel x y stop =
      tickLoop x y fuel stop (firstStep x (scrollTotal x y)) (firstStep y (scrollTotal x y))
        0 0 := by
  unfold smoothScroll
  rw [if_neg h]

/-- With fuel for the larger magnitude an uninterrupted animation returns its deltas. -/
theorem smoothScroll_none_some (fuel : Nat) (x y : Int)
    (hf : max (Abs x) (Abs y) ≤ (fuel : Int)) :
    ∃ t, smoothScroll fuel x y none = some t := by
  by_cases h : x = 0 ∧ y = 0
  · exact ⟨[], by unfold smoothScroll; rw [if_pos h]⟩
  · rw [smoothScroll_nonzero _ _ _ _ h]
    have fx := firstStep_spec x _ (scrollTotal_cases x y)
    have fy := firstStep_spec y _ (scrollTotal_cases x y)
    rw [max_le_iff] at hf
    obtain ⟨t, ht, _⟩ := tickLoop_none_spec x y fuel _ _ 0 0 fx.2.2.1 fy.2.2.1 fx.1 fx.2.1
      fy.1 fy.2.1 (le_refl _) (le_refl _)
      (by rcases Abs_cases x with hx | hx <;> rcases Abs_cases y with hy | hy <;> omega)
      (by omega) (by omega)
    exact ⟨t, ht⟩

theorem smoothScroll_none_signs (fuel : Nat) (x y : Int) (t : List (Int × Int))
    (h : smoothScroll fuel x y none = some t) :
    ∀ a ∈ t, ((x < 0 → a.1 ≤ 0) ∧ (0 ≤ x → 0 ≤ a.1)) ∧
      ((y < 0 → a.2 ≤ 0) ∧ (0 ≤ y → 0 ≤ a.2)) := by
  by_cases h0 : x = 0 ∧ y = 0
  · unfold smoothScroll at h
    rw [if_pos h0] at h
    simp only [Option.some.injEq] at h
    subst h
    intro a ha
    cases ha
  · rw [smoothScroll_nonzero _ _ _ _ h0] at h
    have fx := firstStep_spec x _ (scrollTotal_cases x y)
    have fy := firstStep_spec y _ (scrollTotal_cases x y)
    exact tickLoop_none_signs x y fuel _ _ _ _ t fx.1 fx.2.1 fy.1 fy.2.1 h

/-- An uninterrupted animation along one axis sends deltas that add up to the request. -/
theorem smoothScroll_exact_axis (fuel : Nat) (x y : Int) (t : List (Int × Int))
    (hxy : x = 0 ∨ y = 0) (h : smoothScroll fuel x y none = some t) :
    sumDeltas t = (x, y) := by
  have hs := sumDeltas_of_signs x y t (smoothScroll_none_signs fuel x y t h)
  have h00 : Abs 0 = 0 := rfl
  by_cases h0 : x = 0 ∧ y = 0
  · unfold smoothScroll at h
    rw [if_pos h0] at h
    simp only [Option.some.injEq] at h
    subst h
    simp [sumDeltas, h0.1, h0.2]
  · rw [smoothScroll_nonzero _ _ _ _ h0] at h
    have fx := firstStep_spec x _ (scrollTotal_cases x y)
    have fy := firstStep_spec y _ (scrollTotal_cases x y)
    rcases hxy with rfl | rfl
    · have hy : y ≠ 0 := fun hy => h0 ⟨rfl, hy⟩
      rw [fx.2.2.2 rfl] at h
      have := tickLoop_exact_y y fuel _ 0 t fy.1 fy.2.1
        (by rcases Abs_cases y with hy | hy <;> omega) h
      rw [hs, this.1, this.2, sub_zero, settleStep_Abs]
      simp [settleStep]
    · have hx : x ≠ 0 := fun hx => h0 ⟨hx, rfl⟩
      rw [fy.2.2.2 rfl] at h
      have := tickLoop_exact_x x fuel _ 0 t fx.1 fx.2.1
        (by rcases Abs_cases x with hx | hx <;> omega) h
      rw [hs, this.1, this.2, sub_zero, settleStep_Abs]
      simp [settleStep]

/-! ## Claims about `smoothScroll` -/

/-- C3, failing input: the request `(1, 30)` left alone sends `(1, 10)` three times, that
is 3 pixels on the horizontal axis where 1 was requested. -/
theorem smoothScroll_overshoot :
    smoothScroll 30 1 30 none = some [(1, 10), (1, 10), (1, 10)] ∧
      (smoothScroll 30 1 30 none).map sumDeltas = some (3, 30) := by
  decide

/-- C4: for every request the loop of `smoothScroll` ends when no stop signal arrives: with
fuel for the larger magnitude it returns a list of deltas, which is empty for the request
`(0, 0)` and otherwise has at least one and at most `max(|x|, |y|)` entries; every delta
advances every axis that has not reached its magnitude by at least 1; no delta before the
last one brings both axes to their magnitudes, and the last one does. -/
theorem smoothScroll_terminates (x y : Int) :
    ∃ t, (∀ fuel : Nat, max (Abs x) (Abs y) ≤ (fuel : Int) →
          smoothScroll fuel x y none = some t) ∧
      (x = 0 ∧ y = 0 → t = []) ∧
      (¬ (x = 0 ∧ y = 0) → 1 ≤ t.length ∧ (t.length : Int) ≤ max (Abs x) (Abs y)) ∧
      (∀ p a s, t = p ++ a :: s →
        ((cumulative p).1 < Abs x → 1 ≤ Abs a.1) ∧ ((cumulative p).2 < Abs y → 1 ≤ Abs a.2)) ∧
      (∀ p s, t = p ++ s → p ≠ [] → s ≠ [] →
        ¬ (Abs x ≤ (cumulative p).1 ∧ Abs y ≤ (cumulative p).2)) ∧
      (Abs x ≤ (cumulative t).1 ∧ Abs y ≤ (cumulative t).2) := by
  by_cases h : x = 0 ∧ y = 0
  · refine ⟨[], ?_, fun _ => rfl, fun hn => absurd h hn, ?_, ?_, ?_⟩
    · intro fuel _
      unfold smoothScroll
      rw [if_pos h]
    · intro p a s hp
      simp at hp
    · intro p s hp hpn hsn
      cases p with
      | nil => exact absurd rfl hpn
      | cons _ _ => simp at hp
    · rw [h.1, h.2]
      decide
  · have fx := firstStep_spec x _ (scrollTotal_cases x y)
    have fy := firstStep_spec y _ (scrollTotal_cases x y)
    have hm : 0 ≤ max (Abs x) (Abs y) := le_trans (Abs_nonneg x) (le_max_left _ _)
    have hcast : ((max (Abs x) (Abs y)).toNat : Int) = max (Abs x) (Abs y) :=
      Int.toNat_of_nonneg hm
    have hle := max_le_iff.1 (le_of_eq hcast.symm)
    obtain ⟨t, ht, hne, hlen, hb, hc, hd⟩ := tickLoop_none_spec x y
      (max (Abs x) (Abs y)).toNat _ _ 0 0 fx.2.2.1 fy.2.2.1 fx.1 fx.2.1
      fy.1 fy.2.1 (le_refl _) (le_refl _)
      (by rcases Abs_cases x with hx | hx <;> rcases Abs_cases y with hy | hy <;> omega)
      (by omega) (by omega)
    simp only [sub_zero] at hlen hb hc hd
    refine ⟨t, ?_, fun h0 => absurd h0 h, fun _ => ⟨?_, hlen⟩, ?_, hc, hd⟩
    · intro fuel hf
      rw [smoothScroll_nonzero _ _ _ _ h]
      apply tickLoop_fuel_le x y _ fuel _ none _ _ _ _ t ht
      omega
    · cases t with
      | nil => exact absurd rfl hne
      | cons _ _ => simp
    · intro p a s hp
      have := hb p a s hp
      exact ⟨fun h1 => this.1 (by omega), fun h1 => this.2 (by omega)⟩

end Lapce

namespace Lapce

theorem applyDeltas_append (start : Int × Int) (l m : List (Int × Int)) :
    applyDeltas start (l ++ m) = applyDeltas (applyDeltas start l) m := by
  unfold applyDeltas
  rw [sumDeltas_append]
  simp only [Prod.mk.injEq]
  constructor <;> ring

/-- C5, counterexample: request `(30, 0)` superseded by `(3, 0)` after its first delta.
The first delta is `(10, 0)`; the job leaves the pane at `(33, 0)` and not at
`(10, 0) + (3, 0)`. -/
theorem supersede_not_partial_progress :
    smoothScroll 30 30 0 none = some [(10, 0), (10, 0), (10, 0)] ∧
      (smoothScrollJob 30 [((30, 0), some 0), ((3, 0), none)]).map (applyDeltas (0, 0))
        = some (33, 0) ∧
      applyDeltas (0, 0) ([(10, 0)] ++ [(3, 0)]) = (13, 0) := by
  decide

/-- C5, amended: a request `A` superseded by `B` when `A` has sent `k >= 1` deltas and is
still unfinished (left alone it would send more than `k`) sends those `k` deltas and then
one delta with the signed remaining distance, so that `A` contributes exactly its
displacement; `B` then runs to its end, and the pane is left at the starting offset plus the
displacement of `A` plus the deltas of `B`, which add up to the displacement of `B` when
`B` moves along one axis only. -/
theorem supersede_settles (a1 a2 b1 b2 : Int) (k fuel : Nat) (start : Int × Int)
    (ta : List (Int × Int))
    (hfb : max (Abs b1) (Abs b2) ≤ (fuel : Int))
    (hta : smoothScroll fuel a1 a2 none = some ta) (hk : 1 ≤ k) (hun : k < ta.length) :
    ∃ s tb, smoothScroll fuel b1 b2 none = some tb ∧
      s = (settleStep a1 (Abs a1 - (cumulative (ta.take k)).1),
            settleStep a2 (Abs a2 - (cumulative (ta.take k)).2)) ∧
      smoothScrollJob fuel [((a1, a2), some (k - 1)), ((b1, b2), none)]
        = some (ta.take k ++ s :: tb) ∧
      sumDeltas (ta.take k ++ [s]) = (a1, a2) ∧
      applyDeltas start (ta.take k ++ s :: tb)
        = (start.1 + a1 + (sumDeltas tb).1, start.2 + a2 + (sumDeltas tb).2) ∧
      (b1 = 0 ∨ b2 = 0 →
        applyDeltas start (ta.take k ++ s :: tb) = (start.1 + a1 + b1, start.2 + a2 + b2)) := by
  obtain ⟨tb, htb⟩ := smoothScroll_none_some fuel b1 b2 hfb
  have hsigns := smoothScroll_none_signs fuel a1 a2 ta hta
  have h0 : ¬ (a1 = 0 ∧ a2 = 0) := by
    intro h
    unfold smoothScroll at hta
    rw [if_pos h] at hta
    simp only [Option.some.injEq] at hta
    subst hta
    simp at hun
  have hrun : smoothScroll fuel a1 a2 (some (k - 1)) =
      some (ta.take k ++ [(settleStep a1 (Abs a1 - (cumulative (ta.take k)).1),
        settleStep a2 (Abs a2 - (cumulative (ta.take k)).2))]) := by
    rw [smoothScroll_nonzero _ _ _ _ h0] at hta ⊢
    have := tickLoop_stop_spec a1 a2 fuel (k - 1) _ _ 0 0 ta hta (by omega)
    have hk1 : k - 1 + 1 = k := by omega
    rw [hk1] at this
    simpa using this
  have hsum : sumDeltas (ta.take k ++ [(settleStep a1 (Abs a1 - (cumulative (ta.take k)).1),
        settleStep a2 (Abs a2 - (cumulative (ta.take k)).2))]) = (a1, a2) := by
    rw [sumDeltas_append, sumDeltas_of_signs a1 a2 (ta.take k)
      (fun a ha => hsigns a (List.mem_of_mem_take ha))]
    simp only [sumDeltas, add_zero, settleStep_add, add_sub_cancel, settleStep_Abs]
  have happ : applyDeltas start (ta.take k ++
      (settleStep a1 (Abs a1 - (cumulative (ta.take k)).1),
        settleStep a2 (Abs a2 - (cumulative (ta.take k)).2)) :: tb)
      = (start.1 + a1 + (sumDeltas tb).1, start.2 + a2 + (sumDeltas tb).2) := by
    have : ta.take k ++ (settleStep a1 (Abs a1 - (cumulative (ta.take k)).1),
        settleStep a2 (Abs a2 - (cumulative (ta.take k)).2)) :: tb
        = (ta.take k ++ [(settleStep a1 (Abs a1 - (cumulative (ta.take k)).1),
        settleStep a2 (Abs a2 - (cumulative (ta.take k)).2))]) ++ tb := by simp
    rw [this, applyDeltas_append]
    unfold applyDeltas
    rw [hsum]
  refine ⟨_, tb, htb, rfl, ?_, hsum, happ, ?_⟩
  · simp only [smoothScrollJob, hrun, htb]
    simp
  · intro hb
    rw [happ, smoothScroll_exact_axis fuel b1 b2 tb hb htb]

/-- C5, witness: `(30, 0)` superseded by `(3, 0)` after one delta, from the offset
`(5, 7)`. -/
theorem supersede_settles_witness :
    (max (Abs 3) (Abs 0) ≤ ((30 : Nat) : Int) ∧
      smoothScroll 30 30 0 none = some [(10, 0), (10, 0), (10, 0)] ∧ 1 ≤ 1 ∧
      1 < [((10 : Int), (0 : Int)), (10, 0), (10, 0)].length) ∧
    ∃ s tb, smoothScroll 30 3 0 none = some tb ∧
      s = (settleStep 30 (Abs 30 - (cumulative ([(10, 0), (10, 0), (10, 0)].take 1)).1),
            settleStep 0 (Abs 0 - (cumulative ([(10, 0), (10, 0), (10, 0)].take 1)).2)) ∧
      smoothScrollJob 30 [((30, 0), some (1 - 1)), ((3, 0), none)]
        = some ([(10, 0), (10, 0), (10, 0)].take 1 ++ s :: tb) ∧
      sumDeltas ([(10, 0), (10, 0), (10, 0)].take 1 ++ [s]) = (30, 0) ∧
      applyDeltas (5, 7) ([(10, 0), (10, 0), (10, 0)].take 1 ++ s :: tb)
        = ((5 : Int) + 30 + (sumDeltas tb).1, (7 : Int) + 0 + (sumDeltas tb).2) ∧
      ((3 : Int) = 0 ∨ (0 : Int) = 0 →
        applyDeltas (5, 7) ([(10, 0), (10, 0), (10, 0)].take 1 ++ s :: tb)
          = ((5 : Int) + 30 + 3, (7 : Int) + 0 + 0)) :=
  ⟨⟨by decide, by decide, by decide, by decide⟩,
    supersede_settles 30 0 3 0 1 30 (5, 7) [(10, 0), (10, 0), (10, 0)] (by decide) (by decide)
      (by decide) (by decide)⟩

end Lapce

namespace Lapce
namespace Frame

/-! ## References into the tree -/

theorem nodeAt_cons (root : Frame) (i : Nat) (q : List Nat) :
    nodeAt root (i :: q) = (nodeAt root q).bind (fun p => p.children.get? i) := rfl

theorem children_setChildren (f : Frame) (cs : List Frame) :
    (setChildren f cs).children = cs := by
  cases f; rfl

theorem win_setChildren (f : Frame) (cs : List Frame) : (setChildren f cs).win = f.win := by
  cases f; rfl

theorem vertical_setChildren (f : Frame) (cs : List Frame) :
    (setChildren f cs).vertical = f.vertical := by
  cases f; rfl

theorem setChildren_children (f : Frame) : setChildren f f.children = f := by
  cases f; rfl

theorem setChildren_setChildren (f : Frame) (cs ds : List Frame) :
    setChildren (setChildren f cs) ds = setChildren f ds := by
  cases f; rfl

/-- The frame designated by a reference after an update at that reference. -/
theorem nodeAt_updateAt (root : Frame) (r : List Nat) (g : Frame → Frame) :
    nodeAt (updateAt root r g) r = (nodeAt root r).map g := by
  induction r generalizing g with
  | nil => rfl
  | cons i q ih =>
    rw [updateAt, nodeAt_cons, ih, nodeAt_cons]
    cases nodeAt root q with
    | none => rfl
    | some p =>
      simp only [Option.map_some', Option.some_bind, children_setChildren, List.get?_eq_getElem?,
        List.getElem?_modify]
      cases p.children[i]? <;> simp

/-- An update depends on the function only through its value on the designated frame. -/
theorem updateAt_congr (root : Frame) (r : List Nat) (g k : Frame → Frame) (n : Frame)
    (hn : nodeAt root r = some n) (h : g n = k n) : updateAt root r g = updateAt root r k := by
  induction r generalizing g k n with
  | nil =>
    simp only [nodeAt, Option.some.injEq] at hn
    subst hn
    exact h
  | cons i q ih =>
    rw [nodeAt_cons] at hn
    cases hp : nodeAt root q with
    | none => rw [hp] at hn; simp at hn
    | some p =>
      rw [hp] at hn
      simp only [Option.some_bind, List.get?_eq_getElem?] at hn
      rw [updateAt, updateAt]
      apply ih _ _ p hp
      congr 1
      apply List.ext_getElem?
      intro m
      rw [List.getElem?_modify, List.getElem?_modify]
      by_cases him : i = m
      · subst him
        rw [hn]
        simp [h]
      · cases p.children[m]? <;> simp [him]

theorem updateAt_id (root : Frame) (r : List Nat) : updateAt root r (fun n => n) = root := by
  induction r generalizing root with
  | nil => rfl
  | cons i q ih =>
    rw [updateAt]
    have : (fun p : Frame => setChildren p (List.modify (fun n => n) i p.children))
        = fun p => p := by
      funext p
      have : List.modify (fun n : Frame => n) i p.children = p.children := by
        apply List.ext_getElem?
        intro m
        rw [List.getElem?_modify]
        cases p.children[m]? <;> simp
      rw [this, setChildren_children]
    rw [this]
    exact ih root

/-- An update that does not change the designated frame does not change the tree. -/
theorem updateAt_self (root : Frame) (r : List Nat) (g : Frame → Frame) (n : Frame)
    (hn : nodeAt root r = some n) (h : g n = n) : updateAt root r g = root := by
  rw [updateAt_congr root r g (fun n => n) n hn h, updateAt_id]

/-- Two updates at the same reference are one update. -/
theorem updateAt_updateAt (root : Frame) (r : List Nat) (g k : Frame → Frame) :
    updateAt (updateAt root r g) r k = updateAt root r (fun n => k (g n)) := by
  induction r generalizing g k root with
  | nil => rfl
  | cons i q ih =>
    rw [updateAt, updateAt, ih, updateAt]
    congr 1
    funext p
    rw [children_setChildren, setChildren_setChildren]
    congr 1
    apply List.ext_getElem?
    intro m
    simp only [List.getElem?_modify]
    cases p.children[m]? <;> simp
    split <;> rfl

end Frame
end Lapce

namespace Lapce
namespace Frame

/-! ## The shape of a tree -/

theorem skeletonList_eq_map (cs : List Frame) : skeletonList cs = cs.map skeleton := by
  induction cs with
  | nil => rfl
  | cons c cs ih => simp [skeletonList, ih]

theorem skeleton_mk (a : Nat) (fv : Bool) (w h x y : Int) (win : Option Nat)
    (cs : List Frame) :
    skeleton (mk a fv w h x y win cs) = mk a fv 0 0 0 0 win (cs.map skeleton) := by
  rw [skeleton, skeletonList_eq_map]

theorem skeleton_eq (f : Frame) :
    skeleton f = mk f.addr f.vertical 0 0 0 0 f.win (f.children.map skeleton) := by
  cases f; rw [skeleton_mk]; rfl

theorem skeleton_children (f : Frame) : (skeleton f).children = f.children.map skeleton := by
  rw [skeleton_eq]; rfl

theorem skeleton_win (f : Frame) : (skeleton f).win = f.win := by
  rw [skeleton_eq]; rfl

theorem skeleton_vertical (f : Frame) : (skeleton f).vertical = f.vertical := by
  rw [skeleton_eq]; rfl

theorem skeleton_setChildren (f : Frame) (cs : List Frame) :
    skeleton (setChildren f cs) = setChildren (skeleton f) (cs.map skeleton) := by
  cases f; simp only [setChildren, skeleton_mk]

/-- Two frames have the same shape when they agree on address, orientation and window and
their children have the same shapes. -/
theorem skeleton_congr (f g : Frame) (ha : f.addr = g.addr) (hv : f.vertical = g.vertical)
    (hw : f.win = g.win) (hc : f.children.map skeleton = g.children.map skeleton) :
    skeleton f = skeleton g := by
  rw [skeleton_eq f, skeleton_eq g, ha, hv, hw, hc]

theorem skeleton_setSize (f : Frame) (v : Bool) (u : Int) :
    skeleton (setSize f v u) = skeleton f := by
  induction f using induct generalizing u with
  | step a fv w h x y win cs ih =>
    apply skeleton_congr
    · exact setSize_addr _ _ _
    · exact setSize_vertical _ _ _
    · exact setSize_win _ _ _
    · rw [setSize_children]
      simp only [children_mk]
      split
      · rw [List.map_map]
        apply List.map_congr_left
        intro c hc
        exact ih c hc u
      · rw [List.map_map]
        apply List.map_congr_left
        intro c hc
        exact ih c hc _

theorem skeleton_setPosChildren (cs : List Frame) (fv : Bool) (x y : Int)
    (ih : ∀ c ∈ cs, ∀ x y, skeleton (setPos c x y) = skeleton c) :
    (setPosChildren cs fv x y).map skeleton = cs.map skeleton := by
  induction cs generalizing x y with
  | nil => simp [setPosChildren]
  | cons c cs ihc =>
    rw [setPosChildren_cons, List.map_cons, List.map_cons, ih c (List.mem_cons_self _ _),
      ihc _ _ (fun d hd => ih d (List.mem_cons_of_mem _ hd))]

theorem skeleton_setPos (f : Frame) (x y : Int) : skeleton (setPos f x y) = skeleton f := by
  induction f using induct generalizing x y with
  | step a fv w h x0 y0 win cs ih =>
    rw [setPos, skeleton_mk, skeleton_mk, skeleton_setPosChildren cs fv x y ih]

theorem skeleton_layout (f : Frame) (W H : Int) : skeleton (layout f W H) = skeleton f := by
  unfold layout
  rw [skeleton_setPos, skeleton_setSize, skeleton_setSize]

theorem countSplits_skeleton (f : Frame) (v : Bool) :
    countSplits (skeleton f) v = countSplits f v := by
  induction f using induct with
  | step a fv w h x y win cs ih =>
    apply countSplits_congr
    · rw [skeleton_vertical]
    · rw [skeleton_children, List.map_map]
      apply List.map_congr_left
      intro c hc
      exact ih c hc

/-- The counts depend on the shape only. -/
theorem countSplits_of_skeleton (f g : Frame) (h : skeleton f = skeleton g) (v : Bool) :
    countSplits f v = countSplits g v := by
  rw [← countSplits_skeleton f, h, countSplits_skeleton]

theorem nodeAt_skeleton (root : Frame) (r : List Nat) :
    nodeAt (skeleton root) r = (nodeAt root r).map skeleton := by
  induction r with
  | nil => rfl
  | cons i q ih =>
    rw [nodeAt_cons, nodeAt_cons, ih]
    cases nodeAt root q with
    | none => rfl
    | some p =>
      simp only [Option.map_some', Option.some_bind, skeleton_children, List.get?_eq_getElem?,
        List.getElem?_map]

theorem firstLeaf_skeleton (f : Frame) : firstLeaf (skeleton f) = skeleton (firstLeaf f) := by
  induction f using induct with
  | step a fv w h x y win cs ih =>
    cases cs with
    | nil => simp [skeleton_mk, firstLeaf]
    | cons c cs =>
      rw [skeleton_mk]
      simp only [List.map_cons, firstLeaf]
      exact ih c (List.mem_cons_self _ _)

/-- The window focused by `setFocus` depends on the shape only. -/
theorem firstLeaf_win_of_skeleton (f g : Frame) (h : skeleton f = skeleton g) :
    (firstLeaf f).win = (firstLeaf g).win := by
  rw [← skeleton_win (firstLeaf f), ← firstLeaf_skeleton, h, firstLeaf_skeleton, skeleton_win]

theorem skeleton_updateAt (root : Frame) (r : List Nat) (g k : Frame → Frame)
    (h : ∀ n, skeleton (g n) = k (skeleton n)) :
    skeleton (updateAt root r g) = updateAt (skeleton root) r k := by
  induction r generalizing g k with
  | nil => exact h root
  | cons i q ih =>
    rw [updateAt, updateAt]
    apply ih
    intro p
    rw [skeleton_setChildren, skeleton_children]
    congr 1
    apply List.ext_getElem?
    intro m
    simp only [List.getElem?_map, List.getElem?_modify]
    cases p.children[m]? <;> simp
    split
    · exact h _
    · rfl

end Frame
end Lapce

namespace Lapce

/-! ## Facts about `split` -/

theorem Frame.insertAfter_eq (cs : List Frame) (i : Nat) (nf : Frame) (hi : i < cs.length) :
    Frame.insertAfter cs i nf = cs.take (i + 1) ++ nf :: cs.drop (i + 1) := by
  induction cs generalizing i with
  | nil => simp at hi
  | cons c cs ih =>
    cases i with
    | zero => simp [Frame.insertAfter]
    | succ i =>
      simp only [List.length_cons, Nat.add_lt_add_iff_right] at hi
      simp [Frame.insertAfter, ih i hi]

theorem Frame.insertAfter_getElem? (cs : List Frame) (i : Nat) (nf : Frame) (c : Frame)
    (hi : cs[i]? = some c) : (Frame.insertAfter cs i nf)[i]? = some c := by
  induction cs generalizing i with
  | nil => simp at hi
  | cons d cs ih =>
    cases i with
    | zero => simpa [Frame.insertAfter] using hi
    | succ i =>
      simp only [List.getElem?_cons_succ] at hi
      simp [Frame.insertAfter, ih i hi]

theorem Frame.insertAfter_getElem?_succ (cs : List Frame) (i : Nat) (nf : Frame)
    (hi : i < cs.length) : (Frame.insertAfter cs i nf)[i + 1]? = some nf := by
  induction cs generalizing i with
  | nil => simp at hi
  | cons d cs ih =>
    cases i with
    | zero => simp [Frame.insertAfter]
    | succ i =>
      simp only [List.length_cons, Nat.add_lt_add_iff_right] at hi
      simp [Frame.insertAfter, ih i hi]

namespace Editor

/-- `setFocus` on a tree whose shape is known: the window of the first leaf below the
designated frame becomes the active one. -/
theorem setFocus_of_skeleton (e : Editor) (f : List Nat) (t : Frame) (n : Frame) (id : Nat)
    (hs : Frame.skeleton e.topFrame = Frame.skeleton t) (hn : Frame.nodeAt t f = some n)
    (hw : n.firstLeaf.win = some id) :
    setFocus e f = some { e with activeWin := some id } := by
  have h1 := Frame.nodeAt_skeleton e.topFrame f
  rw [hs, Frame.nodeAt_skeleton, hn] at h1
  unfold setFocus
  cases hm : Frame.nodeAt e.topFrame f with
  | none => rw [hm] at h1; simp at h1
  | some m =>
    rw [hm] at h1
    simp only [Option.map_some', Option.some.injEq] at h1
    have := Frame.firstLeaf_win_of_skeleton m n h1.symm
    simp only [this, hw]

end Editor
end Lapce

namespace Lapce
namespace Editor

theorem parentVertical_cons (e : Editor) (i : Nat) (q : List Nat) :
    parentVertical e (i :: q) = (Frame.nodeAt e.topFrame q).map Frame.vertical := rfl

/-- `split` on a leaf with a window whose parent has the orientation of the split. -/
theorem split_insert (e : Editor) (f : List Nat) (v : Bool) (a : Nat) (fv : Bool)
    (w h x y : Int) (wid : Nat)
    (hf : Frame.nodeAt e.topFrame f = some (Frame.mk a fv w h x y (some wid) []))
    (hp : parentVertical e f = some v) :
    split e f v = some { equalWins (splitInsert e f) with activeWin := some wid } := by
  unfold split
  rw [hf]
  simp only [Frame.hasChildren, Frame.children_mk, List.isEmpty_nil, Bool.not_true,
    Bool.false_eq_true, if_false, hp, if_true]
  cases f with
  | nil => simp [parentVertical] at hp
  | cons i q =>
    rw [parentVertical_cons] at hp
    rw [Frame.nodeAt_cons] at hf
    cases hq : Frame.nodeAt e.topFrame q with
    | none => rw [hq] at hp; simp at hp
    | some p =>
      rw [hq] at hf
      simp only [Option.some_bind, List.get?_eq_getElem?] at hf
      apply setFocus_of_skeleton _ _ (splitInsert e (i :: q)).topFrame
        (Frame.mk a fv w h x y (some wid) []) wid
      · simp only [equalWins, Frame.skeleton_layout]
      · simp only [splitInsert, List.tail_cons, List.headI_cons]
        rw [Frame.nodeAt_cons, Frame.nodeAt_updateAt, hq]
        simp only [Option.map_some', Option.some_bind, Frame.children_setChildren,
          List.get?_eq_getElem?]
        exact Frame.insertAfter_getElem? _ _ _ _ hf
      · rfl

/-- `split` on a leaf with a window that has no parent or a parent of the other
orientation. -/
theorem split_convert (e : Editor) (f : List Nat) (v : Bool) (a : Nat) (fv : Bool)
    (w h x y : Int) (wid : Nat)
    (hf : Frame.nodeAt e.topFrame f = some (Frame.mk a fv w h x y (some wid) []))
    (hp : parentVertical e f ≠ some v) :
    split e f v =
      some { equalWins (splitConvert e f v a w h x y wid) with activeWin := some wid } := by
  unfold split
  rw [hf]
  simp only [Frame.hasChildren, Frame.children_mk, List.isEmpty_nil, Bool.not_true,
    Bool.false_eq_true, if_false, hp]
  apply setFocus_of_skeleton _ _ (splitConvert e f v a w h x y wid).topFrame
    (Frame.mk a v w h x y none
      [Frame.mk (e.frameIndex + 1) false 0 0 0 0 (some wid) [],
        Frame.mk e.frameIndex false 0 0 0 0 (some e.winIndex) []]) wid
  · simp only [equalWins, Frame.skeleton_layout]
  · simp only [splitConvert]
    rw [Frame.nodeAt_updateAt, hf]
    rfl
  · rfl

/-! ## Claim about the structure after `split` -/

/-- C10: `split` on a leaf that holds a window returns, and in the shape of the new tree:
when the parent of the leaf has the orientation of the split, the children of the parent are
the old ones with the new leaf (holding the new window) put right after the leaf, which
still is a leaf with its window; otherwise the frame is a node of the orientation of the
split, without window, over exactly two leaves: a new one with the old window, then the new
one with the new window. -/
theorem split_structure (e : Editor) (f : List Nat) (v : Bool) (a : Nat) (fv : Bool)
    (w h x y : Int) (wid : Nat)
    (hf : Frame.nodeAt e.topFrame f = some (Frame.mk a fv w h x y (some wid) [])) :
    ∃ e2, split e f v = some e2 ∧
      (parentVertical e f = some v →
        ∃ i q p, f = i :: q ∧ Frame.nodeAt e.topFrame q = some p ∧
          Frame.nodeAt (Frame.skeleton e2.topFrame) q =
            some (Frame.skeleton (Frame.setChildren p (p.children.take (i + 1) ++
              Frame.mk e.frameIndex false 0 0 0 0 (some e.winIndex) [] ::
                p.children.drop (i + 1)))) ∧
          Frame.nodeAt (Frame.skeleton e2.topFrame) f =
            some (Frame.mk a fv 0 0 0 0 (some wid) [])) ∧
      (parentVertical e f ≠ some v →
        Frame.nodeAt (Frame.skeleton e2.topFrame) f =
          some (Frame.mk a v 0 0 0 0 none
            [Frame.mk (e.frameIndex + 1) false 0 0 0 0 (some wid) [],
              Frame.mk e.frameIndex false 0 0 0 0 (some e.winIndex) []])) := by
  by_cases hp : parentVertical e f = some v
  · refine ⟨_, split_insert e f v a fv w h x y wid hf hp, fun _ => ?_, fun hn => absurd hp hn⟩
    cases f with
    | nil => simp [parentVertical] at hp
    | cons i q =>
      rw [parentVertical_cons] at hp
      cases hq : Frame.nodeAt e.topFrame q with
      | none => rw [hq] at hp; simp at hp
      | some p =>
        have hf2 := hf
        rw [Frame.nodeAt_cons, hq] at hf2
        simp only [Option.some_bind, List.get?_eq_getElem?] at hf2
        have hi : i < p.children.length := by
          rcases List.getElem?_eq_some_iff.1 hf2 with ⟨hi, _⟩
          exact hi
        have hq2 : Frame.nodeAt (splitInsert e (i :: q)).topFrame q =
            some (Frame.setChildren p (p.children.take (i + 1) ++
              Frame.mk e.frameIndex false 0 0 0 0 (some e.winIndex) [] ::
                p.children.drop (i + 1))) := by
          simp only [splitInsert, List.tail_cons, List.headI_cons]
          rw [Frame.nodeAt_updateAt, hq, Option.map_some', Frame.insertAfter_eq _ _ _ hi]
        refine ⟨i, q, p, rfl, hq, ?_, ?_⟩
        · simp only [equalWins, Frame.skeleton_layout]
          rw [Frame.nodeAt_skeleton, hq2]
          rfl
        · simp only [equalWins, Frame.skeleton_layout]
          rw [Frame.nodeAt_skeleton, Frame.nodeAt_cons, hq2]
          simp only [Option.some_bind, Frame.children_setChildren, List.get?_eq_getElem?]
          rw [← Frame.insertAfter_eq _ _ _ hi, Frame.insertAfter_getElem? _ _ _ _ hf2]
          rfl
  · refine ⟨_, split_convert e f v a fv w h x y wid hf hp, fun h => absurd h hp, fun _ => ?_⟩
    simp only [equalWins, Frame.skeleton_layout]
    rw [Frame.nodeAt_skeleton]
    simp only [splitConvert]
    rw [Frame.nodeAt_updateAt, hf]
    rfl

/-- C10, witness: the first leaf of the example row, split along the row. -/
theorem split_structure_witness :
    Frame.nodeAt exampleRowEditor.topFrame [0] = some (Frame.mk 2 false 0 0 0 0 (some 0) []) ∧
    ∃ e2, split exampleRowEditor [0] true = some e2 ∧
      (parentVertical exampleRowEditor [0] = some true →
        ∃ i q p, [0] = i :: q ∧ Frame.nodeAt exampleRowEditor.topFrame q = some p ∧
          Frame.nodeAt (Frame.skeleton e2.topFrame) q =
            some (Frame.skeleton (Frame.setChildren p (p.children.take (i + 1) ++
              Frame.mk exampleRowEditor.frameIndex false 0 0 0 0
                (some exampleRowEditor.winIndex) [] ::
                p.children.drop (i + 1)))) ∧
          Frame.nodeAt (Frame.skeleton e2.topFrame) [0] =
            some (Frame.mk 2 false 0 0 0 0 (some 0) [])) ∧
      (parentVertical exampleRowEditor [0] ≠ some true →
        Frame.nodeAt (Frame.skeleton e2.topFrame) [0] =
          some (Frame.mk 2 true 0 0 0 0 none
            [Frame.mk (exampleRowEditor.frameIndex + 1) false 0 0 0 0 (some 0) [],
              Frame.mk exampleRowEditor.frameIndex false 0 0 0 0
                (some exampleRowEditor.winIndex) []])) :=
  ⟨rfl, split_structure exampleRowEditor [0] true 2 false 0 0 0 0 0 rfl⟩

end Editor
end Lapce

namespace Lapce
namespace Frame

/-! ## The node invariant -/

theorem nodeInv_iff (f : Frame) :
    nodeInv f ↔
      ((f.win.isSome = true ∧ f.children = []) ∨ (f.win = none ∧ f.children ≠ [])) ∧
        ∀ c ∈ f.children, nodeInv c := by
  unfold nodeInv
  constructor
  · intro h
    refine ⟨h f ((mem_nodes_iff f f).2 (Or.inl rfl)), ?_⟩
    intro c hc n hn
    exact h n ((mem_nodes_iff f n).2 (Or.inr ⟨c, hc, hn⟩))
  · rintro ⟨h1, h2⟩ n hn
    rcases (mem_nodes_iff f n).1 hn with rfl | ⟨c, hc, hn⟩
    · exact h1
    · exact h2 c hc n hn

theorem nodeInv_skeleton (f : Frame) : nodeInv (skeleton f) ↔ nodeInv f := by
  induction f using induct with
  | step a fv w h x y win cs ih =>
    rw [nodeInv_iff, nodeInv_iff (mk a fv w h x y win cs), skeleton_win, skeleton_children]
    simp only [win_mk, children_mk, List.map_eq_nil_iff, List.mem_map, forall_exists_index,
      and_imp, forall_apply_eq_imp_iff₂, ne_eq]
    constructor
    · rintro ⟨h1, h2⟩
      exact ⟨h1, fun c hc => (ih c hc).1 (h2 c hc)⟩
    · rintro ⟨h1, h2⟩
      exact ⟨h1, fun c hc => (ih c hc).2 (h2 c hc)⟩

theorem nodeInv_of_skeleton (f g : Frame) (h : skeleton f = skeleton g) (hg : nodeInv g) :
    nodeInv f := by
  rw [← nodeInv_skeleton, h, nodeInv_skeleton]
  exact hg

theorem emptyRoot_of_skeleton (f g : Frame) (h : skeleton f = skeleton g) (hg : emptyRoot g) :
    emptyRoot f := by
  unfold emptyRoot at hg ⊢
  have h1 : (skeleton f).win = (skeleton g).win := by rw [h]
  have h2 : (skeleton f).children = (skeleton g).children := by rw [h]
  rw [skeleton_win, skeleton_win] at h1
  rw [skeleton_children, skeleton_children, hg.2] at h2
  exact ⟨h1.trans hg.1, by simpa using h2⟩

theorem nodeInv_nodeAt (t : Frame) (r : List Nat) (n : Frame) (ht : nodeInv t)
    (hn : nodeAt t r = some n) : nodeInv n := by
  induction r generalizing n with
  | nil =>
    simp only [nodeAt, Option.some.injEq] at hn
    subst hn
    exact ht
  | cons i q ih =>
    rw [nodeAt_cons] at hn
    cases hq : nodeAt t q with
    | none => rw [hq] at hn; simp at hn
    | some p =>
      rw [hq] at hn
      simp only [Option.some_bind, List.get?_eq_getElem?] at hn
      exact ((nodeInv_iff p).1 (ih p hq)).2 n (List.getElem?_mem hn)

/-- Replacing a frame of a tree that satisfies the node invariant by a tree that satisfies
it gives a tree that satisfies it. -/
theorem nodeInv_updateAt (t : Frame) (r : List Nat) (g : Frame → Frame) (n : Frame)
    (ht : nodeInv t) (hn : nodeAt t r = some n) (hg : nodeInv (g n)) :
    nodeInv (updateAt t r g) := by
  induction r generalizing g n with
  | nil =>
    simp only [nodeAt, Option.some.injEq] at hn
    subst hn
    exact hg
  | cons i q ih =>
    rw [nodeAt_cons] at hn
    cases hq : nodeAt t q with
    | none => rw [hq] at hn; simp at hn
    | some p =>
      rw [hq] at hn
      simp only [Option.some_bind, List.get?_eq_getElem?] at hn
      rw [updateAt]
      apply ih _ p hq
      have hp := (nodeInv_iff p).1 (nodeInv_nodeAt t q p ht hq)
      rw [nodeInv_iff, win_setChildren, children_setChildren]
      have hne : p.children ≠ [] := by
        intro h0
        rw [h0] at hn
        simp at hn
      constructor
      · right
        rcases hp.1 with h1 | h1
        · exact absurd h1.2 hne
        · refine ⟨h1.1, ?_⟩
          intro h0
          have := congrArg List.length h0
          simp only [List.length_modify, List.length_nil] at this
          exact hne (List.length_eq_zero.1 this)
      · intro c hc
        rcases List.getElem?_of_mem hc with ⟨m, hm⟩
        rw [List.getElem?_modify] at hm
        cases hpm : p.children[m]? with
        | none => rw [hpm] at hm; simp at hm
        | some d =>
          rw [hpm] at hm
          simp only [Option.map_eq_map, Option.map_some', Option.some.injEq] at hm
          by_cases him : i = m
          · subst him
            rw [hn] at hpm
            simp only [Option.some.injEq] at hpm
            subst hpm
            rw [if_pos rfl] at hm
            rw [← hm]
            exact hg
          · rw [if_neg him] at hm
            rw [← hm]
            exact hp.2 d (List.getElem?_mem hpm)

theorem nodeAt_emptyRoot (t : Frame) (i : Nat) (q : List Nat) (ht : emptyRoot t) :
    nodeAt t (i :: q) = none := by
  induction q generalizing i with
  | nil =>
    rw [nodeAt_cons]
    simp [nodeAt, ht.2]
  | cons j q ih =>
    rw [nodeAt_cons, ih j]
    rfl

end Frame
end Lapce

namespace Lapce

theorem Frame.eraseIdx_modify (g : Frame → Frame) (l : List Frame) (i : Nat) :
    (List.modify g i l).eraseIdx i = l.eraseIdx i := by
  induction l generalizing i with
  | nil => cases i <;> rfl
  | cons c l ih =>
    cases i with
    | zero => rfl
    | succ i => simp [List.modify_succ_cons, ih]

theorem Frame.mem_swapChildren (cs : List Frame) (i j : Nat) (c : Frame)
    (hc : c ∈ Frame.swapChildren cs i j) : c ∈ cs := by
  unfold Frame.swapChildren at hc
  split at hc
  · rename_i a b ha hb
    rw [List.get?_eq_getElem?] at ha hb
    rcases List.mem_or_eq_of_mem_set hc with h | rfl
    · rcases List.mem_or_eq_of_mem_set h with h | rfl
      · exact h
      · exact List.getElem?_mem hb
    · exact List.getElem?_mem ha
  · exact hc

theorem Frame.length_swapChildren (cs : List Frame) (i j : Nat) :
    (Frame.swapChildren cs i j).length = cs.length := by
  unfold Frame.swapChildren
  split <;> simp

namespace Editor

theorem setFocus_topFrame (e e2 : Editor) (f : List Nat) (h : setFocus e f = some e2) :
    e2.topFrame = e.topFrame := by
  unfold setFocus at h
  split at h
  · simp at h
  · split at h
    · simp at h
    · simp only [Option.some.injEq] at h
      rw [← h]

/-- The geometry pass keeps the node invariant and the empty root. -/
theorem inv_equalWins (e : Editor)
    (h : Frame.nodeInv e.topFrame ∨ Frame.emptyRoot e.topFrame) :
    Frame.nodeInv (equalWins e).topFrame ∨ Frame.emptyRoot (equalWins e).topFrame := by
  have hs : Frame.skeleton (equalWins e).topFrame = Frame.skeleton e.topFrame := by
    simp only [equalWins, Frame.skeleton_layout]
  rcases h with h | h
  · exact Or.inl (Frame.nodeInv_of_skeleton _ _ hs h)
  · exact Or.inr (Frame.emptyRoot_of_skeleton _ _ hs h)

theorem nodeInv_of_node (t : Frame) (f : List Nat) (i : Nat) (n : Frame)
    (h : Frame.nodeInv t ∨ Frame.emptyRoot t) (hn : Frame.nodeAt t (i :: f) = some n) :
    Frame.nodeInv t := by
  rcases h with h | h
  · exact h
  · rw [Frame.nodeAt_emptyRoot t i f h] at hn
    simp at hn

/-- `split` keeps the node invariant. -/
theorem split_inv (e e2 : Editor) (f : List Nat) (v : Bool)
    (h : Frame.nodeInv e.topFrame ∨ Frame.emptyRoot e.topFrame)
    (hs : split e f v = some e2) :
    Frame.nodeInv e2.topFrame ∨ Frame.emptyRoot e2.topFrame := by
  cases hnode : Frame.nodeAt e.topFrame f with
  | none => unfold split at hs; rw [hnode] at hs; simp at hs
  | some n =>
    obtain ⟨a, fv, w, h1, x, y, win, cs⟩ := n
    cases cs with
    | cons c cs =>
      unfold split at hs
      rw [hnode] at hs
      simp only [Frame.hasChildren, Frame.children_mk, List.isEmpty_cons, Bool.not_false,
        if_true, Option.some.injEq] at hs
      rw [← hs]; exact h
    | nil =>
      cases win with
      | none =>
        unfold split at hs
        rw [hnode] at hs
        simp only [Frame.hasChildren, Frame.children_mk, List.isEmpty_nil, Bool.not_true,
          Bool.false_eq_true, if_false, Option.some.injEq] at hs
        rw [← hs]; exact h
      | some wid =>
        have hleaf : Frame.nodeInv (Frame.mk e.frameIndex false 0 0 0 0 (some e.winIndex) []) := by
          rw [Frame.nodeInv_iff]; simp
        by_cases hp : parentVertical e f = some v
        · rw [split_insert e f v a fv w h1 x y wid hnode hp, Option.some.injEq] at hs
          rw [← hs]
          apply inv_equalWins
          left
          cases f with
          | nil => simp [parentVertical] at hp
          | cons i q =>
            have ht := nodeInv_of_node _ _ _ _ h hnode
            rw [Frame.nodeAt_cons] at hnode
            cases hq : Frame.nodeAt e.topFrame q with
            | none => rw [hq] at hnode; simp at hnode
            | some p =>
              rw [hq] at hnode
              simp only [Option.some_bind, List.get?_eq_getElem?] at hnode
              have hi : i < p.children.length := (List.getElem?_eq_some_iff.1 hnode).1
              have hpinv := (Frame.nodeInv_iff p).1 (Frame.nodeInv_nodeAt _ q p ht hq)
              have hne : p.children ≠ [] := by
                intro h0; rw [h0] at hi; simp at hi
              simp only [splitInsert, List.tail_cons, List.headI_cons]
              apply Frame.nodeInv_updateAt _ q _ p ht hq
              rw [Frame.nodeInv_iff, Frame.win_setChildren, Frame.children_setChildren,
                Frame.insertAfter_eq _ _ _ hi]
              constructor
              · right
                rcases hpinv.1 with h2 | h2
                · exact absurd h2.2 hne
                · exact ⟨h2.1, by simp⟩
              · intro c hc
                rcases List.mem_append.1 hc with hc | hc
                · exact hpinv.2 c (List.mem_of_mem_take hc)
                · rcases List.mem_cons.1 hc with rfl | hc
                  · exact hleaf
                  · exact hpinv.2 c (List.mem_of_mem_drop hc)
        · rw [split_convert e f v a fv w h1 x y wid hnode hp, Option.some.injEq] at hs
          rw [← hs]
          apply inv_equalWins
          left
          have ht : Frame.nodeInv e.topFrame := by
            cases f with
            | nil =>
              rcases h with h | h
              · exact h
              · simp only [Frame.nodeAt, Option.some.injEq] at hnode
                rw [hnode] at h
                simp [Frame.emptyRoot] at h
            | cons i q => exact nodeInv_of_node _ _ _ _ h hnode
          simp only [splitConvert]
          apply Frame.nodeInv_updateAt _ f _ _ ht hnode
          rw [Frame.nodeInv_iff]
          simp only [Frame.win_mk, Frame.children_mk, List.mem_cons, List.mem_singleton,
            forall_eq_or_imp, forall_eq]
          refine ⟨by simp, ?_, hleaf, ?_⟩
          · rw [Frame.nodeInv_iff]; simp
          · intro c hc; cases hc

/-- `exchange` keeps the node invariant. -/
theorem exchange_inv (f : List Nat) : ∀ (e e2 : Editor),
    (Frame.nodeInv e.topFrame ∨ Frame.emptyRoot e.topFrame) →
    exchange e f = some e2 →
    Frame.nodeInv e2.topFrame ∨ Frame.emptyRoot e2.topFrame := by
  induction f with
  | nil =>
    intro e e2 h hx
    simp only [exchange, Option.some.injEq] at hx
    rw [← hx]; exact h
  | cons i q ih =>
    intro e e2 h hx
    rw [exchange] at hx
    cases hn : Frame.nodeAt e.topFrame (i :: q) with
    | none => rw [hn] at hx; simp at hx
    | some n =>
      cases hq : Frame.nodeAt e.topFrame q with
      | none => rw [hn, hq] at hx; simp at hx
      | some p =>
        rw [hn, hq] at hx
        simp only at hx
        split at hx
        · exact ih e e2 h hx
        · have ht := nodeInv_of_node _ _ _ _ h hn
          rw [setFocus_topFrame _ _ _ hx]
          apply inv_equalWins
          left
          simp only
          apply Frame.nodeInv_updateAt _ q _ p ht hq
          have hpinv := (Frame.nodeInv_iff p).1 (Frame.nodeInv_nodeAt _ q p ht hq)
          have hne : p.children ≠ [] := by
            intro h0
            rw [Frame.nodeAt_cons, hq] at hn
            simp [h0] at hn
          rw [Frame.nodeInv_iff, Frame.win_setChildren, Frame.children_setChildren]
          constructor
          · right
            rcases hpinv.1 with h2 | h2
            · exact absurd h2.2 hne
            · refine ⟨h2.1, ?_⟩
              intro h0
              have := congrArg List.length h0
              split at this
              · rw [Frame.length_swapChildren] at this
                exact hne (List.length_eq_zero.1 this)
              · rw [Frame.length_swapChildren] at this
                exact hne (List.length_eq_zero.1 this)
          · intro c hc
            split at hc
            · exact hpinv.2 c (Frame.mem_swapChildren _ _ _ _ hc)
            · exact hpinv.2 c (Frame.mem_swapChildren _ _ _ _ hc)

end Editor
end Lapce

namespace Lapce
namespace Editor

/-! ## Facts about `close` -/

/-- The tree after the structural part of `close` on child `i` of the frame at `q`. -/
theorem close_cons (e : Editor) (i : Nat) (q : List Nat) (f p : Frame)
    (hf : Frame.nodeAt e.topFrame (i :: q) = some f) (hq : Frame.nodeAt e.topFrame q = some p)
    (hc : f.hasChildren = false) :
    close e (i :: q) =
      match (if (p.children.eraseIdx i).length = 0 then
          close { e with topFrame := Frame.updateAt e.topFrame q (fun n =>
            Frame.setChildren n (p.children.eraseIdx i)) } q
        else some ({ e with topFrame := Frame.updateAt e.topFrame q (fun n =>
            Frame.setChildren n (p.children.eraseIdx i)) },
          some ((if i > 0 then i - 1 else i) :: q))) with
      | none => none
      | some (e2, newFocus) =>
        match f.win with
        | none => some (e2, newFocus)
        | some id =>
          match newFocus with
          | none => some (equalWins { e2 with wins := deleteWin e2.wins id }, none)
          | some nf =>
            (setFocus (equalWins { e2 with wins := deleteWin e2.wins id }) nf).map
              (fun e4 => (e4, some nf)) := by
  rw [close]
  simp only [hf, hq, hc, Bool.false_eq_true, if_false]

/-- What `close` returns after the recursive part: the tree of the result is the tree after
the structural part, or the geometry pass applied to it. -/
theorem close_finish (r : Option (Editor × Option (List Nat))) (w : Option Nat)
    (e3 : Editor) (nf3 : Option (List Nat))
    (h : (match r with
      | none => none
      | some (e2, newFocus) =>
        match w with
        | none => some (e2, newFocus)
        | some id =>
          match newFocus with
          | none => some (equalWins { e2 with wins := deleteWin e2.wins id }, none)
          | some nf =>
            (setFocus (equalWins { e2 with wins := deleteWin e2.wins id }) nf).map
              (fun e4 => (e4, some nf))) = some (e3, nf3)) :
    ∃ e2 nf2, r = some (e2, nf2) ∧ nf3 = nf2 ∧
      (e3 = e2 ∨ ∃ id, w = some id ∧
        e3.topFrame = (equalWins { e2 with wins := deleteWin e2.wins id }).topFrame) := by
  cases r with
  | none => simp at h
  | some r =>
    obtain ⟨e2, nf2⟩ := r
    cases w with
    | none =>
      simp only [Option.some.injEq, Prod.mk.injEq] at h
      exact ⟨e2, nf2, rfl, h.2.symm, Or.inl h.1.symm⟩
    | some id =>
      cases nf2 with
      | none =>
        simp only [Option.some.injEq, Prod.mk.injEq] at h
        exact ⟨e2, none, rfl, h.2.symm, Or.inr ⟨id, rfl, by rw [← h.1]⟩⟩
      | some nf =>
        simp only at h
        rcases Option.map_eq_some'.1 h with ⟨e4, h4, h5⟩
        simp only [Prod.mk.injEq] at h5
        refine ⟨e2, some nf, rfl, h5.2.symm, Or.inr ⟨id, rfl, ?_⟩⟩
        rw [← h5.1]
        exact setFocus_topFrame _ _ _ h4

/-- `close` keeps the node invariant, also when it starts in a tree where the frame to be
closed is the one frame that breaks it by having neither window nor children: the result
satisfies the invariant or is the empty root. -/
theorem close_inv_aux (r : List Nat) : ∀ (e : Editor) (t0 b n0 : Frame),
    Frame.nodeInv t0 → Frame.nodeAt t0 r = some n0 → b.children = [] →
    e.topFrame = Frame.updateAt t0 r (fun _ => b) →
    ∀ e3 nf3, close e r = some (e3, nf3) →
      Frame.nodeInv e3.topFrame ∨ Frame.emptyRoot e3.topFrame := by
  induction r with
  | nil =>
    intro e t0 b n0 _ _ hb he e3 nf3 hc
    simp only [close, Option.some.injEq, Prod.mk.injEq] at hc
    rw [← hc.1, he]
    simp only [Frame.updateAt]
    cases hw : b.win with
    | none => exact Or.inr ⟨hw, hb⟩
    | some id =>
      left
      rw [Frame.nodeInv_iff, hw, hb]
      simp
  | cons i q ih =>
    intro e t0 b n0 ht0 hn0 hb he e3 nf3 hc
    have hn0b := hn0
    rw [Frame.nodeAt_cons] at hn0b
    cases hq0 : Frame.nodeAt t0 q with
    | none => rw [hq0] at hn0b; simp at hn0b
    | some p0 =>
      rw [hq0] at hn0b
      simp only [Option.some_bind, List.get?_eq_getElem?] at hn0b
      have hfb : Frame.nodeAt e.topFrame (i :: q) = some b := by
        rw [he, Frame.nodeAt_updateAt, hn0]; rfl
      have hqb : Frame.nodeAt e.topFrame q =
          some (Frame.setChildren p0 (List.modify (fun _ => b) i p0.children)) := by
        rw [he, Frame.updateAt, Frame.nodeAt_updateAt, hq0]; rfl
      have hch : b.hasChildren = false := by simp [Frame.hasChildren, hb]
      rw [close_cons e i q b _ hfb hqb hch] at hc
      obtain ⟨e2, nf2, hr, _, hfin⟩ := close_finish _ _ _ _ hc
      rw [Frame.children_setChildren, Frame.eraseIdx_modify] at hr
      have htree : Frame.updateAt e.topFrame q
          (fun n => Frame.setChildren n (p0.children.eraseIdx i)) =
          Frame.updateAt t0 q (fun _ => Frame.setChildren p0 (p0.children.eraseIdx i)) := by
        rw [he, Frame.updateAt, Frame.updateAt_updateAt]
        apply Frame.updateAt_congr _ _ _ _ p0 hq0
        rw [Frame.setChildren_setChildren]
      have hpinv := (Frame.nodeInv_iff p0).1 (Frame.nodeInv_nodeAt _ q p0 ht0 hq0)
      have hne : p0.children ≠ [] := by
        intro h0; rw [h0] at hn0b; simp at hn0b
      have hp0win : p0.win = none := by
        rcases hpinv.1 with h2 | h2
        · exact absurd h2.2 hne
        · exact h2.1
      have h2 : Frame.nodeInv e2.topFrame ∨ Frame.emptyRoot e2.topFrame := by
        split at hr
        · rename_i hlen
          apply ih _ t0 (Frame.setChildren p0 (p0.children.eraseIdx i)) p0 ht0 hq0 _ _ e2 nf2 hr
          · rw [Frame.children_setChildren]
            exact List.length_eq_zero.1 hlen
          · exact htree
        · rename_i hlen
          simp only [Option.some.injEq, Prod.mk.injEq] at hr
          rw [← hr.1]
          simp only
          rw [htree]
          left
          apply Frame.nodeInv_updateAt _ q _ p0 ht0 hq0
          rw [Frame.nodeInv_iff, Frame.win_setChildren, Frame.children_setChildren]
          constructor
          · right
            exact ⟨hp0win, fun h0 => hlen (by rw [h0]; rfl)⟩
          · intro c hc2
            exact hpinv.2 c (List.mem_of_mem_eraseIdx hc2)
      rcases hfin with hfin | ⟨id, _, hfin⟩
      · rw [hfin]; exact h2
      · have := inv_equalWins { e2 with wins := deleteWin e2.wins id } h2
        rw [hfin]
        exact this

/-- `close` keeps the node invariant, up to the empty root. -/
theorem close_inv (e e2 : Editor) (f : List Nat) (nf : Option (List Nat))
    (h : Frame.nodeInv e.topFrame ∨ Frame.emptyRoot e.topFrame)
    (hc : close e f = some (e2, nf)) :
    Frame.nodeInv e2.topFrame ∨ Frame.emptyRoot e2.topFrame := by
  cases f with
  | nil =>
    simp only [close, Option.some.injEq, Prod.mk.injEq] at hc
    rw [← hc.1]; exact h
  | cons i q =>
    cases hn : Frame.nodeAt e.topFrame (i :: q) with
    | none => rw [close, hn] at hc; simp at hc
    | some n =>
      have ht := nodeInv_of_node _ _ _ _ h hn
      by_cases hch : n.hasChildren = true
      · cases hq : Frame.nodeAt e.topFrame q with
        | none => rw [close, hn, hq] at hc; simp at hc
        | some p =>
          rw [close, hn, hq] at hc
          simp only [hch, if_true, Option.some.injEq, Prod.mk.injEq] at hc
          rw [← hc.1]; exact h
      · apply close_inv_aux (i :: q) e e.topFrame n n ht hn _ _ e2 nf hc
        · simpa [Frame.hasChildren] using hch
        · rw [Frame.updateAt_self _ _ _ n hn rfl]

end Editor
end Lapce

namespace Lapce
namespace Editor

/-! ## Claim about the node invariant -/

/-- C7, counterexample: from the example editor with one window, `split` of the root, `close`
of the second leaf and `close` of the remaining leaf lead to a root without window and
without children, which breaks the node invariant. -/
theorem close_last_leaf_breaks_nodeInv :
    Reachable
        { topFrame := Frame.mk 0 true 300 100 0 0 none [], wins := [], winIndex := 2,
          frameIndex := 3, activeWin := some 0, width := 300, height := 100 } ∧
      ¬ Frame.nodeInv (Frame.mk 0 true 300 100 0 0 none []) := by
  constructor
  · have h0 : Reachable exampleEditor := Reachable.init 0 0 false 300 100 0 0 [(0, 0)] 1 1 (some 0) 300 100
    have h1 := Reachable.split exampleEditor
      { topFrame := Frame.mk 0 true 300 100 0 0 none
          [Frame.mk 2 false 150 100 0 0 (some 0) [], Frame.mk 1 false 150 100 150 0 (some 1) []],
        wins := [(1, 1), (0, 2)], winIndex := 2, frameIndex := 3, activeWin := some 0,
        width := 300, height := 100 } [] true h0 rfl
    have h2 := Reachable.close _
      { topFrame := Frame.mk 0 true 300 100 0 0 none [Frame.mk 2 false 300 100 0 0 (some 0) []],
        wins := [(0, 2)], winIndex := 2, frameIndex := 3, activeWin := some 0,
        width := 300, height := 100 } [1] (some [0]) h1 rfl
    exact Reachable.close _ _ [0] none h2 rfl
  · intro h
    rw [Frame.nodeInv_iff] at h
    simp at h

/-- C7, amended: in every tree reachable from a single leaf by `split`, `close` and
`exchange` every frame is a leaf (a window, no children) or an internal node (no window, at
least one child), or else the tree is a root without window and without children. -/
theorem reachable_nodeInv (e : Editor) (h : Reachable e) :
    Frame.nodeInv e.topFrame ∨ Frame.emptyRoot e.topFrame := by
  induction h with
  | init a wid fv w h x y wins winIndex frameIndex activeWin width height =>
    left
    rw [Frame.nodeInv_iff]
    simp
  | split e e2 f v _ hs ih => exact split_inv e e2 f v ih hs
  | close e e2 f nf _ hc ih => exact close_inv e e2 f nf ih hc
  | exchange e e2 f _ hx ih => exact exchange_inv f e e2 ih hx

/-- C7, witness: the example editor after `split` of its root. -/
theorem reachable_nodeInv_witness :
    Reachable
        { topFrame := Frame.mk 0 true 300 100 0 0 none
            [Frame.mk 2 false 150 100 0 0 (some 0) [],
              Frame.mk 1 false 150 100 150 0 (some 1) []],
          wins := [(1, 1), (0, 2)], winIndex := 2, frameIndex := 3, activeWin := some 0,
          width := 300, height := 100 } ∧
      (Frame.nodeInv (Frame.mk 0 true 300 100 0 0 none
            [Frame.mk 2 false 150 100 0 0 (some 0) [],
              Frame.mk 1 false 150 100 150 0 (some 1) []]) ∨
        Frame.emptyRoot (Frame.mk 0 true 300 100 0 0 none
            [Frame.mk 2 false 150 100 0 0 (some 0) [],
              Frame.mk 1 false 150 100 150 0 (some 1) []])) :=
  have h1 : Reachable
      { topFrame := Frame.mk 0 true 300 100 0 0 none
          [Frame.mk 2 false 150 100 0 0 (some 0) [],
            Frame.mk 1 false 150 100 150 0 (some 1) []],
        wins := [(1, 1), (0, 2)], winIndex := 2, frameIndex := 3, activeWin := some 0,
        width := 300, height := 100 } :=
    Reachable.split exampleEditor _ [] true
      (Reachable.init 0 0 false 300 100 0 0 [(0, 0)] 1 1 (some 0) 300 100) rfl
  ⟨h1, reachable_nodeInv _ h1⟩

end Editor
end Lapce

namespace Lapce
namespace Frame

/-! ## A row of leaves -/

theorem countSplits_of_leaf (f : Frame) (v : Bool) (h : f.children = []) :
    countSplits f v = 1 := by
  cases f with
  | mk a fv w h1 x y win cs =>
    simp only [children_mk] at h
    subst h
    exact countSplits_leaf _ _ _ _ _ _ _ _

theorem countMax_leaves (cs : List Frame) (v : Bool) (m : Int) (hm : 0 ≤ m) (hm1 : m ≤ 1)
    (hne : cs ≠ []) (hleaf : ∀ c ∈ cs, c.children = []) : countMax cs v m = 1 := by
  induction cs generalizing m with
  | nil => exact absurd rfl hne
  | cons c cs ih =>
    simp only [countMax, countSplits_of_leaf c v (hleaf c (List.mem_cons_self _ _))]
    have hacc : (if (1 : Int) > m then 1 else m) = 1 := by
      split <;> omega
    rw [hacc]
    cases cs with
    | nil => rfl
    | cons d ds =>
      exact ih 1 (by omega) (le_refl _) (by simp)
        (fun e he => hleaf e (List.mem_cons_of_mem _ he))

/-- The counts of a vertical frame over leaves: the number of leaves along the row, and 1
across. -/
theorem countSplits_row (a : Nat) (w h x y : Int) (win : Option Nat) (cs : List Frame)
    (hne : cs ≠ []) (hleaf : ∀ c ∈ cs, c.children = []) :
    countSplits (mk a true w h x y win cs) true = cs.length ∧
      countSplits (mk a true w h x y win cs) false = 1 := by
  cases cs with
  | nil => exact absurd rfl hne
  | cons c cs =>
    rw [countSplits_node, countSplits_node, if_pos rfl, if_neg (by decide), countSum_eq]
    constructor
    · have : (c :: cs).map (fun c => countSplits c true) = (c :: cs).map (fun _ => (1 : Int)) := by
        apply List.map_congr_left
        intro d hd
        exact countSplits_of_leaf d true (hleaf d hd)
      rw [this]
      simp
      ring
    · exact countMax_leaves _ _ 0 (le_refl _) (by decide) hne hleaf

theorem sum_map_const (l : List Frame) (g : Frame → Int) (u : Int) (h : ∀ c ∈ l, g c = u) :
    (l.map g).sum = l.length * u := by
  induction l with
  | nil => simp
  | cons c l ih =>
    rw [List.map_cons, List.sum_cons, h c (List.mem_cons_self _ _),
      ih (fun d hd => h d (List.mem_cons_of_mem _ hd))]
    simp only [List.length_cons, Nat.cast_add, Nat.cast_one]
    ring

/-- The layout pass on a vertical frame over `n` leaves, for a canvas whose width is a
multiple of `n`: leaf number `k` gets the rectangle `(k*W/n, 0, W/n, H)`. -/
theorem layout_row (a : Nat) (w h x y : Int) (win : Option Nat) (cs : List Frame) (W H : Int)
    (hne : cs ≠ []) (hleaf : ∀ c ∈ cs, c.children = []) (hdiv : (cs.length : Int) ∣ W)
    (k : Nat) (hk : k < cs.length) :
    ∃ leaf, (layout (mk a true w h x y win cs) W H).children[k]? = some leaf ∧
      leaf.x = Int.tdiv (k * W) cs.length ∧ leaf.y = 0 ∧
      leaf.width = Int.tdiv W cs.length ∧ leaf.height = H := by
  obtain ⟨hc1, hc2⟩ := countSplits_row a w h x y win cs hne hleaf
  have hch : (layout (mk a true w h x y win cs) W H).children =
      setPosChildren ((cs.map (fun c => setSize c true (Int.tdiv W cs.length))).map
        (fun c => setSize c false H)) true 0 0 := by
    unfold layout
    rw [setPos_children, setSize_vertical, setSize_vertical, setSize_children,
      setSize_vertical, setSize_children, countSplits_setSize, hc1, hc2]
    simp only [vertical_mk, children_mk, if_true, Bool.true_eq_false, if_false]
    congr 1
    apply List.map_congr_left
    intro c hc
    rcases List.mem_map.1 hc with ⟨d, hd, rfl⟩
    rw [countSplits_setSize, countSplits_of_leaf d false (hleaf d hd)]
    simp
  have hsize : ∀ d ∈ setPosChildren ((cs.map (fun c => setSize c true
      (Int.tdiv W cs.length))).map (fun c => setSize c false H)) true 0 0,
      d.width = Int.tdiv W cs.length ∧ d.height = H := by
    intro d hd
    obtain ⟨c, hc, x1, y1, rfl⟩ := mem_setPosChildren _ _ _ _ _ hd
    rcases List.mem_map.1 hc with ⟨c2, hc2m, rfl⟩
    rcases List.mem_map.1 hc2m with ⟨c3, hc3, rfl⟩
    rw [setPos_width, setPos_height]
    have e1 := setSize_extent_other (setSize c3 true (Int.tdiv W cs.length)) false H
    have e2 := setSize_extent (setSize c3 true (Int.tdiv W cs.length)) false H
    have e3 := setSize_extent c3 true (Int.tdiv W cs.length)
    rw [countSplits_setSize, countSplits_of_leaf c3 false (hleaf c3 hc3)] at e2
    rw [countSplits_of_leaf c3 true (hleaf c3 hc3)] at e3
    simp only [Bool.not_false, extent_true, extent_false, one_mul] at e1 e2 e3
    exact ⟨e1.trans e3, e2⟩
  have hlen : k < (setPosChildren ((cs.map (fun c => setSize c true
      (Int.tdiv W cs.length))).map (fun c => setSize c false H)) true 0 0).length := by
    rw [setPosChildren_length]; simpa using hk
  refine ⟨_, by rw [hch]; exact List.getElem?_eq_getElem hlen, ?_, ?_, ?_, ?_⟩
  · have := (setPosChildren_get _ true 0 0 k _ (List.getElem?_eq_getElem hlen)).1
    simp only [offset, if_true, zero_add, extent_true] at this
    rw [this, sum_map_const _ _ (Int.tdiv W cs.length)
      (fun c hc => (hsize c (List.mem_of_mem_take hc)).1)]
    rw [List.length_take, Nat.min_eq_left (le_of_lt hlen)]
    obtain ⟨m, rfl⟩ := hdiv
    have hn0 : (cs.length : Int) ≠ 0 := by
      have : 0 < cs.length := List.length_pos.2 hne
      omega
    rw [Int.mul_tdiv_cancel_left _ hn0, show (k : Int) * (cs.length * m) = cs.length * (k * m) by ring,
      Int.mul_tdiv_cancel_left _ hn0]
  · have := (setPosChildren_get _ true 0 0 k _ (List.getElem?_eq_getElem hlen)).2
    simpa [offset] using this
  · exact (hsize _ (List.getElem_mem _)).1
  · exact (hsize _ (List.getElem_mem _)).2

end Frame

/-! ## Claim about the row of leaves -/

/-- C9: a vertical root over `n >= 1` leaves, laid out for a canvas `W x H` with `n`
dividing `W`, gives leaf number `k` the rectangle `x = k*W/n`, `y = 0`, `width = W/n`,
`height = H`; three leaves in a canvas of 300 x 100 get 100 x 100 at `x = 0, 100, 200`, and
after `close` of the middle leaf the two leaves left get 150 x 100 at `x = 0, 150`. -/
theorem row_of_leaves (n : Nat) (W H : Int) (a : Nat) (w h x y : Int) (win : Option Nat)
    (cs : List Frame) (hn : 1 ≤ n) (hlen : cs.length = n)
    (hleaf : ∀ c ∈ cs, c.children = []) (hdiv : (n : Int) ∣ W) :
    (∀ k : Nat, k < n →
      ∃ leaf, (Frame.layout (Frame.mk a true w h x y win cs) W H).children[k]? = some leaf ∧
        leaf.x = Int.tdiv (k * W) n ∧ leaf.y = 0 ∧ leaf.width = Int.tdiv W n ∧
        leaf.height = H) ∧
      (Frame.leaves (Frame.layout Frame.exampleRow 300 100)).map Frame.rect =
        [(0, 0, 100, 100), (100, 0, 100, 100), (200, 0, 100, 100)] ∧
      (Editor.close Editor.exampleRowEditor [1]).map
          (fun r => (Frame.leaves r.1.topFrame).map Frame.rect) =
        some [(0, 0, 150, 100), (150, 0, 150, 100)] := by
  refine ⟨?_, by decide, by decide⟩
  intro k hk
  subst hlen
  have hne : cs ≠ [] := by
    intro h0; rw [h0] at hn; simp at hn
  exact Frame.layout_row a w h x y win cs W H hne hleaf hdiv k hk

/-- C9, witness: the example row of three leaves in a canvas of 300 x 100. -/
theorem row_of_leaves_witness :
    (1 ≤ 3 ∧ [Frame.leafOf 2 0, Frame.leafOf 3 2, Frame.leafOf 1 1].length = 3 ∧
      (∀ c ∈ [Frame.leafOf 2 0, Frame.leafOf 3 2, Frame.leafOf 1 1], c.children = []) ∧
      ((3 : Nat) : Int) ∣ 300) ∧
    ((∀ k : Nat, k < 3 →
      ∃ leaf, (Frame.layout (Frame.mk 0 true 0 0 0 0 none
          [Frame.leafOf 2 0, Frame.leafOf 3 2, Frame.leafOf 1 1]) 300 100).children[k]?
            = some leaf ∧
        leaf.x = Int.tdiv (k * 300) (3 : Nat) ∧ leaf.y = 0 ∧
        leaf.width = Int.tdiv 300 (3 : Nat) ∧ leaf.height = 100) ∧
      (Frame.leaves (Frame.layout Frame.exampleRow 300 100)).map Frame.rect =
        [(0, 0, 100, 100), (100, 0, 100, 100), (200, 0, 100, 100)] ∧
      (Editor.close Editor.exampleRowEditor [1]).map
          (fun r => (Frame.leaves r.1.topFrame).map Frame.rect) =
        some [(0, 0, 150, 100), (150, 0, 150, 100)]) :=
  ⟨⟨by decide, rfl, by simp [Frame.leafOf], by decide⟩,
    row_of_leaves 3 300 100 0 0 0 0 0 none [Frame.leafOf 2 0, Frame.leafOf 3 2, Frame.leafOf 1 1]
      (by decide) rfl (by simp [Frame.leafOf]) (by decide)⟩

end Lapce

namespace Lapce
namespace Frame

/-! ## The layout pass depends on the shape only -/

theorem ext_fields (f g : Frame) (h1 : f.addr = g.addr) (h2 : f.vertical = g.vertical)
    (h3 : f.width = g.width) (h4 : f.height = g.height) (h5 : f.x = g.x) (h6 : f.y = g.y)
    (h7 : f.win = g.win) (h8 : f.children = g.children) : f = g := by
  cases f; cases g
  simp only [addr_mk, vertical_mk, width_mk, height_mk, x_mk, y_mk, win_mk, children_mk] at *
  subst h1 h2 h3 h4 h5 h6 h7 h8
  rfl

theorem layout_eq_place (f : Frame) (W H : Int) :
    layout f W H = place f (Int.tdiv W (countSplits f true)) (Int.tdiv H (countSplits f false))
      0 0 := by
  unfold layout place
  rw [countSplits_setSize]

theorem setSize_children_unit (f : Frame) (v : Bool) (u : Int) :
    (setSize f v u).children = f.children.map (fun c => setSize c v (childUnit f c v u)) := by
  rw [setSize_children]
  unfold childUnit
  split <;> rfl

theorem setPos_addr (f : Frame) (x y : Int) : (setPos f x y).addr = f.addr := by
  cases f; simp [setPos]

theorem setPos_win (f : Frame) (x y : Int) : (setPos f x y).win = f.win := by
  cases f; simp [setPos]

theorem place_addr (f : Frame) (uw uh x y : Int) : (place f uw uh x y).addr = f.addr := by
  unfold place
  rw [setPos_addr, setSize_addr, setSize_addr]

theorem place_vertical (f : Frame) (uw uh x y : Int) :
    (place f uw uh x y).vertical = f.vertical := by
  unfold place
  rw [setPos_vertical, setSize_vertical, setSize_vertical]

theorem place_win (f : Frame) (uw uh x y : Int) : (place f uw uh x y).win = f.win := by
  unfold place
  rw [setPos_win, setSize_win, setSize_win]

theorem place_width (f : Frame) (uw uh x y : Int) :
    (place f uw uh x y).width = countSplits f true * uw := by
  unfold place
  have := setSize_extent_other (f.setSize true uw) false uh
  simp only [Bool.not_false, extent_true] at this
  rw [setPos_width, this, ← extent_true, setSize_extent]

theorem place_height (f : Frame) (uw uh x y : Int) :
    (place f uw uh x y).height = countSplits f false * uh := by
  unfold place
  rw [setPos_height, ← extent_false, setSize_extent, countSplits_setSize]

theorem place_x (f : Frame) (uw uh x y : Int) : (place f uw uh x y).x = x := by
  unfold place; rw [setPos_x]

theorem place_y (f : Frame) (uw uh x y : Int) : (place f uw uh x y).y = y := by
  unfold place; rw [setPos_y]

/-- The children after the layout pass: every child laid out with the units handed down,
and placed by the loop of `setPos`. -/
theorem place_children (f : Frame) (uw uh x y : Int) :
    (place f uw uh x y).children =
      setPosChildren (f.children.map (fun c =>
        setSize (setSize c true (childUnit f c true uw)) false (childUnit f c false uh)))
        f.vertical x y := by
  unfold place
  rw [setPos_children, setSize_vertical, setSize_vertical, setSize_children_unit,
    setSize_children_unit, List.map_map]
  congr 1
  apply List.map_congr_left
  intro c _
  simp only [Function.comp]
  unfold childUnit
  rw [setSize_vertical, countSplits_setSize, countSplits_setSize]

/-- Child number `i` after the loop of `setPos`. -/
theorem setPosChildren_getElem? (l : List Frame) (fv : Bool) (x y : Int) (i : Nat) :
    (setPosChildren l fv x y)[i]? =
      l[i]?.map (fun c => setPos c
        (x + if fv then ((l.take i).map (fun d => d.width)).sum else 0)
        (y + if fv then 0 else ((l.take i).map (fun d => d.height)).sum)) := by
  induction l generalizing x y i with
  | nil => simp [setPosChildren]
  | cons c l ih =>
    rw [setPosChildren_cons]
    cases i with
    | zero => simp
    | succ i =>
      simp only [List.getElem?_cons_succ, ih, List.take_succ_cons, List.map_cons, List.sum_cons]
      cases l[i]? with
      | none => rfl
      | some d =>
        simp only [Option.map_some', Option.some.injEq]
        cases fv
        · simp only [Bool.false_eq_true, if_false, add_zero]
          congr 1; ring
        · simp only [if_true, add_zero]
          congr 1; ring

/-- The layout pass on a list of children gives the same frames for two lists of the same
shapes laid out with the same units. -/
theorem setPosChildren_congr (cs ds : List Frame) (F G : Frame → Frame) (fv : Bool)
    (hlen : cs.length = ds.length)
    (h : ∀ (i : Nat) (c d : Frame), cs[i]? = some c → ds[i]? = some d →
      ∀ x y, setPos (F c) x y = setPos (G d) x y) (x y : Int) :
    setPosChildren (cs.map F) fv x y = setPosChildren (ds.map G) fv x y := by
  induction cs generalizing ds x y with
  | nil =>
    cases ds with
    | nil => rfl
    | cons d ds => simp at hlen
  | cons c cs ih =>
    cases ds with
    | nil => simp at hlen
    | cons d ds =>
      simp only [List.length_cons, Nat.add_right_cancel_iff] at hlen
      have h0 := h 0 c d (by simp) (by simp)
      have hw : (F c).width = (G d).width := by
        rw [← setPos_width (F c) 0 0, h0, setPos_width]
      have hh : (F c).height = (G d).height := by
        rw [← setPos_height (F c) 0 0, h0, setPos_height]
      rw [List.map_cons, List.map_cons, setPosChildren_cons, setPosChildren_cons, h0, hw, hh,
        ih ds hlen (fun i c2 d2 hc hd => h (i + 1) c2 d2 (by simpa using hc) (by simpa using hd))]

theorem childUnit_congr (f g c d : Frame) (v : Bool) (u : Int)
    (hv : f.vertical = g.vertical) (hf : countSplits f v = countSplits g v)
    (hc : countSplits c v = countSplits d v) : childUnit f c v u = childUnit g d v u := by
  unfold childUnit
  rw [hv, hf, hc]

/-- The layout pass gives the same tree for two trees of the same shape. -/
theorem place_congr (f : Frame) : ∀ (g : Frame), skeleton f = skeleton g →
    ∀ uw uh x y, place f uw uh x y = place g uw uh x y := by
  induction f using induct with
  | step a fv w h x0 y0 win cs ih =>
    intro g hs uw uh x y
    have hs2 := hs
    rw [skeleton_eq, skeleton_eq g] at hs2
    simp only [mk.injEq, addr_mk, vertical_mk, win_mk, children_mk, true_and] at hs2
    obtain ⟨ha, hv, hw, hc⟩ := hs2
    subst ha hv hw
    have hct := countSplits_of_skeleton _ _ hs true
    have hcf := countSplits_of_skeleton _ _ hs false
    apply ext_fields
    · rw [place_addr, place_addr, addr_mk]
    · rw [place_vertical, place_vertical, vertical_mk]
    · rw [place_width, place_width, hct]
    · rw [place_height, place_height, hcf]
    · rw [place_x, place_x]
    · rw [place_y, place_y]
    · rw [place_win, place_win, win_mk]
    · rw [place_children, place_children, children_mk, vertical_mk]
      have hlen : cs.length = g.children.length := by
        have := congrArg List.length hc
        simpa using this
      apply setPosChildren_congr _ _ _ _ _ hlen
      intro i c d hci hdi x1 y1
      have hcd : skeleton c = skeleton d := by
        have h1 : (cs.map skeleton)[i]? = (g.children.map skeleton)[i]? := by rw [hc]
        rw [List.getElem?_map, List.getElem?_map, hci, hdi] at h1
        simpa using h1
      have := ih c (List.getElem?_mem hci) d hcd
        (childUnit (mk g.addr g.vertical w h x0 y0 g.win cs) c true uw)
        (childUnit (mk g.addr g.vertical w h x0 y0 g.win cs) c false uh) x1 y1
      unfold place at this
      rw [this, childUnit_congr _ g c d true uw (by rw [vertical_mk]) hct
          (countSplits_of_skeleton _ _ hcd true),
        childUnit_congr _ g c d false uh (by rw [vertical_mk]) hcf
          (countSplits_of_skeleton _ _ hcd false)]

/-- The layout pass of `equalWins` gives the same tree for two trees of the same shape. -/
theorem layout_congr (f g : Frame) (h : skeleton f = skeleton g) (W H : Int) :
    layout f W H = layout g W H := by
  rw [layout_eq_place, layout_eq_place, place_congr f g h, countSplits_of_skeleton f g h true,
    countSplits_of_skeleton f g h false]

end Frame
end Lapce

namespace Lapce
namespace Frame

/-! ## Replacing a frame by one with the same counts -/

theorem nodeAt_of_skeleton (t t2 : Frame) (r : List Nat) (n : Frame)
    (hs : skeleton t2 = skeleton t) (hn : nodeAt t r = some n) :
    ∃ n2, nodeAt t2 r = some n2 ∧ skeleton n2 = skeleton n := by
  have h1 := nodeAt_skeleton t2 r
  rw [hs, nodeAt_skeleton, hn] at h1
  cases hm : nodeAt t2 r with
  | none => rw [hm] at h1; simp at h1
  | some m =>
    rw [hm] at h1
    simp only [Option.map_some', Option.some.injEq] at h1
    exact ⟨m, rfl, h1.symm⟩

theorem updateAt_cons_const (t : Frame) (i : Nat) (q : List Nat) (p n2 : Frame)
    (hq : nodeAt t q = some p) :
    updateAt t (i :: q) (fun _ => n2) =
      updateAt t q (fun _ => setChildren p (List.modify (fun _ => n2) i p.children)) := by
  rw [updateAt]
  exact updateAt_congr _ _ _ _ p hq rfl

theorem countSplits_modify (p n n2 : Frame) (i : Nat) (hn : p.children[i]? = some n)
    (hc : ∀ v, countSplits n2 v = countSplits n v) (v : Bool) :
    countSplits (setChildren p (List.modify (fun _ => n2) i p.children)) v = countSplits p v := by
  apply countSplits_congr
  · rw [vertical_setChildren]
  · rw [children_setChildren]
    apply List.ext_getElem?
    intro m
    rw [List.getElem?_map, List.getElem?_map, List.getElem?_modify]
    by_cases him : i = m
    · subst him
      rw [hn]
      simp [hc]
    · cases p.children[m]? <;> simp [him]

/-- Replacing a frame by one with the same counts leaves the counts of the tree alone. -/
theorem countSplits_updateAt (t : Frame) (r : List Nat) : ∀ (n n2 : Frame),
    nodeAt t r = some n → (∀ v, countSplits n2 v = countSplits n v) →
    ∀ v, countSplits (updateAt t r (fun _ => n2)) v = countSplits t v := by
  induction r with
  | nil =>
    intro n n2 hn hc v
    simp only [nodeAt, Option.some.injEq] at hn
    subst hn
    exact hc v
  | cons i q ih =>
    intro n n2 hn hc v
    rw [nodeAt_cons] at hn
    cases hq : nodeAt t q with
    | none => rw [hq] at hn; simp at hn
    | some p =>
      rw [hq] at hn
      simp only [Option.some_bind, List.get?_eq_getElem?] at hn
      rw [updateAt_cons_const t i q p n2 hq]
      exact ih p _ hq (countSplits_modify p n n2 i hn hc) v

theorem take_modify (g : Frame → Frame) (i : Nat) (l : List Frame) :
    (List.modify g i l).take i = l.take i := by
  induction l generalizing i with
  | nil => cases i <;> rfl
  | cons c l ih =>
    cases i with
    | zero => rfl
    | succ i => simp [List.modify_succ_cons, ih]

/-- Replacing a frame by one with the same counts does not move it: the layout pass lays the
old and the new frame out with the same units at the same place. -/
theorem place_context (t : Frame) (r : List Nat) : ∀ (n n2 : Frame),
    nodeAt t r = some n → (∀ v, countSplits n2 v = countSplits n v) →
    ∀ uw uh x y, ∃ uw2 uh2 x2 y2,
      nodeAt (place t uw uh x y) r = some (place n uw2 uh2 x2 y2) ∧
      nodeAt (place (updateAt t r (fun _ => n2)) uw uh x y) r = some (place n2 uw2 uh2 x2 y2) := by
  induction r with
  | nil =>
    intro n n2 hn hc uw uh x y
    simp only [nodeAt, Option.some.injEq] at hn
    subst hn
    exact ⟨uw, uh, x, y, rfl, rfl⟩
  | cons i q ih =>
    intro n n2 hn hc uw uh x y
    rw [nodeAt_cons] at hn
    cases hq : nodeAt t q with
    | none => rw [hq] at hn; simp at hn
    | some p =>
      rw [hq] at hn
      simp only [Option.some_bind, List.get?_eq_getElem?] at hn
      have hcp := countSplits_modify p n n2 i hn hc
      obtain ⟨uwq, uhq, xq, yq, h1, h2⟩ := ih p _ hq hcp uw uh x y
      rw [updateAt_cons_const t i q p n2 hq, nodeAt_cons, nodeAt_cons, h1, h2]
      simp only [Option.some_bind, List.get?_eq_getElem?, place_children,
        setPosChildren_getElem?, List.getElem?_map, vertical_setChildren, children_setChildren,
        List.getElem?_modify, hn, Option.map_eq_map, Option.map_some', if_true]
      have hF : ∀ c : Frame,
          setSize (setSize c true (childUnit (setChildren p (List.modify (fun _ => n2) i
            p.children)) c true uwq)) false (childUnit (setChildren p
              (List.modify (fun _ => n2) i p.children)) c false uhq) =
          setSize (setSize c true (childUnit p c true uwq)) false (childUnit p c false uhq) := by
        intro c
        rw [childUnit_congr _ p c c true uwq (vertical_setChildren _ _) (hcp true) rfl,
          childUnit_congr _ p c c false uhq (vertical_setChildren _ _) (hcp false) rfl]
      simp only [hF, ← List.map_take, take_modify]
      refine ⟨childUnit p n true uwq, childUnit p n false uhq, _, _, rfl, ?_⟩
      unfold place
      rw [childUnit_congr p p n2 n true uwq rfl rfl (hc true),
        childUnit_congr p p n2 n false uhq rfl rfl (hc false)]

end Frame
end Lapce

namespace Lapce

theorem Frame.map_insertAfter (g : Frame → Frame) (cs : List Frame) (i : Nat) (nf : Frame) :
    (Frame.insertAfter cs i nf).map g = Frame.insertAfter (cs.map g) i (g nf) := by
  induction cs generalizing i with
  | nil => rfl
  | cons c cs ih =>
    cases i with
    | zero => simp [Frame.insertAfter]
    | succ i => simp [Frame.insertAfter, ih]

theorem Frame.eraseIdx_insertAfter (cs : List Frame) (i : Nat) (nf : Frame)
    (hi : i < cs.length) : (Frame.insertAfter cs i nf).eraseIdx (i + 1) = cs := by
  induction cs generalizing i with
  | nil => simp at hi
  | cons c cs ih =>
    cases i with
    | zero => simp [Frame.insertAfter]
    | succ i =>
      simp only [List.length_cons, Nat.add_lt_add_iff_right] at hi
      simp [Frame.insertAfter, ih i hi]

theorem Frame.map_eraseIdx (g : Frame → Frame) (cs : List Frame) (i : Nat) :
    (cs.eraseIdx i).map g = (cs.map g).eraseIdx i := by
  induction cs generalizing i with
  | nil => rfl
  | cons c cs ih =>
    cases i with
    | zero => rfl
    | succ i => simp [ih]

theorem Frame.length_insertAfter (cs : List Frame) (i : Nat) (nf : Frame)
    (hi : i < cs.length) : (Frame.insertAfter cs i nf).length = cs.length + 1 := by
  rw [Frame.insertAfter_eq _ _ _ hi]
  simp
  omega

theorem Frame.hasChildren_of_skeleton (f g : Frame) (h : Frame.skeleton f = Frame.skeleton g) :
    f.children.length = g.children.length ∧ f.win = g.win := by
  have h1 : (Frame.skeleton f).children = (Frame.skeleton g).children := by rw [h]
  have h2 : (Frame.skeleton f).win = (Frame.skeleton g).win := by rw [h]
  rw [Frame.skeleton_children, Frame.skeleton_children] at h1
  rw [Frame.skeleton_win, Frame.skeleton_win] at h2
  have := congrArg List.length h1
  simp only [List.length_map] at this
  exact ⟨this, h2⟩

namespace Editor

/-- `close` on a leaf with a window whose parent keeps a child: the leaf is taken out of the
children of the parent, its window leaves the registry, the geometry is recomputed and the
focus goes to the sibling before it (the first one for the first child).  The tree `t`
stands for the shape of the new tree. -/
theorem close_leaf (e : Editor) (i : Nat) (q : List Nat) (f p t n : Frame) (id wid : Nat)
    (hf : Frame.nodeAt e.topFrame (i :: q) = some f) (hq : Frame.nodeAt e.topFrame q = some p)
    (hc : f.children = []) (hw : f.win = some id) (hlen : 2 ≤ p.children.length)
    (hs : Frame.skeleton (Frame.updateAt e.topFrame q (fun m =>
      Frame.setChildren m (p.children.eraseIdx i))) = Frame.skeleton t)
    (hn : Frame.nodeAt t ((if i > 0 then i - 1 else i) :: q) = some n)
    (hfl : n.firstLeaf.win = some wid) :
    close e (i :: q) =
      some ({ e with topFrame := Frame.layout t e.width e.height
                     wins := deleteWin e.wins id
                     activeWin := some wid },
        some ((if i > 0 then i - 1 else i) :: q)) := by
  have hch : f.hasChildren = false := by simp [Frame.hasChildren, hc]
  rw [close_cons e i q f p hf hq hch]
  have hi : i < p.children.length := by
    rw [Frame.nodeAt_cons, hq] at hf
    simp only [Option.some_bind, List.get?_eq_getElem?] at hf
    exact (List.getElem?_eq_some_iff.1 hf).1
  have hl : (p.children.eraseIdx i).length ≠ 0 := by
    rw [List.length_eraseIdx, if_pos hi]
    omega
  rw [if_neg hl]
  simp only [hw]
  have hlay : Frame.layout (Frame.updateAt e.topFrame q (fun m =>
      Frame.setChildren m (p.children.eraseIdx i))) e.width e.height =
      Frame.layout t e.width e.height := Frame.layout_congr _ _ hs _ _
  rw [setFocus_of_skeleton _ _ t n wid (by simp only [equalWins, Frame.skeleton_layout, hs])
    hn hfl]
  simp only [equalWins, hlay, Option.map_some']

end Editor
end Lapce

namespace Lapce
namespace Editor

/-! ## Claim about `split` followed by `close` -/

theorem countSplits_single (a : Nat) (v : Bool) (w h x y : Int) (win : Option Nat)
    (c : Frame) (hc : c.children = []) (v2 : Bool) :
    Frame.countSplits (Frame.mk a v w h x y win [c]) v2 = 1 := by
  rw [Frame.countSplits_node]
  simp only [Frame.countSum, Frame.countMax, Frame.countSplits_of_leaf c v2 hc]
  split <;> simp

theorem childUnit_single (a : Nat) (v : Bool) (w h x y : Int) (win : Option Nat)
    (c : Frame) (hc : c.children = []) (v2 : Bool) (u : Int) :
    Frame.childUnit (Frame.mk a v w h x y win [c]) c v2 u = u := by
  unfold Frame.childUnit
  rw [countSplits_single a v w h x y win c hc, Frame.countSplits_of_leaf c v2 hc]
  split <;> simp

/-- C6, counterexample: `split` of the single leaf of the example editor followed by `close`
of the new leaf leaves a root that is an internal node over one leaf, not the leaf it was. -/
theorem split_close_keeps_node :
    ((split exampleEditor [] true).bind (fun e1 =>
        (close e1 [1]).map (fun r => Frame.skeleton r.1.topFrame))
      = some (Frame.mk 0 true 0 0 0 0 none [Frame.mk 2 false 0 0 0 0 (some 0) []])) ∧
      Frame.skeleton exampleEditor.topFrame = Frame.mk 0 false 0 0 0 0 (some 0) [] ∧
      Frame.mk 0 true 0 0 0 0 none [Frame.mk 2 false 0 0 0 0 (some 0) []] ≠
        Frame.mk 0 false 0 0 0 0 (some 0) [] := by
  refine ⟨rfl, rfl, ?_⟩
  intro h
  simp at h

/-- C6, amended: `split` on a leaf that holds a window followed by `close` on the new leaf
returns.  When the parent of the leaf has the orientation of the split, the tree is again
the tree before the split, as the layout pass lays it out.  Otherwise the frame stays an
internal node over one leaf, which holds the window, and every other frame is as before;
after the layout pass that leaf has the rectangle the frame had as a leaf. -/
theorem split_close (e : Editor) (f : List Nat) (v : Bool) (a : Nat) (fv : Bool)
    (w h x y : Int) (wid : Nat)
    (hf : Frame.nodeAt e.topFrame f = some (Frame.mk a fv w h x y (some wid) [])) :
    ∃ e1 e2, split e f v = some e1 ∧
      (parentVertical e f = some v →
        close e1 ((f.headI + 1) :: f.tail) = some (e2, some f) ∧
        e2.topFrame = Frame.layout e.topFrame e.width e.height) ∧
      (parentVertical e f ≠ some v →
        close e1 (1 :: f) = some (e2, some (0 :: f)) ∧
        Frame.skeleton e2.topFrame =
          Frame.updateAt (Frame.skeleton e.topFrame) f (fun _ =>
            Frame.mk a v 0 0 0 0 none [Frame.mk (e.frameIndex + 1) false 0 0 0 0 (some wid) []]) ∧
        ∃ leaf g, Frame.nodeAt e2.topFrame (0 :: f) = some leaf ∧
          Frame.nodeAt (Frame.layout e.topFrame e.width e.height) f = some g ∧
          leaf.win = some wid ∧ leaf.children = [] ∧ leaf.rect = g.rect) := by
  by_cases hp : parentVertical e f = some v
  · -- the parent splits along `v`
    cases f with
    | nil => simp [parentVertical] at hp
    | cons i q =>
      have hp2 := hp
      rw [parentVertical_cons] at hp2
      cases hq : Frame.nodeAt e.topFrame q with
      | none => rw [hq] at hp2; simp at hp2
      | some p =>
        have hfi := hf
        rw [Frame.nodeAt_cons, hq] at hfi
        simp only [Option.some_bind, List.get?_eq_getElem?] at hfi
        have hi : i < p.children.length := (List.getElem?_eq_some_iff.1 hfi).1
        have hT1q : Frame.nodeAt (splitInsert e (i :: q)).topFrame q =
            some (Frame.setChildren p (Frame.insertAfter p.children i
              (Frame.mk e.frameIndex false 0 0 0 0 (some e.winIndex) []))) := by
          simp only [splitInsert, List.tail_cons, List.headI_cons]
          rw [Frame.nodeAt_updateAt, hq]; rfl
        have hT1n : Frame.nodeAt (splitInsert e (i :: q)).topFrame ((i + 1) :: q) =
            some (Frame.mk e.frameIndex false 0 0 0 0 (some e.winIndex) []) := by
          rw [Frame.nodeAt_cons, hT1q]
          simp only [Option.some_bind, List.get?_eq_getElem?, Frame.children_setChildren]
          exact Frame.insertAfter_getElem?_succ _ _ _ hi
        have hsk1 : Frame.skeleton (Frame.layout (splitInsert e (i :: q)).topFrame
            e.width e.height) = Frame.skeleton (splitInsert e (i :: q)).topFrame :=
          Frame.skeleton_layout _ _ _
        obtain ⟨p2, hp2q, hp2s⟩ := Frame.nodeAt_of_skeleton _ _ q _ hsk1 hT1q
        obtain ⟨nl, hnl, hnls⟩ := Frame.nodeAt_of_skeleton _ _ ((i + 1) :: q) _ hsk1 hT1n
        have hnl2 := Frame.hasChildren_of_skeleton _ _ hnls
        have hp22 := Frame.hasChildren_of_skeleton _ _ hp2s
        simp only [Frame.children_mk, List.length_nil, Frame.win_mk] at hnl2
        rw [Frame.children_setChildren, Frame.length_insertAfter _ _ _ hi] at hp22
        have hclose := close_leaf
          { equalWins (splitInsert e (i :: q)) with activeWin := some wid } (i + 1) q nl p2
          e.topFrame (Frame.mk a fv w h x y (some wid) []) e.winIndex wid hnl hp2q
          (List.length_eq_zero.1 hnl2.1) hnl2.2 (by omega)
          (by
            simp only [equalWins]
            rw [Frame.skeleton_updateAt _ _ _
              (fun m => Frame.setChildren m ((p2.children.eraseIdx (i + 1)).map Frame.skeleton))
              (fun m => Frame.skeleton_setChildren m _), Frame.skeleton_layout]
            simp only [splitInsert, List.tail_cons, List.headI_cons]
            rw [Frame.skeleton_updateAt _ _ _
              (fun m => Frame.setChildren m (Frame.insertAfter m.children i
                (Frame.skeleton (Frame.mk e.frameIndex false 0 0 0 0 (some e.winIndex) []))))
              (fun m => by
                simp only [Frame.skeleton_setChildren, Frame.map_insertAfter,
                  Frame.skeleton_children]),
              Frame.updateAt_updateAt]
            apply Frame.updateAt_self _ _ _ (Frame.skeleton p)
            · rw [Frame.nodeAt_skeleton, hq]; rfl
            · rw [Frame.setChildren_setChildren, Frame.map_eraseIdx,
                ← Frame.skeleton_children p2, hp2s, Frame.skeleton_children,
                Frame.children_setChildren, ← Frame.map_eraseIdx,
                Frame.eraseIdx_insertAfter _ _ _ hi, ← Frame.skeleton_children,
                Frame.setChildren_children])
          (by simpa using hf) rfl
        simp only [gt_iff_lt, Nat.zero_lt_succ, if_true, Nat.add_sub_cancel] at hclose
        exact ⟨_, _, split_insert e (i :: q) v a fv w h x y wid hf hp, fun _ => ⟨hclose, rfl⟩,
          fun hn => absurd hp hn⟩
  · -- no parent, or a parent of the other orientation
    have hT2f : Frame.nodeAt (splitConvert e f v a w h x y wid).topFrame f =
        some (Frame.mk a v w h x y none
          [Frame.mk (e.frameIndex + 1) false 0 0 0 0 (some wid) [],
            Frame.mk e.frameIndex false 0 0 0 0 (some e.winIndex) []]) := by
      simp only [splitConvert]
      rw [Frame.nodeAt_updateAt, hf]; rfl
    have hT2n : Frame.nodeAt (splitConvert e f v a w h x y wid).topFrame (1 :: f) =
        some (Frame.mk e.frameIndex false 0 0 0 0 (some e.winIndex) []) := by
      rw [Frame.nodeAt_cons, hT2f]; rfl
    have hsk1 : Frame.skeleton (Frame.layout (splitConvert e f v a w h x y wid).topFrame
        e.width e.height) = Frame.skeleton (splitConvert e f v a w h x y wid).topFrame :=
      Frame.skeleton_layout _ _ _
    obtain ⟨p2, hp2q, hp2s⟩ := Frame.nodeAt_of_skeleton _ _ f _ hsk1 hT2f
    obtain ⟨nl, hnl, hnls⟩ := Frame.nodeAt_of_skeleton _ _ (1 :: f) _ hsk1 hT2n
    have hnl2 := Frame.hasChildren_of_skeleton _ _ hnls
    have hp22 := Frame.hasChildren_of_skeleton _ _ hp2s
    simp only [Frame.children_mk, List.length_nil, Frame.win_mk, List.length_cons] at hnl2 hp22
    have hNsk : Frame.skeleton (Frame.updateAt e.topFrame f (fun _ =>
        Frame.mk a v w h x y none [Frame.mk (e.frameIndex + 1) false 0 0 0 0 (some wid) []]))
        = Frame.updateAt (Frame.skeleton e.topFrame) f (fun _ =>
          Frame.mk a v 0 0 0 0 none [Frame.mk (e.frameIndex + 1) false 0 0 0 0 (some wid) []]) :=
      Frame.skeleton_updateAt _ _ _ _ (fun _ => by simp [Frame.skeleton_mk])
    have hclose := close_leaf
      { equalWins (splitConvert e f v a w h x y wid) with activeWin := some wid } 1 f nl p2
      (Frame.updateAt e.topFrame f (fun _ =>
        Frame.mk a v w h x y none [Frame.mk (e.frameIndex + 1) false 0 0 0 0 (some wid) []]))
      (Frame.mk (e.frameIndex + 1) false 0 0 0 0 (some wid) []) e.winIndex wid hnl hp2q
      (List.length_eq_zero.1 hnl2.1) hnl2.2 (by omega)
      (by
        simp only [equalWins]
        rw [hNsk, Frame.skeleton_updateAt _ _ _
          (fun m => Frame.setChildren m ((p2.children.eraseIdx 1).map Frame.skeleton))
          (fun m => Frame.skeleton_setChildren m _), Frame.skeleton_layout]
        simp only [splitConvert]
        rw [Frame.skeleton_updateAt _ _ _
          (fun _ => Frame.skeleton (Frame.mk a v w h x y none
            [Frame.mk (e.frameIndex + 1) false 0 0 0 0 (some wid) [],
              Frame.mk e.frameIndex false 0 0 0 0 (some e.winIndex) []]))
          (fun _ => rfl), Frame.updateAt_updateAt]
        congr 1
        funext _
        rw [Frame.map_eraseIdx, ← Frame.skeleton_children p2, hp2s]
        simp [Frame.skeleton_mk, Frame.setChildren])
      (by
        simp only [Nat.lt_one_iff, gt_iff_lt, Nat.zero_lt_one, if_true, Nat.sub_self]
        rw [Frame.nodeAt_cons, Frame.nodeAt_updateAt, hf]; rfl)
      rfl
    have hN1c : ∀ v2, Frame.countSplits (Frame.mk a v w h x y none
        [Frame.mk (e.frameIndex + 1) false 0 0 0 0 (some wid) []]) v2 =
        Frame.countSplits (Frame.mk a fv w h x y (some wid) []) v2 := by
      intro v2
      rw [countSplits_single a v w h x y none
        (Frame.mk (e.frameIndex + 1) false 0 0 0 0 (some wid) []) rfl, Frame.countSplits_leaf]
    obtain ⟨uw2, uh2, x2, y2, hc1, hc2⟩ := Frame.place_context e.topFrame f _ _ hf hN1c
      (Int.tdiv e.width (Frame.countSplits e.topFrame true))
      (Int.tdiv e.height (Frame.countSplits e.topFrame false)) 0 0
    simp only [gt_iff_lt, Nat.zero_lt_one, if_true, Nat.sub_self] at hclose
    refine ⟨_, _, split_convert e f v a fv w h x y wid hf hp, fun h0 => absurd h0 hp,
      fun _ => ⟨hclose, ?_, ?_⟩⟩
    · simp only
      rw [Frame.skeleton_layout, hNsk]
    · simp only [equalWins]
      rw [Frame.layout_eq_place, Frame.layout_eq_place,
        Frame.countSplits_updateAt _ _ _ _ hf hN1c, Frame.countSplits_updateAt _ _ _ _ hf hN1c,
        show (splitConvert e f v a w h x y wid).width = e.width from rfl,
        show (splitConvert e f v a w h x y wid).height = e.height from rfl,
        Frame.nodeAt_cons, hc2, hc1]
      have hchild : (Frame.place (Frame.mk a v w h x y none
          [Frame.mk (e.frameIndex + 1) false 0 0 0 0 (some wid) []]) uw2 uh2 x2 y2).children.get? 0
          = some (Frame.place (Frame.mk (e.frameIndex + 1) false 0 0 0 0 (some wid) [])
              uw2 uh2 x2 y2) := by
        rw [Frame.place_children]
        simp only [Frame.children_mk, List.map_cons, List.map_nil, Frame.setPosChildren_cons,
          List.get?_eq_getElem?, List.getElem?_cons_zero]
        rw [childUnit_single a v w h x y none
            (Frame.mk (e.frameIndex + 1) false 0 0 0 0 (some wid) []) rfl,
          childUnit_single a v w h x y none
            (Frame.mk (e.frameIndex + 1) false 0 0 0 0 (some wid) []) rfl]
        rfl
      refine ⟨Frame.place (Frame.mk (e.frameIndex + 1) false 0 0 0 0 (some wid) [])
        uw2 uh2 x2 y2, _, ?_, rfl, ?_, ?_, ?_⟩
      · simp only [Option.some_bind, hchild]
      · rw [Frame.place_win]; rfl
      · unfold Frame.place
        rw [Frame.setPos_children, Frame.setSize_children, Frame.setSize_children]
        simp [Frame.setPosChildren]
      · unfold Frame.rect
        rw [Frame.place_x, Frame.place_y, Frame.place_width, Frame.place_height,
          Frame.place_x, Frame.place_y, Frame.place_width, Frame.place_height,
          Frame.countSplits_leaf, Frame.countSplits_leaf, Frame.countSplits_leaf,
          Frame.countSplits_leaf]

/-- C6, witness: the single leaf of the example editor, split vertically. -/
theorem split_close_witness :
    Frame.nodeAt exampleEditor.topFrame [] = some (Frame.mk 0 false 300 100 0 0 (some 0) []) ∧
    ∃ e1 e2, split exampleEditor [] true = some e1 ∧
      (parentVertical exampleEditor [] = some true →
        close e1 ((([] : List Nat).headI + 1) :: ([] : List Nat).tail) = some (e2, some []) ∧
        e2.topFrame =
          Frame.layout exampleEditor.topFrame exampleEditor.width exampleEditor.height) ∧
      (parentVertical exampleEditor [] ≠ some true →
        close e1 [1] = some (e2, some [0]) ∧
        Frame.skeleton e2.topFrame =
          Frame.updateAt (Frame.skeleton exampleEditor.topFrame) [] (fun _ =>
            Frame.mk 0 true 0 0 0 0 none
              [Frame.mk (exampleEditor.frameIndex + 1) false 0 0 0 0 (some 0) []]) ∧
        ∃ leaf g, Frame.nodeAt e2.topFrame [0] = some leaf ∧
          Frame.nodeAt (Frame.layout exampleEditor.topFrame exampleEditor.width
            exampleEditor.height) [] = some g ∧
          leaf.win = some 0 ∧ leaf.children = [] ∧ leaf.rect = g.rect) :=
  ⟨rfl, split_close exampleEditor [] true 0 false 300 100 0 0 0 rfl⟩

end Editor
end Lapce

/-! ## The extent set by `setSize` -/

namespace Lapce

/-- The loop of `countSplits` for the other orientation ends on its start value or on the
count of a child. -/
theorem Frame.countMax_attained (cs : List Frame) (v : Bool) (n : Int) :
    Frame.countMax cs v n = n ∨ ∃ c ∈ cs, Frame.countSplits c v = Frame.countMax cs v n := by
  induction cs generalizing n with
  | nil => left; simp [Frame.countMax]
  | cons c cs ih =>
    simp only [Frame.countMax]
    rcases ih (if Frame.countSplits c v > n then Frame.countSplits c v else n) with h | ⟨d, hd, h⟩
    · by_cases hc : Frame.countSplits c v > n
      · right
        rw [if_pos hc] at h ⊢
        exact ⟨c, List.mem_cons_self _ _, h.symm⟩
      · left
        rw [if_neg hc] at h ⊢
        exact h
    · right
      exact ⟨d, List.mem_cons_of_mem _ hd, h⟩

end Lapce

/-! ## A run that is stopped -/

namespace Lapce

/-- At the end of an uninterrupted run both axes have reached their magnitudes. -/
theorem tickLoop_none_reached (x y : Int) (fuel : Nat) :
    ∀ (sdx sdy dx dy : Int) (t : List (Int × Int)),
      tickLoop x y fuel none sdx sdy dx dy = some t →
      Abs x - dx ≤ (cumulative t).1 ∧ Abs y - dy ≤ (cumulative t).2 := by
  induction fuel with
  | zero => intro sdx sdy dx dy t h; simp [tickLoop] at h
  | succ n ih =>
    intro sdx sdy dx dy t h
    rw [tickLoop_succ] at h
    split_ifs at h with hfin
    · simp only [Option.some.injEq] at h
      subst h
      simp only [cumulative, add_zero]
      omega
    · simp only [Option.map_eq_some'] at h
      obtain ⟨r, hr, rfl⟩ := h
      have := ih _ _ _ _ r hr
      simp only [cumulative]
      omega

/-- An axis with request 0 and step 0 sends only zeros. -/
theorem tickLoop_none_zero (x y : Int) (fuel : Nat) :
    ∀ (sdx sdy dx dy : Int) (t : List (Int × Int)),
      tickLoop x y fuel none sdx sdy dx dy = some t →
      ((x = 0 → sdx = 0 → 0 ≤ dx → ∀ a ∈ t, a.1 = 0) ∧
        (y = 0 → sdy = 0 → 0 ≤ dy → ∀ a ∈ t, a.2 = 0)) := by
  induction fuel with
  | zero => intro sdx sdy dx dy t h; simp [tickLoop] at h
  | succ n ih =>
    intro sdx sdy dx dy t h
    have hc : ∀ d : Int, 0 ≤ d → clampStep 0 (Abs 0 - d) 0 = 0 := by
      intro d hd
      unfold clampStep
      rw [if_neg]
      have : Abs 0 = 0 := by decide
      omega
    rw [tickLoop_succ] at h
    split_ifs at h with hfin
    · simp only [Option.some.injEq] at h
      subst h
      constructor
      · intro hx hs hd a ha
        simp only [List.mem_singleton] at ha
        subst ha hx hs
        exact hc dx hd
      · intro hx hs hd a ha
        simp only [List.mem_singleton] at ha
        subst ha hx hs
        exact hc dy hd
    · simp only [Option.map_eq_some'] at h
      obtain ⟨r, hr, rfl⟩ := h
      have := ih _ _ _ _ r hr
      constructor
      · intro hx hs hd a ha
        subst hx hs
        rw [hc dx hd] at this hr
        simp only [List.mem_cons] at ha
        rcases ha with rfl | ha
        · exact hc dx hd
        · exact this.1 rfl rfl (by have : Abs 0 = 0 := by decide
                                   omega) a ha
      · intro hx hs hd a ha
        subst hx hs
        rw [hc dy hd] at this hr
        simp only [List.mem_cons] at ha
        rcases ha with rfl | ha
        · exact hc dy hd
        · exact this.2 rfl rfl (by have : Abs 0 = 0 := by decide
                                   omega) a ha

/-- The cumulative magnitude of a list of zeros is zero. -/
theorem cumulative_zero (l : List (Int × Int)) :
    ((∀ a ∈ l, a.1 = 0) → (cumulative l).1 = 0) ∧ ((∀ a ∈ l, a.2 = 0) → (cumulative l).2 = 0) := by
  induction l with
  | nil => simp [cumulative]
  | cons a l ih =>
    obtain ⟨a1, a2⟩ := a
    have h0 : Abs 0 = 0 := by decide
    constructor
    · intro h
      have h1 : a1 = 0 := h (a1, a2) (List.mem_cons_self _ _)
      have h2 := ih.1 (fun b hb => h b (List.mem_cons_of_mem _ hb))
      simp only [cumulative, h1, h2, h0, add_zero]
    · intro h
      have h1 : a2 = 0 := h (a1, a2) (List.mem_cons_self _ _)
      have h2 := ih.2 (fun b hb => h b (List.mem_cons_of_mem _ hb))
      simp only [cumulative, h1, h2, h0, add_zero]

/-- The step sent on a stop is the sign of the request times the remaining distance,
whenever the remaining distance of an axis with request 0 is 0. -/
theorem settleStep_sign (x d : Int) (h : x = 0 → d = 0) : settleStep x d = Int.sign x * d := by
  unfold settleStep
  rcases lt_trichotomy x 0 with hx | hx | hx
  · rw [if_pos hx, Int.sign_eq_neg_one_of_neg hx]; omega
  · subst hx; rw [h rfl]; decide
  · rw [if_neg (by omega), Int.sign_eq_one_of_pos hx]; omega

end Lapce

namespace Lapce

/-- A run of `smoothScroll` left alone ends with both axes at their magnitudes. -/
theorem smoothScroll_none_reached (fuel : Nat) (x y : Int) (t : List (Int × Int))
    (h : smoothScroll fuel x y none = some t) :
    Abs x ≤ (cumulative t).1 ∧ Abs y ≤ (cumulative t).2 := by
  by_cases h0 : x = 0 ∧ y = 0
  · have hA : Abs 0 = 0 := by decide
    have := cumulative_nonneg t
    rw [h0.1, h0.2, hA]
    exact this
  · rw [smoothScroll_nonzero _ _ _ _ h0] at h
    have := tickLoop_none_reached x y fuel _ _ 0 0 t h
    omega

/-- An axis with request 0 receives only zeros from a run of `smoothScroll` left alone. -/
theorem smoothScroll_none_zero (fuel : Nat) (x y : Int) (t : List (Int × Int))
    (h : smoothScroll fuel x y none = some t) :
    (x = 0 → ∀ a ∈ t, a.1 = 0) ∧ (y = 0 → ∀ a ∈ t, a.2 = 0) := by
  by_cases h0 : x = 0 ∧ y = 0
  · unfold smoothScroll at h
    rw [if_pos h0] at h
    simp only [Option.some.injEq] at h
    subst h
    simp
  · rw [smoothScroll_nonzero _ _ _ _ h0] at h
    have := tickLoop_none_zero x y fuel _ _ 0 0 t h
    have hf : ∀ total : Int, firstStep 0 (scrollTotal x y) = 0 := by
      intro _
      rcases scrollTotal_cases x y with ht | ht <;> rw [ht] <;> decide
    constructor
    · intro hx
      refine this.1 hx ?_ (le_refl _)
      rw [hx]
      rw [hx] at hf
      exact hf 0
    · intro hy
      refine this.2 hy ?_ (le_refl _)
      rw [hy]
      rcases scrollTotal_cases x 0 with ht | ht <;> rw [ht] <;> decide

/-- C20: when the stop signal is observed after the `k`-th tick (`k >= 1`) of
`smoothScroll(x, y)` and an axis has not reached its magnitude yet, the run sends one more
delta, on each axis the sign of the request times what is left of its magnitude, and ends;
the deltas of the cancelled run add up to `(x, y)`. -/
theorem stop_settles_exactly (x y : Int) (k fuel : Nat) (ta : List (Int × Int))
    (hta : smoothScroll fuel x y none = some ta) (hk : 1 ≤ k) (hlen : k ≤ ta.length)
    (hun : ¬ (Abs x ≤ (cumulative (ta.take k)).1 ∧ Abs y ≤ (cumulative (ta.take k)).2)) :
    smoothScroll fuel x y (some (k - 1)) =
      some (ta.take k ++
        [(Int.sign x * (Abs x - (cumulative (ta.take k)).1),
          Int.sign y * (Abs y - (cumulative (ta.take k)).2))]) ∧
    sumDeltas (ta.take k ++
        [(Int.sign x * (Abs x - (cumulative (ta.take k)).1),
          Int.sign y * (Abs y - (cumulative (ta.take k)).2))]) = (x, y) := by
  have hsigns := smoothScroll_none_signs fuel x y ta hta
  have hzero := smoothScroll_none_zero fuel x y ta hta
  have hlt : k < ta.length := by
    rcases Nat.lt_or_ge k ta.length with h | h
    · exact h
    · exfalso
      apply hun
      rw [List.take_of_length_le h]
      exact smoothScroll_none_reached fuel x y ta hta
  have h0 : ¬ (x = 0 ∧ y = 0) := by
    intro h
    unfold smoothScroll at hta
    rw [if_pos h] at hta
    simp only [Option.some.injEq] at hta
    subst hta
    simp at hlt
  have hA : Abs 0 = 0 := by decide
  have hsx : settleStep x (Abs x - (cumulative (ta.take k)).1)
      = Int.sign x * (Abs x - (cumulative (ta.take k)).1) := by
    apply settleStep_sign
    intro hx
    rw [(cumulative_zero (ta.take k)).1
      (fun a ha => hzero.1 hx a (List.mem_of_mem_take ha)), hx, hA]
    rfl
  have hsy : settleStep y (Abs y - (cumulative (ta.take k)).2)
      = Int.sign y * (Abs y - (cumulative (ta.take k)).2) := by
    apply settleStep_sign
    intro hy
    rw [(cumulative_zero (ta.take k)).2
      (fun a ha => hzero.2 hy a (List.mem_of_mem_take ha)), hy, hA]
    rfl
  rw [← hsx, ← hsy]
  constructor
  · rw [smoothScroll_nonzero _ _ _ _ h0] at hta ⊢
    have := tickLoop_stop_spec x y fuel (k - 1) _ _ 0 0 ta hta (by omega)
    have hk1 : k - 1 + 1 = k := by omega
    rw [hk1] at this
    simpa using this
  · rw [sumDeltas_append, sumDeltas_of_signs x y (ta.take k)
      (fun a ha => hsigns a (List.mem_of_mem_take ha))]
    simp only [sumDeltas, add_zero, settleStep_add, add_sub_cancel, settleStep_Abs]

/-- C20, witness: the request `(30, 0)` stopped after its first tick sends `(10, 0)` and
then `(20, 0)`. -/
theorem stop_settles_exactly_witness :
    smoothScroll 30 30 0 (some (1 - 1)) =
      some (([(10, 0), (10, 0), (10, 0)] : List (Int × Int)).take 1 ++
        [(Int.sign 30 * (Abs 30 - (cumulative (([(10, 0), (10, 0), (10, 0)] :
            List (Int × Int)).take 1)).1),
          Int.sign 0 * (Abs 0 - (cumulative (([(10, 0), (10, 0), (10, 0)] :
            List (Int × Int)).take 1)).2))]) ∧
    sumDeltas (([(10, 0), (10, 0), (10, 0)] : List (Int × Int)).take 1 ++
        [(Int.sign 30 * (Abs 30 - (cumulative (([(10, 0), (10, 0), (10, 0)] :
            List (Int × Int)).take 1)).1),
          Int.sign 0 * (Abs 0 - (cumulative (([(10, 0), (10, 0), (10, 0)] :
            List (Int × Int)).take 1)).2))]) = (30, 0) :=
  stop_settles_exactly 30 0 1 30 [(10, 0), (10, 0), (10, 0)] (by decide) (by decide)
    (by decide) (by decide)

end Lapce

/-! ## The guarded calls -/

namespace Lapce
namespace Editor

/-- C16: the guarded calls change nothing: `split` and `close` on a frame that has
children, `close` and `exchange` on the frame without parent (the root) return the editor
as it was, that is the same tree with the same geometry, registry and active window, and
`close` then returns no frame. -/
theorem guarded_calls_change_nothing (e : Editor) (f : List Nat) (n : Frame) (vertical : Bool)
    (hn : Frame.nodeAt e.topFrame f = some n) (hc : n.hasChildren = true) :
    split e f vertical = some e ∧ close e f = some (e, none) ∧
      close e [] = some (e, none) ∧ exchange e [] = some e := by
  refine ⟨?_, ?_, rfl, rfl⟩
  · obtain ⟨a, fv, w, h, x, y, win, cs⟩ := n
    simp only [split, hn, hc, if_true]
  · cases f with
    | nil => rfl
    | cons i q =>
      have hq : ∃ p, Frame.nodeAt e.topFrame q = some p := by
        rw [Frame.nodeAt_cons] at hn
        cases hp : Frame.nodeAt e.topFrame q with
        | none => rw [hp] at hn; simp at hn
        | some p => exact ⟨p, rfl⟩
      obtain ⟨p, hp⟩ := hq
      simp only [close, hn, hp, hc, if_true]

/-- C16, witness: the root of the row of three leaves has children and no parent. -/
theorem guarded_calls_change_nothing_witness :
    split exampleRowEditor [] false = some exampleRowEditor ∧
      close exampleRowEditor [] = some (exampleRowEditor, none) ∧
      close exampleRowEditor [] = some (exampleRowEditor, none) ∧
      exchange exampleRowEditor [] = some exampleRowEditor :=
  guarded_calls_change_nothing exampleRowEditor [] Frame.exampleRow false rfl rfl

end Editor
end Lapce

/-! ## The effect of `exchange` -/

namespace Lapce

/-- In a tree with the node invariant `setFocus` finds a window: the first leaf under any
frame holds one. -/
theorem Frame.firstLeaf_win_of_nodeInv (f : Frame) (h : Frame.nodeInv f) :
    ∃ id, f.firstLeaf.win = some id := by
  induction f using Frame.induct with
  | step a fv w h1 x y win cs ih =>
    have hi := (Frame.nodeInv_iff _).1 h
    cases cs with
    | nil =>
      rcases hi.1 with h2 | h2
      · simp only [Frame.win_mk] at h2
        simp only [Frame.firstLeaf, Frame.win_mk]
        exact Option.isSome_iff_exists.1 h2.1
      · simp at h2
    | cons c cs =>
      simp only [Frame.firstLeaf]
      exact ih c (List.mem_cons_self _ _) (hi.2 c (by simp))

/-- The entries of a list after two of them have been swapped. -/
theorem Frame.getElem?_swap (cs : List Frame) (i j : Nat) (a b : Frame)
    (hi : cs[i]? = some a) (hj : cs[j]? = some b) (m : Nat) :
    ((cs.set i b).set j a)[m]? =
      if m = j then some a else if m = i then some b else cs[m]? := by
  have hil : i < cs.length := (List.getElem?_eq_some_iff.1 hi).1
  have hjl : j < cs.length := (List.getElem?_eq_some_iff.1 hj).1
  by_cases hmj : m = j
  · subst hmj
    rw [if_pos rfl, List.getElem?_set_self (by simpa using hjl)]
  · rw [if_neg hmj, List.getElem?_set_ne (fun h => hmj h.symm)]
    by_cases hmi : m = i
    · subst hmi
      rw [if_pos rfl, List.getElem?_set_self hil]
    · rw [if_neg hmi, List.getElem?_set_ne (fun h => hmi h.symm)]

/-- Putting `x` in the place of an entry `b` and `b` in front permutes `x` in front. -/
theorem Frame.perm_set_cons (r : List Frame) (k : Nat) (b x : Frame) (h : r[k]? = some b) :
    (b :: r.set k x).Perm (x :: r) := by
  induction r generalizing k with
  | nil => simp at h
  | cons y r ih =>
    cases k with
    | zero =>
      simp only [List.getElem?_cons_zero, Option.some.injEq] at h
      subst h
      simp only [List.set_cons_zero]
      exact List.Perm.swap _ _ _
    | succ k =>
      simp only [List.getElem?_cons_succ] at h
      simp only [List.set_cons_succ]
      exact ((List.Perm.swap y b _).trans ((ih k h).cons y)).trans (List.Perm.swap x y r)

/-- Swapping two entries of a list permutes it. -/
theorem Frame.perm_swap (cs : List Frame) (i j : Nat) (a b : Frame)
    (hi : cs[i]? = some a) (hj : cs[j]? = some b) :
    ((cs.set i b).set j a).Perm cs := by
  induction cs generalizing i j with
  | nil => simp at hi
  | cons x r ih =>
    cases i with
    | zero =>
      simp only [List.getElem?_cons_zero, Option.some.injEq] at hi
      subst hi
      cases j with
      | zero =>
        simp only [List.getElem?_cons_zero, Option.some.injEq] at hj
        subst hj
        simp
      | succ j =>
        simp only [List.getElem?_cons_succ] at hj
        simp only [List.set_cons_zero, List.set_cons_succ]
        exact Frame.perm_set_cons r j b x hj
    | succ i =>
      simp only [List.getElem?_cons_succ] at hi
      cases j with
      | zero =>
        simp only [List.getElem?_cons_zero, Option.some.injEq] at hj
        subst hj
        simp only [List.set_cons_zero, List.set_cons_succ]
        exact Frame.perm_set_cons r i a x hi
      | succ j =>
        simp only [List.getElem?_cons_succ] at hj
        simp only [List.set_cons_succ]
        exact (ih i j hi hj).cons x

namespace Editor

/-- The call `exchange` on child `i` of a frame `p` with at least two children, in a tree
with the node invariant: the children `i` and `j` of `p` change places (`j` is `i + 1`, or
`i - 1` when `i` is the last), the geometry is recomputed and the window of the first leaf
under the frame now at index `i` becomes the active one. -/
theorem exchange_step (e : Editor) (i : Nat) (q : List Nat) (p : Frame)
    (hinv : Frame.nodeInv e.topFrame) (hq : Frame.nodeAt e.topFrame q = some p)
    (hi : i < p.children.length) (h2 : 2 ≤ p.children.length) :
    ∃ a b id, p.children[i]? = some a ∧
      p.children[if i = p.children.length - 1 then i - 1 else i + 1]? = some b ∧
      b.firstLeaf.win = some id ∧
      exchange e (i :: q) = some
        { e with
          topFrame := Frame.layout (Frame.updateAt e.topFrame q (fun m =>
            Frame.setChildren m ((p.children.set i b).set
              (if i = p.children.length - 1 then i - 1 else i + 1) a))) e.width e.height
          activeWin := some id } := by
  have hsw : (if i = p.children.length - 1 then Frame.swapChildren p.children i (i - 1)
      else Frame.swapChildren p.children i (i + 1)) =
      Frame.swapChildren p.children i (if i = p.children.length - 1 then i - 1 else i + 1) := by
    split_ifs <;> rfl
  have hjl : (if i = p.children.length - 1 then i - 1 else i + 1) < p.children.length := by
    split_ifs <;> omega
  have hij : i ≠ (if i = p.children.length - 1 then i - 1 else i + 1) := by
    split_ifs <;> omega
  generalize (if i = p.children.length - 1 then i - 1 else i + 1) = j at hsw hjl hij ⊢
  have ha : p.children[i]? = some (p.children[i]) := List.getElem?_eq_getElem hi
  have hb : p.children[j]? = some (p.children[j]) := List.getElem?_eq_getElem hjl
  have hbn : Frame.nodeAt e.topFrame (j :: q) = some (p.children[j]) := by
    rw [Frame.nodeAt_cons, hq]
    simp
  have han : Frame.nodeAt e.topFrame (i :: q) = some (p.children[i]) := by
    rw [Frame.nodeAt_cons, hq]
    simp
  obtain ⟨id, hid⟩ := Frame.firstLeaf_win_of_nodeInv _
    (Frame.nodeInv_nodeAt _ _ _ hinv hbn)
  refine ⟨_, _, id, ha, hb, hid, ?_⟩
  have hs : Frame.swapChildren p.children i j
      = (p.children.set i (p.children[j])).set j (p.children[i]) := by
    unfold Frame.swapChildren
    rw [List.get?_eq_getElem?, List.get?_eq_getElem?, ha, hb]
  rw [exchange, han, hq]
  simp only
  rw [if_neg (by omega), hsw, hs]
  rw [setFocus_of_skeleton _ (i :: q) (Frame.updateAt e.topFrame q (fun m =>
      Frame.setChildren m ((p.children.set i (p.children[j])).set j (p.children[i]))))
      (p.children[j]) id (Frame.skeleton_layout _ _ _) ?_ hid]
  · rfl
  · rw [Frame.nodeAt_cons, Frame.nodeAt_updateAt, hq]
    simp only [Option.map_some', Option.some_bind, Frame.children_setChildren,
      List.get?_eq_getElem?]
    rw [Frame.getElem?_swap _ _ _ _ _ ha hb, if_neg hij, if_pos rfl]

end Editor
end Lapce
namespace Lapce
namespace Editor

/-- The row of three leaves has the node invariant. -/
theorem nodeInv_exampleRow : Frame.nodeInv exampleRowEditor.topFrame := by
  have h : Frame.nodes exampleRowEditor.topFrame =
      [Frame.exampleRow, Frame.leafOf 2 0, Frame.leafOf 3 2, Frame.leafOf 1 1] := rfl
  intro n hn
  rw [h] at hn
  simp only [List.mem_cons, List.mem_singleton, List.not_mem_nil, or_false] at hn
  rcases hn with rfl | rfl | rfl | rfl
  · right; exact ⟨rfl, by simp [Frame.exampleRow]⟩
  · left; exact ⟨rfl, rfl⟩
  · left; exact ⟨rfl, rfl⟩
  · left; exact ⟨rfl, rfl⟩

/-- C12: `exchange` on child `i` of a frame with at least two children, in a tree with the
node invariant, returns, and the children of that frame are then the old ones with the
entries `i` and `i + 1` swapped, or `i - 1` and `i` when `i` is the last index: every other
entry stays in place and the new list is a permutation of the old one of the same length.
On the only child of a frame `exchange` is `exchange` on that frame. -/
theorem exchange_swaps_neighbours (e : Editor) (i : Nat) (q : List Nat) (p : Frame)
    (hinv : Frame.nodeInv e.topFrame) (hq : Frame.nodeAt e.topFrame q = some p)
    (hi : i < p.children.length) :
    (2 ≤ p.children.length →
      ∃ (e2 : Editor) (n2 : Frame) (cs2 : List Frame), exchange e (i :: q) = some e2 ∧ Frame.nodeAt e2.topFrame q = some n2 ∧
        n2.children.map Frame.skeleton = cs2.map Frame.skeleton ∧
        cs2.Perm p.children ∧ cs2.length = p.children.length ∧
        ∀ m, cs2[m]? =
          if m = (if i = p.children.length - 1 then i - 1 else i + 1) then p.children[i]?
          else if m = i then
            p.children[if i = p.children.length - 1 then i - 1 else i + 1]?
          else p.children[m]?) ∧
    (p.children.length = 1 → exchange e (i :: q) = exchange e q) := by
  constructor
  · intro h2
    obtain ⟨a, b, id, ha, hb, -, hx⟩ := exchange_step e i q p hinv hq hi h2
    obtain ⟨n2, hn2, hs2⟩ := Frame.nodeAt_of_skeleton
      (Frame.updateAt e.topFrame q (fun m => Frame.setChildren m ((p.children.set i b).set
        (if i = p.children.length - 1 then i - 1 else i + 1) a)))
      (Frame.layout (Frame.updateAt e.topFrame q (fun m =>
        Frame.setChildren m ((p.children.set i b).set
          (if i = p.children.length - 1 then i - 1 else i + 1) a))) e.width e.height) q
      (Frame.setChildren p ((p.children.set i b).set
        (if i = p.children.length - 1 then i - 1 else i + 1) a))
      (Frame.skeleton_layout _ _ _)
      (by rw [Frame.nodeAt_updateAt, hq]; rfl)
    refine ⟨_, n2, _, hx, hn2, ?_, Frame.perm_swap _ _ _ _ _ ha hb,
      by rw [List.length_set, List.length_set], ?_⟩
    · rw [← Frame.skeleton_children, hs2, Frame.skeleton_children,
        Frame.children_setChildren]
    · intro m
      rw [Frame.getElem?_swap _ _ _ _ _ ha hb, ha, hb]
  · intro h1
    have han : Frame.nodeAt e.topFrame (i :: q) = some (p.children[i]) := by
      rw [Frame.nodeAt_cons, hq]
      simp
    rw [exchange, han, hq]
    simp only
    rw [if_pos h1]

/-- C12, witness: the first leaf of the row of three leaves. -/
theorem exchange_swaps_neighbours_witness :
    (2 ≤ Frame.exampleRow.children.length →
      ∃ (e2 : Editor) (n2 : Frame) (cs2 : List Frame), exchange exampleRowEditor (0 :: []) = some e2 ∧
        Frame.nodeAt e2.topFrame [] = some n2 ∧
        n2.children.map Frame.skeleton = cs2.map Frame.skeleton ∧
        cs2.Perm Frame.exampleRow.children ∧ cs2.length = Frame.exampleRow.children.length ∧
        ∀ m, cs2[m]? =
          if m = (if 0 = Frame.exampleRow.children.length - 1 then 0 - 1 else 0 + 1) then
            Frame.exampleRow.children[0]?
          else if m = 0 then
            Frame.exampleRow.children[if 0 = Frame.exampleRow.children.length - 1 then 0 - 1
              else 0 + 1]?
          else Frame.exampleRow.children[m]?) ∧
    (Frame.exampleRow.children.length = 1 →
      exchange exampleRowEditor (0 :: []) = exchange exampleRowEditor []) :=
  exchange_swaps_neighbours exampleRowEditor 0 [] Frame.exampleRow nodeInv_exampleRow rfl
    (by decide)

/-- C13, counterexample: in the row of three leaves with the windows 0, 2, 1, `exchange` on
the first leaf (window 0) returns with window 2 active, the window of the former second
leaf, while the exchanged leaf is now the second child and still holds window 0. -/
theorem exchange_focus_not_on_exchanged :
    ∃ e2, exchange exampleRowEditor [0] = some e2 ∧ e2.activeWin = some 2 ∧
      (Frame.nodeAt exampleRowEditor.topFrame [0]).map (fun f => f.firstLeaf.win)
        = some (some 0) ∧
      (Frame.nodeAt e2.topFrame [1]).map (fun f => (f.addr, f.firstLeaf.win))
        = some (2, some 0) ∧
      (Frame.nodeAt e2.topFrame [0]).map (fun f => (f.addr, f.firstLeaf.win))
        = some (3, some 2) :=
  ⟨_, rfl, rfl, rfl, rfl, rfl⟩

/-- C13, amended: after `exchange` on child `i` of a frame with at least two children, in a
tree with the node invariant, the active window is the window of the first leaf under the
frame that is now at index `i`, that is under the sibling the frame changed places with
(the former child `i + 1`, or `i - 1` when `i` was the last index). -/
theorem exchange_focus_on_sibling (e : Editor) (i : Nat) (q : List Nat) (p : Frame)
    (hinv : Frame.nodeInv e.topFrame) (hq : Frame.nodeAt e.topFrame q = some p)
    (hi : i < p.children.length) (h2 : 2 ≤ p.children.length) :
    ∃ e2 b n2, exchange e (i :: q) = some e2 ∧
      p.children[if i = p.children.length - 1 then i - 1 else i + 1]? = some b ∧
      e2.activeWin = b.firstLeaf.win ∧
      Frame.nodeAt e2.topFrame (i :: q) = some n2 ∧ Frame.skeleton n2 = Frame.skeleton b := by
  obtain ⟨a, b, id, ha, hb, hid, hx⟩ := exchange_step e i q p hinv hq hi h2
  have hij : i ≠ (if i = p.children.length - 1 then i - 1 else i + 1) := by
    split_ifs <;> omega
  obtain ⟨n2, hn2, hs2⟩ := Frame.nodeAt_of_skeleton
    (Frame.updateAt e.topFrame q (fun m => Frame.setChildren m ((p.children.set i b).set
      (if i = p.children.length - 1 then i - 1 else i + 1) a)))
    (Frame.layout (Frame.updateAt e.topFrame q (fun m =>
      Frame.setChildren m ((p.children.set i b).set
        (if i = p.children.length - 1 then i - 1 else i + 1) a))) e.width e.height) (i :: q)
    b (Frame.skeleton_layout _ _ _)
    (by
      rw [Frame.nodeAt_cons, Frame.nodeAt_updateAt, hq]
      simp only [Option.map_some', Option.some_bind, Frame.children_setChildren,
        List.get?_eq_getElem?]
      rw [Frame.getElem?_swap _ _ _ _ _ ha hb, if_neg hij, if_pos rfl])
  exact ⟨_, b, n2, hx, hb, hid.symm, hn2, hs2⟩

/-- C13, witness: the first leaf of the row of three leaves. -/
theorem exchange_focus_on_sibling_witness :
    ∃ e2 b n2, exchange exampleRowEditor (0 :: []) = some e2 ∧
      Frame.exampleRow.children[if 0 = Frame.exampleRow.children.length - 1 then 0 - 1
        else 0 + 1]? = some b ∧
      e2.activeWin = b.firstLeaf.win ∧
      Frame.nodeAt e2.topFrame (0 :: []) = some n2 ∧ Frame.skeleton n2 = Frame.skeleton b :=
  exchange_focus_on_sibling exampleRowEditor 0 [] Frame.exampleRow nodeInv_exampleRow rfl
    (by decide) (by decide)

end Editor
end Lapce

/-! ## What `close` returns -/

namespace Lapce
namespace Editor

/-- The last part of `close` returns when the frame to focus, if there is one, lies over a
leaf with a window; it returns the frame it was given, which still lies over a leaf with a
window. -/
theorem close_finish_returns (e2 : Editor) (nf2 : Option (List Nat)) (w : Option Nat)
    (res : Option (Editor × Option (List Nat)))
    (hres : res = (match (some (e2, nf2) : Option (Editor × Option (List Nat))) with
      | none => none
      | some (e2, newFocus) =>
        match w with
        | none => some (e2, newFocus)
        | some id =>
          match newFocus with
          | none => some (equalWins { e2 with wins := deleteWin e2.wins id }, none)
          | some nf =>
            (setFocus (equalWins { e2 with wins := deleteWin e2.wins id }) nf).map
              (fun e4 => (e4, some nf))))
    (hfoc : ∀ ref, nf2 = some ref →
      ∃ n id, Frame.nodeAt e2.topFrame ref = some n ∧ n.firstLeaf.win = some id) :
    ∃ e3, res = some (e3, nf2) ∧
      Frame.skeleton e3.topFrame = Frame.skeleton e2.topFrame ∧
      ∀ ref, nf2 = some ref →
        ∃ n id, Frame.nodeAt e3.topFrame ref = some n ∧ n.firstLeaf.win = some id := by
  subst hres
  cases w with
  | none => exact ⟨e2, rfl, rfl, hfoc⟩
  | some id =>
    cases nf2 with
    | none =>
      refine ⟨_, rfl, ?_, ?_⟩
      · simp only [equalWins, Frame.skeleton_layout]
      · intro ref h; simp at h
    | some nf =>
      obtain ⟨n, wid, hn, hw⟩ := hfoc nf rfl
      have hs : Frame.skeleton (equalWins { e2 with wins := deleteWin e2.wins id }).topFrame
          = Frame.skeleton e2.topFrame := by
        simp only [equalWins, Frame.skeleton_layout]
      refine ⟨{ equalWins { e2 with wins := deleteWin e2.wins id } with activeWin := some wid },
        ?_, hs, ?_⟩
      · simp only
        rw [setFocus_of_skeleton _ nf e2.topFrame n wid hs hn hw]
        rfl
      · intro ref href
        simp only [Option.some.injEq] at href
        subst href
        obtain ⟨n2, hn2, hs2⟩ := Frame.nodeAt_of_skeleton e2.topFrame
          (equalWins { e2 with wins := deleteWin e2.wins id }).topFrame nf n hs hn
        exact ⟨n2, wid, hn2, by rw [Frame.firstLeaf_win_of_skeleton n2 n hs2, hw]⟩

/-- The call `close` returns in a tree with the node invariant, also when it starts in a
tree where the frame to be closed is the one frame that breaks the invariant by having no
children (and maybe no window); the frame it returns, if any, lies over a leaf with a
window. -/
theorem close_returns_aux (r : List Nat) : ∀ (e : Editor) (t0 b n0 : Frame),
    Frame.nodeInv t0 → Frame.nodeAt t0 r = some n0 → b.children = [] →
    e.topFrame = Frame.updateAt t0 r (fun _ => b) →
    ∃ e3 nf3, close e r = some (e3, nf3) ∧
      ∀ ref, nf3 = some ref →
        ∃ n id, Frame.nodeAt e3.topFrame ref = some n ∧ n.firstLeaf.win = some id := by
  induction r with
  | nil =>
    intro e t0 b n0 _ _ _ _
    exact ⟨e, none, rfl, fun ref h => by simp at h⟩
  | cons i q ih =>
    intro e t0 b n0 ht0 hn0 hb he
    have hn0b := hn0
    rw [Frame.nodeAt_cons] at hn0b
    cases hq0 : Frame.nodeAt t0 q with
    | none => rw [hq0] at hn0b; simp at hn0b
    | some p0 =>
      rw [hq0] at hn0b
      simp only [Option.some_bind, List.get?_eq_getElem?] at hn0b
      have hfb : Frame.nodeAt e.topFrame (i :: q) = some b := by
        rw [he, Frame.nodeAt_updateAt, hn0]; rfl
      have hqb : Frame.nodeAt e.topFrame q =
          some (Frame.setChildren p0 (List.modify (fun _ => b) i p0.children)) := by
        rw [he, Frame.updateAt, Frame.nodeAt_updateAt, hq0]; rfl
      have hch : b.hasChildren = false := by simp [Frame.hasChildren, hb]
      rw [close_cons e i q b _ hfb hqb hch]
      rw [Frame.children_setChildren, Frame.eraseIdx_modify]
      have htree : Frame.updateAt e.topFrame q
          (fun n => Frame.setChildren n (p0.children.eraseIdx i)) =
          Frame.updateAt t0 q (fun _ => Frame.setChildren p0 (p0.children.eraseIdx i)) := by
        rw [he, Frame.updateAt, Frame.updateAt_updateAt]
        apply Frame.updateAt_congr _ _ _ _ p0 hq0
        rw [Frame.setChildren_setChildren]
      have hpinv := (Frame.nodeInv_iff p0).1 (Frame.nodeInv_nodeAt _ q p0 ht0 hq0)
      have hil : i < p0.children.length := (List.getElem?_eq_some_iff.1 hn0b).1
      have hr : ∃ e2 nf2, (if (p0.children.eraseIdx i).length = 0 then
            close { e with topFrame := Frame.updateAt e.topFrame q (fun n =>
              Frame.setChildren n (p0.children.eraseIdx i)) } q
          else some ({ e with topFrame := Frame.updateAt e.topFrame q (fun n =>
              Frame.setChildren n (p0.children.eraseIdx i)) },
            some ((if i > 0 then i - 1 else i) :: q))) = some (e2, nf2) ∧
          ∀ ref, nf2 = some ref →
            ∃ n id, Frame.nodeAt e2.topFrame ref = some n ∧ n.firstLeaf.win = some id := by
        by_cases hlen : (p0.children.eraseIdx i).length = 0
        · rw [if_pos hlen]
          apply ih _ t0 (Frame.setChildren p0 (p0.children.eraseIdx i)) p0 ht0 hq0
          · rw [Frame.children_setChildren]
            exact List.length_eq_zero.1 hlen
          · exact htree
        · rw [if_neg hlen]
          refine ⟨_, _, rfl, ?_⟩
          intro ref href
          simp only [Option.some.injEq] at href
          subst href
          have hlen2 : (p0.children.eraseIdx i).length = p0.children.length - 1 := by
            rw [List.length_eraseIdx, if_pos hil]
          have hi2 : (if i > 0 then i - 1 else i) < (p0.children.eraseIdx i).length := by
            split_ifs <;> omega
          have hmem : (p0.children.eraseIdx i)[if i > 0 then i - 1 else i] ∈ p0.children :=
            List.mem_of_mem_eraseIdx (List.getElem_mem _)
          obtain ⟨id, hid⟩ := Frame.firstLeaf_win_of_nodeInv _ (hpinv.2 _ hmem)
          refine ⟨_, id, ?_, hid⟩
          simp only
          rw [htree, Frame.nodeAt_cons, Frame.nodeAt_updateAt, hq0]
          simp only [Option.map_some', Option.some_bind, Frame.children_setChildren,
            List.get?_eq_getElem?]
          exact List.getElem?_eq_getElem hi2
      obtain ⟨e2, nf2, hr2, hfoc⟩ := hr
      rw [hr2]
      obtain ⟨e3, h3, -, hfoc3⟩ := close_finish_returns e2 nf2 b.win _ rfl hfoc
      exact ⟨e3, nf2, h3, hfoc3⟩

end Editor
end Lapce

/-! ## The target of a cursor movement -/

namespace Lapce
namespace Window

/-- A row between 0 and the last line designates a line. -/
theorem lineAt_some (lines : List (Option Nat)) (row : Int) (h0 : 0 ≤ row)
    (h1 : row < lines.length) : ∃ line, lineAt lines row = some line := by
  unfold lineAt
  rw [if_neg (by omega)]
  have : row.toNat < lines.length := by omega
  exact ⟨lines[row.toNat], by rw [List.get?_eq_getElem?]; exact List.getElem?_eq_getElem this⟩

/-- C17, failing input: with a first line of 11 bytes, a second line that is nil, the
cursor at `(0, 5)` and the sticky column 5, `scrollRow` for one row down computes the target
`(1, 5)`, a column beyond the length 0 of the text of the target row, where
`smoothScrollNew` for the same move computes `(1, 0)`. -/
theorem scrollRow_col_out_of_range :
    scrollRow [some 11, none] 0 5 1 = some (1, 5) ∧ textLen [some 11, none] 1 = 0 ∧
      ¬ ((5 : Int) ≤ textLen [some 11, none] 1) ∧
      smoothScrollNew [some 11, none] 0 5 5 1 0 = some (1, 0) := by
  decide

/-- What does hold of the targets: for a buffer with at least one line, any cursor, any
sticky column and any request, `smoothScrollNew` and `scrollRow` compute a target, and its
row lies in `0 <= row < lineCount`; the column of `smoothScrollNew` lies in
`0 <= col <= length of the text of the target row`, and so does the column of `scrollRow`
when the target line is not nil and the sticky column is not negative. -/
theorem scroll_target_in_range (lines : List (Option Nat)) (wrow wcol scrollCol rows cols : Int)
    (hne : 1 ≤ lines.length) :
    (∃ row col, smoothScrollNew lines wrow wcol scrollCol rows cols = some (row, col) ∧
      0 ≤ row ∧ row < lines.length ∧ 0 ≤ col ∧ col ≤ textLen lines row) ∧
    (∃ row col, scrollRow lines wrow scrollCol rows = some (row, col) ∧
      0 ≤ row ∧ row < lines.length ∧
      (0 ≤ scrollCol → (∃ n, lineAt lines row = some (some n)) →
        0 ≤ col ∧ col ≤ textLen lines row)) := by
  constructor
  · have hr0 : 0 ≤ (if wrow + rows < 0 then (0 : Int)
        else if wrow + rows > (lines.length : Int) - 1 then (lines.length : Int) - 1
        else wrow + rows) := by split_ifs <;> omega
    have hr1 : (if wrow + rows < 0 then (0 : Int)
        else if wrow + rows > (lines.length : Int) - 1 then (lines.length : Int) - 1
        else wrow + rows) < lines.length := by split_ifs <;> omega
    obtain ⟨line, hl⟩ := lineAt_some lines _ hr0 hr1
    unfold smoothScrollNew
    simp only [hl]
    refine ⟨_, _, rfl, hr0, hr1, ?_, ?_⟩
    · split_ifs <;> omega
    · unfold textLen
      rw [hl]
      cases line with
      | none => simp only; split_ifs <;> omega
      | some n => simp only; split_ifs <;> omega
  · have hr0 : 0 ≤ (if wrow + rows < 0 then (0 : Int)
        else if wrow + rows > (lines.length : Int) - 1 then (lines.length : Int) - 1
        else wrow + rows) := by split_ifs <;> omega
    have hr1 : (if wrow + rows < 0 then (0 : Int)
        else if wrow + rows > (lines.length : Int) - 1 then (lines.length : Int) - 1
        else wrow + rows) < lines.length := by split_ifs <;> omega
    obtain ⟨line, hl⟩ := lineAt_some lines _ hr0 hr1
    unfold scrollRow
    cases line with
    | none =>
      simp only [hl]
      refine ⟨_, _, rfl, hr0, hr1, ?_⟩
      intro _ hn
      obtain ⟨n, hn⟩ := hn
      rw [hl] at hn
      exact absurd hn (by simp)
    | some n =>
      simp only [hl]
      refine ⟨_, _, rfl, hr0, hr1, ?_⟩
      intro hs _
      unfold textLen
      rw [hl]
      simp only
      split_ifs <;> omega

end Window
end Lapce

/-! ## Moving the focus to a neighbour -/

namespace Lapce
namespace Editor

/-- A frame without children is its own first leaf. -/
theorem firstLeaf_of_leaf (c : Frame) (h : c.hasChildren = false) : c.firstLeaf = c := by
  obtain ⟨a, fv, w, h1, x, y, win, cs⟩ := c
  cases cs with
  | nil => rfl
  | cons d ds => simp [Frame.hasChildren] at h

/-- The frame of a registry entry is a frame of the tree. -/
theorem frameAt_mem (root : Frame) (addr : Nat) (c : Frame) (h : frameAt root addr = some c) :
    c ∈ Frame.nodes root := List.mem_of_find?_eq_some h

/-- The loop of the focus functions over a consistent registry: either the window of some
entry whose frame passes the test becomes the active one, or no frame passes and nothing
changes. -/
theorem focusScan_spec (e : Editor) (test : Frame → Bool) (order : List (Nat × Nat))
    (hreg : ∀ p ∈ order,
      (frameAt e.topFrame p.2).map (fun c => (c.hasChildren, c.win)) = some (false, some p.1)) :
    (∃ p ∈ order, ∃ c, frameAt e.topFrame p.2 = some c ∧ test c = true ∧
        focusScan e test order = some { e with activeWin := some p.1 }) ∨
    ((∀ p ∈ order, ∀ c, frameAt e.topFrame p.2 = some c → test c = false) ∧
        focusScan e test order = some e) := by
  induction order with
  | nil => right; exact ⟨fun p hp => by simp at hp, rfl⟩
  | cons p rest ih =>
    obtain ⟨id, addr⟩ := p
    have hp := hreg (id, addr) (List.mem_cons_self _ _)
    simp only [Option.map_eq_some', Prod.mk.injEq] at hp
    obtain ⟨c, hc, hch, hw⟩ := hp
    by_cases ht : test c = true
    · left
      refine ⟨(id, addr), List.mem_cons_self _ _, c, hc, ht, ?_⟩
      simp only [focusScan, hc, ht, if_true, focusFrame, firstLeaf_of_leaf c hch, hw]
    · rcases ih (fun p hp => hreg p (List.mem_cons_of_mem _ hp)) with
        ⟨p, hp, d, hd, htd, hs⟩ | ⟨hall, hs⟩
      · left
        refine ⟨p, List.mem_cons_of_mem _ hp, d, hd, htd, ?_⟩
        simp only [focusScan, hc, ht, Bool.false_eq_true, if_false]
        exact hs
      · right
        constructor
        · intro p hp d hd
          rcases List.mem_cons.1 hp with rfl | hp
          · simp only at hd
            rw [hc] at hd
            simp only [Option.some.injEq] at hd
            subst hd
            simpa using ht
          · exact hall p hp d hd
        · simp only [focusScan, hc, ht, Bool.false_eq_true, if_false]
          exact hs

/-- The test of `focusBelow` in words: the top edge of the candidate is the bottom edge of
the frame, and the candidate spans the left edge of the frame. -/
theorem isBelow_iff (f c : Frame) :
    isBelow f c = true ↔
      0 ≤ c.y - (f.y + f.height) ∧ c.y - (f.y + f.height) < 1 ∧ c.x ≤ f.x ∧
        f.x < c.x + c.width := by
  simp only [isBelow, Bool.and_eq_true, decide_eq_true_eq]
  constructor
  · rintro ⟨⟨⟨h1, h2⟩, h3⟩, h4⟩
    exact ⟨h2, h1, by omega, by omega⟩
  · rintro ⟨h1, h2, h3, h4⟩
    exact ⟨⟨⟨h2, h1⟩, by omega⟩, by omega⟩

/-- C14, counterexample: of two staggered leaves, the lower one (window 1, at `x = 100`)
has its top edge on the bottom edge of the upper one (window 0, at `x = 0`, 200 wide) and
starts inside its horizontal extent, so it qualifies by the symmetric condition; the
registry is consistent, yet `focusBelow` on the upper leaf leaves the editor as it is, with
window 0 active. -/
theorem focusBelow_no_symmetric_test :
    registryOK exampleStaggered ∧
    focusBelow exampleStaggered [0] exampleStaggered.wins = some exampleStaggered ∧
    exampleStaggered.activeWin = some 0 ∧
    (Frame.nodeAt exampleStaggered.topFrame [0]).map Frame.rect = some (0, 0, 200, 50) ∧
    (frameAt exampleStaggered.topFrame 2).map (fun c => (c.win, c.rect))
      = some (some 1, (100, 50, 200, 50)) ∧
    (1, 2) ∈ exampleStaggered.wins ∧
    ((0 : Int) ≤ 50 - (0 + 50) ∧ (50 : Int) - (0 + 50) < 1 ∧
      ((0 : Int) ≤ 100 ∧ (0 : Int) + 200 > 100)) :=
  ⟨by decide, rfl, rfl, rfl, rfl, by decide, by decide⟩

/-- C14, amended: over a consistent registry, iterated in any order, `focusBelow` on a
frame `f` returns; when the frame `c` of some registered window qualifies, that is
`0 <= c.y - (f.y + f.height) < 1` and `c.x <= f.x < c.x + c.width`, the window of such a
frame becomes the active one and nothing else changes, and when none qualifies the editor
is left as it was. -/
theorem focusBelow_spec (e : Editor) (f : List Nat) (n : Frame) (order : List (Nat × Nat))
    (hn : Frame.nodeAt e.topFrame f = some n) (hperm : order.Perm e.wins)
    (hreg : registryOK e) :
    ∃ e2, focusBelow e f order = some e2 ∧
      ((∃ p ∈ e.wins, ∃ c, frameAt e.topFrame p.2 = some c ∧
          0 ≤ c.y - (n.y + n.height) ∧ c.y - (n.y + n.height) < 1 ∧ c.x ≤ n.x ∧
          n.x < c.x + c.width) →
        ∃ p ∈ e.wins, ∃ c, frameAt e.topFrame p.2 = some c ∧
          (0 ≤ c.y - (n.y + n.height) ∧ c.y - (n.y + n.height) < 1 ∧ c.x ≤ n.x ∧
            n.x < c.x + c.width) ∧
          e2 = { e with activeWin := some p.1 }) ∧
      ((∀ p ∈ e.wins, ∀ c, frameAt e.topFrame p.2 = some c →
          ¬ (0 ≤ c.y - (n.y + n.height) ∧ c.y - (n.y + n.height) < 1 ∧ c.x ≤ n.x ∧
            n.x < c.x + c.width)) →
        e2 = e) := by
  have hreg2 : ∀ p ∈ order,
      (frameAt e.topFrame p.2).map (fun c => (c.hasChildren, c.win))
        = some (false, some p.1) := fun p hp => hreg p (hperm.mem_iff.1 hp)
  unfold focusBelow
  rw [hn]
  simp only
  rcases focusScan_spec e (isBelow n) order hreg2 with ⟨p, hp, c, hc, ht, hs⟩ | ⟨hall, hs⟩
  · refine ⟨_, hs, ?_, ?_⟩
    · intro _
      exact ⟨p, hperm.mem_iff.1 hp, c, hc, (isBelow_iff n c).1 ht, rfl⟩
    · intro hno
      exact absurd ((isBelow_iff n c).1 ht) (hno p (hperm.mem_iff.1 hp) c hc)
  · refine ⟨_, hs, ?_, fun _ => rfl⟩
    rintro ⟨p, hp, c, hc, hq⟩
    have := hall p (hperm.mem_iff.2 hp) c hc
    rw [(isBelow_iff n c).2 hq] at this
    exact absurd this (by simp)

/-- C14, witness: in the row of three leaves laid out for 300 x 100 no window lies below
the first leaf. -/
theorem focusBelow_spec_witness :
    ∃ e2, focusBelow (equalWins exampleRowEditor) [0] [(0, 2), (1, 1), (2, 3)] = some e2 ∧
      ((∃ p ∈ (equalWins exampleRowEditor).wins, ∃ c,
          frameAt (equalWins exampleRowEditor).topFrame p.2 = some c ∧
          0 ≤ c.y - ((Frame.mk 2 false 100 100 0 0 (some 0) []).y +
            (Frame.mk 2 false 100 100 0 0 (some 0) []).height) ∧
          c.y - ((Frame.mk 2 false 100 100 0 0 (some 0) []).y +
            (Frame.mk 2 false 100 100 0 0 (some 0) []).height) < 1 ∧
          c.x ≤ (Frame.mk 2 false 100 100 0 0 (some 0) []).x ∧
          (Frame.mk 2 false 100 100 0 0 (some 0) []).x < c.x + c.width) →
        ∃ p ∈ (equalWins exampleRowEditor).wins, ∃ c,
          frameAt (equalWins exampleRowEditor).topFrame p.2 = some c ∧
          (0 ≤ c.y - ((Frame.mk 2 false 100 100 0 0 (some 0) []).y +
            (Frame.mk 2 false 100 100 0 0 (some 0) []).height) ∧
            c.y - ((Frame.mk 2 false 100 100 0 0 (some 0) []).y +
              (Frame.mk 2 false 100 100 0 0 (some 0) []).height) < 1 ∧
            c.x ≤ (Frame.mk 2 false 100 100 0 0 (some 0) []).x ∧
            (Frame.mk 2 false 100 100 0 0 (some 0) []).x < c.x + c.width) ∧
          e2 = { equalWins exampleRowEditor with activeWin := some p.1 }) ∧
      ((∀ p ∈ (equalWins exampleRowEditor).wins, ∀ c,
          frameAt (equalWins exampleRowEditor).topFrame p.2 = some c →
          ¬ (0 ≤ c.y - ((Frame.mk 2 false 100 100 0 0 (some 0) []).y +
            (Frame.mk 2 false 100 100 0 0 (some 0) []).height) ∧
            c.y - ((Frame.mk 2 false 100 100 0 0 (some 0) []).y +
              (Frame.mk 2 false 100 100 0 0 (some 0) []).height) < 1 ∧
            c.x ≤ (Frame.mk 2 false 100 100 0 0 (some 0) []).x ∧
            (Frame.mk 2 false 100 100 0 0 (some 0) []).x < c.x + c.width)) →
        e2 = equalWins exampleRowEditor) :=
  focusBelow_spec (equalWins exampleRowEditor) [0] (Frame.mk 2 false 100 100 0 0 (some 0) [])
    [(0, 2), (1, 1), (2, 3)] rfl (by decide) (by decide)

end Editor
end Lapce
namespace Lapce
namespace Frame

/-- The layout pass on a vertical frame over `n` leaves, for any canvas: child number `m`
gets the rectangle `(m * (W / n), 0, W / n, H)`. -/
theorem layout_row_unit (a : Nat) (w h x y : Int) (win : Option Nat) (cs : List Frame)
    (W H : Int) (hne : cs ≠ []) (hleaf : ∀ c ∈ cs, c.children = [])
    (m : Nat) (c : Frame)
    (hc : (layout (mk a true w h x y win cs) W H).children[m]? = some c) :
    c.x = m * Int.tdiv W cs.length ∧ c.y = 0 ∧ c.width = Int.tdiv W cs.length ∧
      c.height = H := by
  obtain ⟨hc1, hc2⟩ := countSplits_row a w h x y win cs hne hleaf
  have hch : (layout (mk a true w h x y win cs) W H).children =
      setPosChildren ((cs.map (fun c => setSize c true (Int.tdiv W cs.length))).map
        (fun c => setSize c false H)) true 0 0 := by
    unfold layout
    rw [setPos_children, setSize_vertical, setSize_vertical, setSize_children,
      setSize_vertical, setSize_children, countSplits_setSize, hc1, hc2]
    simp only [vertical_mk, children_mk, if_true, Bool.true_eq_false, if_false]
    congr 1
    apply List.map_congr_left
    intro c hc
    rcases List.mem_map.1 hc with ⟨d, hd, rfl⟩
    rw [countSplits_setSize, countSplits_of_leaf d false (hleaf d hd)]
    simp
  have hsize : ∀ d ∈ setPosChildren ((cs.map (fun c => setSize c true
      (Int.tdiv W cs.length))).map (fun c => setSize c false H)) true 0 0,
      d.width = Int.tdiv W cs.length ∧ d.height = H := by
    intro d hd
    obtain ⟨c, hc, x1, y1, rfl⟩ := mem_setPosChildren _ _ _ _ _ hd
    rcases List.mem_map.1 hc with ⟨c2, hc2m, rfl⟩
    rcases List.mem_map.1 hc2m with ⟨c3, hc3, rfl⟩
    rw [setPos_width, setPos_height]
    have e1 := setSize_extent_other (setSize c3 true (Int.tdiv W cs.length)) false H
    have e2 := setSize_extent (setSize c3 true (Int.tdiv W cs.length)) false H
    have e3 := setSize_extent c3 true (Int.tdiv W cs.length)
    rw [countSplits_setSize, countSplits_of_leaf c3 false (hleaf c3 hc3)] at e2
    rw [countSplits_of_leaf c3 true (hleaf c3 hc3)] at e3
    simp only [Bool.not_false, extent_true, extent_false, one_mul] at e1 e2 e3
    exact ⟨e1.trans e3, e2⟩
  rw [hch] at hc
  have hlen : m < (setPosChildren ((cs.map (fun c => setSize c true
      (Int.tdiv W cs.length))).map (fun c => setSize c false H)) true 0 0).length :=
    (List.getElem?_eq_some_iff.1 hc).1
  have hmem : c ∈ setPosChildren ((cs.map (fun c => setSize c true
      (Int.tdiv W cs.length))).map (fun c => setSize c false H)) true 0 0 :=
    List.getElem?_mem hc
  refine ⟨?_, ?_, (hsize c hmem).1, (hsize c hmem).2⟩
  · have := (setPosChildren_get _ true 0 0 m _ hc).1
    simp only [offset, if_true, zero_add, extent_true] at this
    rw [this, sum_map_const _ _ (Int.tdiv W cs.length)
      (fun c hc => (hsize c (List.mem_of_mem_take hc)).1)]
    rw [List.length_take, Nat.min_eq_left (le_of_lt hlen)]
  · have := (setPosChildren_get _ true 0 0 m _ hc).2
    simpa [offset] using this

/-- The frames without children of a laid out row of leaves are the children of the
root. -/
theorem layout_row_nodes (a : Nat) (w h x y : Int) (win : Option Nat) (cs : List Frame)
    (W H : Int) (hne : cs ≠ []) (hleaf : ∀ c ∈ cs, c.children = []) (c : Frame)
    (hc : c ∈ nodes (layout (mk a true w h x y win cs) W H)) (hch : c.hasChildren = false) :
    ∃ m : Nat, (layout (mk a true w h x y win cs) W H).children[m]? = some c := by
  have hsk : (skeleton (layout (mk a true w h x y win cs) W H)).children
      = cs.map skeleton := by
    rw [skeleton_layout, skeleton_children]
    rfl
  rw [skeleton_children] at hsk
  rcases (mem_nodes_iff _ _).1 hc with rfl | ⟨d, hd, hcd⟩
  · exfalso
    have hl := congrArg List.length hsk
    simp only [List.length_map] at hl
    have hpos : 0 < cs.length := List.length_pos.2 hne
    unfold hasChildren at hch
    cases hcs : (layout (mk a true w h x y win cs) W H).children with
    | nil => rw [hcs] at hl; simp at hl; omega
    | cons d ds => rw [hcs] at hch; simp at hch
  · have hdleaf : d.children = [] := by
      obtain ⟨m, hm, hmd⟩ := List.getElem_of_mem hd
      have h1 : ((layout (mk a true w h x y win cs) W H).children.map skeleton)[m]?
          = some (skeleton d) := by
        rw [List.getElem?_map, List.getElem?_eq_getElem hm, hmd]
        rfl
      rw [hsk, List.getElem?_map] at h1
      cases hcm : cs[m]? with
      | none => rw [hcm] at h1; simp at h1
      | some c0 =>
        rw [hcm] at h1
        simp only [Option.map_some', Option.some.injEq] at h1
        have h2 := congrArg children h1
        rw [skeleton_children, skeleton_children, hleaf c0 (List.getElem?_mem hcm)] at h2
        simpa using h2.symm
    rcases (mem_nodes_iff _ _).1 hcd with rfl | ⟨d2, hd2, _⟩
    · obtain ⟨m, hm, hmd⟩ := List.getElem_of_mem hd
      exact ⟨m, by rw [List.getElem?_eq_getElem hm, hmd]⟩
    · rw [hdleaf] at hd2
      simp at hd2

end Frame
end Lapce
namespace Lapce
namespace Editor

/-- The test of `focusLeft` in words: the right edge of the candidate is the left edge of
the frame, and the candidate spans the top edge of the frame. -/
theorem isLeft_iff (f c : Frame) :
    isLeft f c = true ↔
      c.x + c.width = f.x ∧ c.y ≤ f.y ∧ f.y < c.y + c.height := by
  simp only [isLeft, Bool.and_eq_true, decide_eq_true_eq]
  constructor
  · rintro ⟨⟨⟨h1, h2⟩, h3⟩, h4⟩
    exact ⟨by omega, by omega, by omega⟩
  · rintro ⟨h1, h2, h3⟩
    exact ⟨⟨⟨by omega, by omega⟩, by omega⟩, by omega⟩

/-- The test of `focusRight` in words: the left edge of the candidate is the right edge of
the frame, and the candidate spans the top edge of the frame. -/
theorem isRight_iff (f c : Frame) :
    isRight f c = true ↔
      c.x = f.x + f.width ∧ c.y ≤ f.y ∧ f.y < c.y + c.height := by
  simp only [isRight, Bool.and_eq_true, decide_eq_true_eq]
  constructor
  · rintro ⟨⟨⟨h1, h2⟩, h3⟩, h4⟩
    exact ⟨by omega, by omega, by omega⟩
  · rintro ⟨h1, h2, h3⟩
    exact ⟨⟨⟨by omega, by omega⟩, by omega⟩, by omega⟩

/-- C15: in a row of at least two leaves laid out with positive widths, over a consistent
registry iterated in any order: when `focusLeft` from the leaf `P` (child `k`, a registered
window `pw`) finds a window that passes its test and makes it active, that window is the
one of the child `k - 1`, and `focusRight` from that child returns with the window of `P`
active. -/
theorem focus_round_trip (e : Editor) (a : Nat) (w h x y : Int) (win : Option Nat)
    (cs : List Frame) (W H : Int) (k : Nat) (P : Frame) (pw pa : Nat)
    (o1 o2 : List (Nat × Nat)) (e2 : Editor)
    (ht : e.topFrame = Frame.layout (Frame.mk a true w h x y win cs) W H)
    (hleaf : ∀ c ∈ cs, c.children = []) (h2 : 2 ≤ cs.length)
    (hpos : 0 < Int.tdiv W cs.length) (hreg : registryOK e)
    (hP : Frame.nodeAt e.topFrame [k] = some P)
    (hPin : (pw, pa) ∈ e.wins) (hPf : frameAt e.topFrame pa = some P)
    (ho1 : o1.Perm e.wins) (ho2 : o2.Perm e.wins)
    (hL : focusLeft e [k] o1 = some e2)
    (hmatch : ∃ p ∈ e.wins, ∃ c, frameAt e.topFrame p.2 = some c ∧ isLeft P c = true) :
    ∃ (j : Nat) (Q : Frame) (e3 : Editor), j + 1 = k ∧
      Frame.nodeAt e2.topFrame [j] = some Q ∧ Q.win = e2.activeWin ∧
      focusRight e2 [j] o2 = some e3 ∧ e3.activeWin = some pw ∧ P.win = some pw := by
  have hne : cs ≠ [] := by
    intro h0; rw [h0] at h2; simp at h2
  have hreg1 : ∀ p ∈ o1,
      (frameAt e.topFrame p.2).map (fun c => (c.hasChildren, c.win))
        = some (false, some p.1) := fun p hp => hreg p (ho1.mem_iff.1 hp)
  have hreg2 : ∀ p ∈ o2,
      (frameAt e.topFrame p.2).map (fun c => (c.hasChildren, c.win))
        = some (false, some p.1) := fun p hp => hreg p (ho2.mem_iff.1 hp)
  -- the frame of a registered window is a child of the root, with its geometry
  have hgeo : ∀ p ∈ e.wins, ∀ c, frameAt e.topFrame p.2 = some c →
      c.win = some p.1 ∧ ∃ m : Nat, e.topFrame.children[m]? = some c ∧
        c.x = m * Int.tdiv W cs.length ∧ c.y = 0 ∧ c.width = Int.tdiv W cs.length ∧
        c.height = H := by
    intro p hp c hc
    have h1 := hreg p hp
    rw [hc] at h1
    simp only [Option.map_some', Option.some.injEq, Prod.mk.injEq] at h1
    have hmem := frameAt_mem _ _ _ hc
    rw [ht] at hmem
    obtain ⟨m, hm⟩ := Frame.layout_row_nodes a w h x y win cs W H hne hleaf c hmem h1.1
    refine ⟨h1.2, m, by rw [ht]; exact hm, ?_⟩
    exact Frame.layout_row_unit a w h x y win cs W H hne hleaf m c hm
  have hPk : e.topFrame.children[k]? = some P := by
    rw [Frame.nodeAt_cons] at hP
    simpa [Frame.nodeAt] using hP
  have hPg := Frame.layout_row_unit a w h x y win cs W H hne hleaf k P (by rw [← ht]; exact hPk)
  have hPw := (hgeo _ hPin P hPf).1
  -- the call of focusLeft
  unfold focusLeft at hL
  rw [hP] at hL
  simp only at hL
  rcases focusScan_spec e (isLeft P) o1 hreg1 with ⟨q, hq, c, hc, htc, hs⟩ | ⟨hall, _⟩
  swap
  · obtain ⟨p, hp, c, hc, htc⟩ := hmatch
    have := hall p (ho1.mem_iff.2 hp) c hc
    rw [htc] at this
    exact absurd this (by simp)
  rw [hs] at hL
  simp only [Option.some.injEq] at hL
  subst hL
  obtain ⟨hcw, m, hcm, hcx, hcy, hcwd, hch⟩ := hgeo q (ho1.mem_iff.1 hq) c hc
  have hl := (isLeft_iff P c).1 htc
  have hmk : m + 1 = k := by
    have h3 : ((m : Int) + 1) * Int.tdiv W cs.length = (k : Int) * Int.tdiv W cs.length := by
      rw [← hPg.1, ← hl.1, hcx, hcwd]
      ring
    have h4 := mul_right_cancel₀ (ne_of_gt hpos) h3
    omega
  have hH : 0 < H := by
    have := hl.2.2
    rw [hPg.2.1, hcy, hch] at this
    omega
  have hQ : Frame.nodeAt e.topFrame [m] = some c := by
    rw [Frame.nodeAt_cons]
    simpa [Frame.nodeAt] using hcm
  have hfr : focusRight { e with activeWin := some q.1 } [m] o2
      = focusScan { e with activeWin := some q.1 } (isRight c) o2 := by
    unfold focusRight
    simp only [hQ]
  refine ⟨m, c, ?_⟩
  rw [hfr]
  rcases focusScan_spec { e with activeWin := some q.1 } (isRight c) o2 hreg2 with
    ⟨q2, hq2, c2, hc2, htc2, hs2⟩ | ⟨hall2, _⟩
  · obtain ⟨hcw2, m2, hcm2, hcx2, -, -, -⟩ := hgeo q2 (ho2.mem_iff.1 hq2) c2 hc2
    have hr := (isRight_iff c c2).1 htc2
    have hm2 : m2 = k := by
      have h3 : (m2 : Int) * Int.tdiv W cs.length = ((m : Int) + 1) * Int.tdiv W cs.length := by
        rw [← hcx2, hr.1, hcx, hcwd]
        ring
      have h4 := mul_right_cancel₀ (ne_of_gt hpos) h3
      omega
    subst hm2
    have hcP : c2 = P := by
      rw [hPk] at hcm2
      exact (Option.some.inj hcm2).symm
    subst hcP
    refine ⟨_, hmk, hQ, hcw, hs2, ?_, hPw⟩
    simp only
    rw [← hcw2, hPw]
  · exfalso
    have := hall2 (pw, pa) (ho2.mem_iff.2 hPin) P hPf
    have h5 : isRight c P = true := by
      rw [isRight_iff, hPg.1, hPg.2.1, hPg.2.2.2, hcx, hcy, hcwd, ← hmk]
      refine ⟨?_, le_refl _, by omega⟩
      push_cast
      ring
    rw [h5] at this
    exact absurd this (by simp)

/-- C15, witness: the row of three leaves laid out for 300 x 100; from the second leaf
(window 2) `focusLeft` makes window 0 active, and `focusRight` from the first leaf makes
window 2 active again. -/
theorem focus_round_trip_witness :
    ∃ (j : Nat) (Q : Frame) (e3 : Editor), j + 1 = 1 ∧
      Frame.nodeAt ({ equalWins exampleRowEditor with activeWin := some 0 } : Editor).topFrame
        [j] = some Q ∧
      Q.win = ({ equalWins exampleRowEditor with activeWin := some 0 } : Editor).activeWin ∧
      focusRight { equalWins exampleRowEditor with activeWin := some 0 } [j]
        [(0, 2), (1, 1), (2, 3)] = some e3 ∧
      e3.activeWin = some 2 ∧ (Frame.mk 3 false 100 100 100 0 (some 2) []).win = some 2 :=
  focus_round_trip (equalWins exampleRowEditor) 0 0 0 0 0 none
    [Frame.leafOf 2 0, Frame.leafOf 3 2, Frame.leafOf 1 1] 300 100 1
    (Frame.mk 3 false 100 100 100 0 (some 2) []) 2 3 [(2, 3), (1, 1), (0, 2)]
    [(0, 2), (1, 1), (2, 3)] { equalWins exampleRowEditor with activeWin := some 0 }
    rfl
    (by
      intro c hc
      simp only [List.mem_cons, List.mem_singleton, List.not_mem_nil, or_false] at hc
      rcases hc with rfl | rfl | rfl <;> rfl)
    (by decide) (by decide) (by decide) rfl (by decide) rfl (List.Perm.refl _) (by decide)
    rfl ⟨(0, 2), by decide, Frame.mk 2 false 100 100 0 0 (some 0) [], rfl, rfl⟩

end Editor
end Lapce

/-! ## The registry stays consistent with the tree -/

namespace Lapce
namespace Frame

/-- The frames of a list of trees are the frames of its trees, one tree after the other. -/
theorem nodesList_eq_flatMap (cs : List Frame) : nodes.nodesList cs = cs.flatMap nodes := by
  induction cs with
  | nil => rfl
  | cons c cs ih => simp only [nodes.nodesList, List.flatMap_cons, ih]

/-- The tags of a tree: the tag of the root, then the tags of the children. -/
theorem tags_eq (f : Frame) : tags f = (f.addr, f.win) :: f.children.flatMap tags := by
  obtain ⟨a, fv, w, h, x, y, win, cs⟩ := f
  simp only [tags, nodes, nodesList_eq_flatMap, List.map_cons, addr_mk, win_mk, children_mk,
    List.map_flatMap]
  rfl

/-- The tags of a frame without children. -/
theorem tags_leaf (f : Frame) (h : f.children = []) : tags f = [(f.addr, f.win)] := by
  rw [tags_eq, h]
  rfl

/-- The tags after the children of a frame have been replaced. -/
theorem tags_setChildren (f : Frame) (cs : List Frame) :
    tags (setChildren f cs) = (f.addr, f.win) :: cs.flatMap tags := by
  obtain ⟨a, fv, w, h, x, y, win, ds⟩ := f
  rw [tags_eq]
  rfl

/-- The tags of a tree depend on its shape only. -/
theorem tags_skeleton (f : Frame) : tags (skeleton f) = tags f := by
  induction f using induct with
  | step a fv w h x y win cs ih =>
    rw [tags_eq, tags_eq (mk a fv w h x y win cs), skeleton_children]
    simp only [children_mk]
    congr 1
    rw [List.flatMap_map]
    induction cs with
    | nil => rfl
    | cons c cs ih2 =>
      simp only [List.flatMap_cons]
      rw [ih c (List.mem_cons_self _ _),
        ih2 (fun d hd => ih d (List.mem_cons_of_mem _ hd))]

/-- Trees of the same shape have the same tags. -/
theorem tags_of_skeleton (f g : Frame) (h : skeleton f = skeleton g) : tags f = tags g := by
  rw [← tags_skeleton f, h, tags_skeleton]

/-- The layout pass keeps the tags. -/
theorem tags_layout (f : Frame) (W H : Int) : tags (layout f W H) = tags f :=
  tags_of_skeleton _ _ (skeleton_layout f W H)

/-- A list with one entry modified is, up to the order, the new entry and the others. -/
theorem perm_modify (cs : List Frame) (i : Nat) (n : Frame) (g : Frame → Frame)
    (h : cs[i]? = some n) : (List.modify g i cs).Perm (g n :: cs.eraseIdx i) := by
  induction cs generalizing i with
  | nil => simp at h
  | cons c cs ih =>
    cases i with
    | zero =>
      simp only [List.getElem?_cons_zero, Option.some.injEq] at h
      subst h
      simp
    | succ i =>
      simp only [List.getElem?_cons_succ] at h
      simp only [List.modify_succ_cons, List.eraseIdx_cons_succ]
      exact ((ih i h).cons c).trans (List.Perm.swap _ _ _)

/-- A list is, up to the order, one of its entries and the others. -/
theorem perm_eraseIdx (cs : List Frame) (i : Nat) (n : Frame) (h : cs[i]? = some n) :
    cs.Perm (n :: cs.eraseIdx i) := by
  have := perm_modify cs i n id h
  simpa using this

/-- The list after `insertAfter` is, up to the order, the new frame and the old list. -/
theorem perm_insertAfter (cs : List Frame) (i : Nat) (nf : Frame) (hi : i < cs.length) :
    (insertAfter cs i nf).Perm (nf :: cs) := by
  rw [Frame.insertAfter_eq cs i nf hi]
  have := List.take_append_drop (i + 1) cs
  conv_rhs => rw [← this]
  exact List.perm_middle

/-- What a change at a reference does to the tags: they are the tags of the frame at the
reference and the tags of the rest, and after the change the tags of the new frame and the
same rest, up to the order. -/
theorem tags_updateAt (root : Frame) (r : List Nat) :
    ∀ n, nodeAt root r = some n →
      ∃ rest, (tags root).Perm (tags n ++ rest) ∧
        ∀ g : Frame → Frame, (tags (updateAt root r g)).Perm (tags (g n) ++ rest) := by
  induction r with
  | nil =>
    intro n hn
    simp only [nodeAt, Option.some.injEq] at hn
    subst hn
    exact ⟨[], by simp, fun g => by simp [updateAt]⟩
  | cons i q ih =>
    intro n hn
    rw [nodeAt_cons] at hn
    cases hq : nodeAt root q with
    | none => rw [hq] at hn; simp at hn
    | some p =>
      rw [hq] at hn
      simp only [Option.some_bind, List.get?_eq_getElem?] at hn
      obtain ⟨rest, h1, h2⟩ := ih p hq
      refine ⟨(p.addr, p.win) :: ((p.children.eraseIdx i).flatMap tags ++ rest), ?_, ?_⟩
      · refine h1.trans ?_
        rw [tags_eq p]
        have := (perm_eraseIdx p.children i n hn).flatMap_right tags
        simp only [List.flatMap_cons] at this
        refine (List.Perm.append_right rest (this.cons (p.addr, p.win))).trans ?_
        simp only [List.cons_append, List.append_assoc]
        exact (List.perm_middle).symm
      · intro g
        rw [updateAt]
        refine (h2 _).trans ?_
        rw [tags_setChildren]
        have := (perm_modify p.children i n g hn).flatMap_right tags
        simp only [List.flatMap_cons] at this
        refine (List.Perm.append_right rest (this.cons (p.addr, p.win))).trans ?_
        simp only [List.cons_append, List.append_assoc]
        exact (List.perm_middle).symm

end Frame
end Lapce
namespace Lapce
namespace Editor

/-- In a registry without repeated ids an id has one address. -/
theorem addr_unique (wins : List (Nat × Nat)) (h : (wins.map Prod.fst).Nodup)
    (id a b : Nat) (ha : (id, a) ∈ wins) (hb : (id, b) ∈ wins) : a = b := by
  have := List.inj_on_of_nodup_map h ha hb rfl
  exact (Prod.mk.inj this).2

/-- Whether a registry matches does not depend on the order of the tags. -/
theorem registryMatches_perm (l m : List (Nat × Option Nat)) (wins : List (Nat × Nat))
    (fi wi : Nat) (hp : l.Perm m) (h : registryMatches l wins fi wi) :
    registryMatches m wins fi wi := by
  obtain ⟨h1, h2, h3, h4, h5⟩ := h
  refine ⟨((hp.map Prod.fst).nodup_iff).1 h1, fun x hx => h2 x (hp.mem_iff.2 hx), h3, h4, ?_⟩
  intro id addr
  rw [h5 id addr]
  exact hp.mem_iff

/-- The registry after `NewWindow` matches the tags with the new frame added. -/
theorem registryMatches_insert (l : List (Nat × Option Nat)) (wins : List (Nat × Nat))
    (fi wi : Nat) (h : registryMatches l wins fi wi) :
    registryMatches ((fi, some wi) :: l) (registerWin wins wi fi) (fi + 1) (wi + 1) := by
  obtain ⟨h1, h2, h3, h4, h5⟩ := h
  have hsub : (wins.filter (fun p => decide (p.1 ≠ wi))).Sublist wins := List.filter_sublist _
  refine ⟨?_, ?_, ?_, ?_, ?_⟩
  · simp only [List.map_cons, List.nodup_cons]
    refine ⟨?_, h1⟩
    intro hm
    obtain ⟨x, hx, hxe⟩ := List.mem_map.1 hm
    have := h2 x hx
    omega
  · intro x hx
    rcases List.mem_cons.1 hx with rfl | hx
    · exact Nat.lt_succ_self _
    · exact Nat.lt_succ_of_lt (h2 x hx)
  · unfold registerWin
    simp only [List.map_cons, List.nodup_cons]
    refine ⟨?_, (hsub.map Prod.fst).nodup h3⟩
    intro hm
    obtain ⟨x, hx, hxe⟩ := List.mem_map.1 hm
    have := (List.mem_filter.1 hx).2
    simp only [ne_eq, decide_not, Bool.not_eq_true', decide_eq_false_iff_not] at this
    exact this hxe
  · intro p hp
    unfold registerWin at hp
    rcases List.mem_cons.1 hp with rfl | hp
    · exact Nat.lt_succ_self _
    · exact Nat.lt_succ_of_lt (h4 p (List.mem_filter.1 hp).1)
  · intro id addr
    unfold registerWin
    simp only [List.mem_cons, Prod.mk.injEq, List.mem_filter, ne_eq, decide_not,
      Bool.not_eq_true', decide_eq_false_iff_not, Option.some.injEq]
    constructor
    · rintro (⟨rfl, rfl⟩ | ⟨hm, _⟩)
      · exact Or.inl ⟨rfl, rfl⟩
      · exact Or.inr ((h5 id addr).1 hm)
    · rintro (⟨rfl, rfl⟩ | hm)
      · exact Or.inl ⟨rfl, rfl⟩
      · have hw := (h5 id addr).2 hm
        have := h4 _ hw
        exact Or.inr ⟨hw, by simp only at this; omega⟩

/-- The registry after `delete(editor.wins, id)` matches the tags without the frame that
held the window `id` and without frames that hold no window. -/
theorem registryMatches_close (l removed : List (Nat × Option Nat)) (wins : List (Nat × Nat))
    (fi wi a id : Nat) (h : registryMatches ((a, some id) :: (removed ++ l)) wins fi wi)
    (hr : ∀ x ∈ removed, x.2 = none) :
    registryMatches l (deleteWin wins id) fi wi := by
  obtain ⟨h1, h2, h3, h4, h5⟩ := h
  have hsub : (wins.filter (fun p => decide (p.1 ≠ id))).Sublist wins := List.filter_sublist _
  have hl : l.Sublist ((a, some id) :: (removed ++ l)) :=
    (List.sublist_append_right removed l).cons _
  refine ⟨(hl.map Prod.fst).nodup h1, fun x hx => h2 x (hl.subset hx),
    (hsub.map Prod.fst).nodup h3, fun p hp => h4 p (List.mem_filter.1 hp).1, ?_⟩
  intro id2 addr
  unfold deleteWin
  simp only [List.mem_filter, ne_eq, decide_not, Bool.not_eq_true', decide_eq_false_iff_not]
  constructor
  · rintro ⟨hm, hne⟩
    have := (h5 id2 addr).1 hm
    simp only [List.mem_cons, Prod.mk.injEq, Option.some.injEq, List.mem_append] at this
    rcases this with ⟨_, h6⟩ | h6 | h6
    · exact absurd h6 hne
    · have := hr _ h6
      simp at this
    · exact h6
  · intro hm
    have hw := (h5 id2 addr).2 (hl.subset hm)
    refine ⟨hw, ?_⟩
    intro he
    subst he
    have ha : (id2, a) ∈ wins := (h5 id2 a).2 (List.mem_cons_self _ _)
    have := addr_unique wins h3 id2 addr a hw ha
    subst this
    simp only [List.map_cons, List.nodup_cons, List.map_append, List.mem_append] at h1
    exact h1.1 (Or.inr (List.mem_map.2 ⟨(addr, some id2), hm, rfl⟩))

end Editor
end Lapce
namespace Lapce
namespace Editor

/-- Giving a window a new frame does not change the ids of the registry. -/
theorem setWinFrame_map_fst (wins : List (Nat × Nat)) (id addr : Nat) :
    (setWinFrame wins id addr).map Prod.fst = wins.map Prod.fst := by
  unfold setWinFrame
  rw [List.map_map]
  apply List.map_congr_left
  intro p _
  simp only [Function.comp]
  split_ifs with h
  · exact h.symm
  · rfl

/-- The registry after the in-place branch of `split` matches the tags of the frame turned
into a node and of its two new children. -/
theorem registryMatches_convert (rest : List (Nat × Option Nat)) (wins : List (Nat × Nat))
    (fi wi a wid : Nat) (h : registryMatches ((a, some wid) :: rest) wins fi wi) :
    registryMatches ((a, none) :: (fi + 1, some wid) :: (fi, some wi) :: rest)
      (setWinFrame (registerWin wins wi fi) wid (fi + 1)) (fi + 2) (wi + 1) := by
  have hins := registryMatches_insert _ wins fi wi h
  obtain ⟨h1, h2, h3, h4, h5⟩ := h
  obtain ⟨-, -, g3, g4, g5⟩ := hins
  have ha : (wid, a) ∈ wins := (h5 wid a).2 (List.mem_cons_self _ _)
  have hwid : wid < wi := h4 _ ha
  have hafi : a < fi := h2 _ (List.mem_cons_self _ _)
  simp only [List.map_cons, List.nodup_cons] at h1
  refine ⟨?_, ?_, ?_, ?_, ?_⟩
  · simp only [List.map_cons, List.nodup_cons, List.mem_cons]
    have hfresh : ∀ k, fi ≤ k → k ∉ rest.map Prod.fst := by
      intro k hk hm
      obtain ⟨x, hx, hxe⟩ := List.mem_map.1 hm
      have := h2 x (List.mem_cons_of_mem _ hx)
      omega
    refine ⟨?_, ?_, hfresh fi (le_refl _), h1.2⟩
    · rintro (h6 | h6 | h6)
      · omega
      · omega
      · exact h1.1 h6
    · rintro (h6 | h6)
      · omega
      · exact hfresh (fi + 1) (by omega) h6
  · intro x hx
    simp only [List.mem_cons] at hx
    rcases hx with rfl | rfl | rfl | hx
    · simp only; omega
    · simp only; omega
    · simp only; omega
    · have := h2 x (List.mem_cons_of_mem _ hx)
      omega
  · rw [setWinFrame_map_fst]
    exact g3
  · intro p hp
    have : p.1 ∈ (setWinFrame (registerWin wins wi fi) wid (fi + 1)).map Prod.fst :=
      List.mem_map.2 ⟨p, hp, rfl⟩
    rw [setWinFrame_map_fst] at this
    obtain ⟨x, hx, hxe⟩ := List.mem_map.1 this
    rw [← hxe]
    exact g4 x hx
  · intro id addr
    unfold setWinFrame
    simp only [List.mem_map, List.mem_cons, Prod.mk.injEq, Option.some.injEq]
    constructor
    · rintro ⟨p, hp, hpe⟩
      have hp2 := (g5 p.1 p.2).1 hp
      simp only [List.mem_cons, Prod.mk.injEq, Option.some.injEq] at hp2
      by_cases hpw : p.1 = wid
      · rw [if_pos hpw] at hpe
        simp only [Prod.mk.injEq] at hpe
        exact Or.inr (Or.inl ⟨hpe.2.symm, hpe.1.symm⟩)
      · rw [if_neg hpw] at hpe
        subst hpe
        rcases hp2 with ⟨h6, h7⟩ | ⟨h6, h7⟩ | h6
        · exact Or.inr (Or.inr (Or.inl ⟨h6, h7⟩))
        · exact absurd h7 hpw
        · exact Or.inr (Or.inr (Or.inr h6))
    · rintro (⟨_, h6⟩ | ⟨rfl, rfl⟩ | ⟨rfl, rfl⟩ | h6)
      · simp at h6
      · refine ⟨(id, a), ?_, by simp⟩
        exact (g5 id a).2 (List.mem_cons_of_mem _ (List.mem_cons_self _ _))
      · refine ⟨(id, addr), ?_, ?_⟩
        · exact (g5 id addr).2 (List.mem_cons_self _ _)
        · rw [if_neg (by simp only; omega)]
      · refine ⟨(id, addr), ?_, ?_⟩
        · exact (g5 id addr).2 (List.mem_cons_of_mem _ (List.mem_cons_of_mem _ h6))
        · have hne : id ≠ wid := by
            intro he
            subst he
            have hw : (id, addr) ∈ wins := (h5 id addr).2 (List.mem_cons_of_mem _ h6)
            have := addr_unique wins h3 id addr a hw ha
            subst this
            exact h1.1 (List.mem_map.2 ⟨(addr, some id), h6, rfl⟩)
          rw [if_neg (by simpa using hne)]

end Editor
end Lapce
namespace Lapce
namespace Editor

/-- The call `setFocus` changes the active window only. -/
theorem setFocus_eq (e e2 : Editor) (f : List Nat) (h : setFocus e f = some e2) :
    ∃ id, e2 = { e with activeWin := some id } := by
  unfold setFocus at h
  cases hn : Frame.nodeAt e.topFrame f with
  | none => rw [hn] at h; simp at h
  | some n =>
    rw [hn] at h
    simp only at h
    cases hw : n.firstLeaf.win with
    | none => rw [hw] at h; simp at h
    | some id =>
      rw [hw] at h
      simp only [Option.some.injEq] at h
      exact ⟨id, h.symm⟩

/-- The list after `swapChildren` is the old list up to the order. -/
theorem perm_swapChildren (cs : List Frame) (i j : Nat) :
    (Frame.swapChildren cs i j).Perm cs := by
  unfold Frame.swapChildren
  rw [List.get?_eq_getElem?, List.get?_eq_getElem?]
  cases hi : cs[i]? with
  | none => exact List.Perm.refl _
  | some a =>
    cases hj : cs[j]? with
    | none => exact List.Perm.refl _
    | some b => exact Frame.perm_swap cs i j a b hi hj

/-- The call `split` keeps the registry matching the tree. -/
theorem split_matches (e e2 : Editor) (f : List Nat) (v : Bool)
    (h : registryMatches (Frame.tags e.topFrame) e.wins e.frameIndex e.winIndex)
    (hs : split e f v = some e2) :
    registryMatches (Frame.tags e2.topFrame) e2.wins e2.frameIndex e2.winIndex := by
  unfold split at hs
  cases hn : Frame.nodeAt e.topFrame f with
  | none => rw [hn] at hs; simp at hs
  | some n =>
    obtain ⟨a, fv, w, h1, x, y, win, cs⟩ := n
    rw [hn] at hs
    simp only at hs
    split_ifs at hs with hc hp
    · simp only [Option.some.injEq] at hs
      rw [← hs]; exact h
    · cases win with
      | none =>
        simp only [Option.some.injEq] at hs
        rw [← hs]; exact h
      | some wid =>
        simp only at hs
        obtain ⟨id, he2⟩ := setFocus_eq _ _ _ hs
        subst he2
        simp only [equalWins, splitInsert, Frame.tags_layout]
        cases f with
        | nil => simp [parentVertical] at hp
        | cons i q =>
          simp only [List.tail_cons, List.headI_cons]
          rw [Frame.nodeAt_cons] at hn
          cases hq : Frame.nodeAt e.topFrame q with
          | none => rw [hq] at hn; simp at hn
          | some p =>
            rw [hq] at hn
            simp only [Option.some_bind, List.get?_eq_getElem?] at hn
            have hil : i < p.children.length := (List.getElem?_eq_some_iff.1 hn).1
            obtain ⟨rest, hr1, hr2⟩ := Frame.tags_updateAt e.topFrame q p hq
            refine registryMatches_perm _ _ _ _ _ ?_ (registryMatches_insert _ _ _ _ h)
            refine List.Perm.symm ((hr2 _).trans ?_)
            rw [Frame.tags_setChildren]
            have h3 := (Frame.perm_insertAfter p.children i
              (Frame.mk e.frameIndex false 0 0 0 0 (some e.winIndex) []) hil).flatMap_right
              Frame.tags
            simp only [List.flatMap_cons] at h3
            rw [Frame.tags_leaf (Frame.mk e.frameIndex false 0 0 0 0 (some e.winIndex) [])
              rfl] at h3
            refine ((h3.cons (p.addr, p.win)).append_right rest).trans ?_
            simp only [Frame.addr_mk, Frame.win_mk, List.cons_append, List.nil_append]
            refine (List.Perm.swap _ _ _).trans (List.Perm.cons _ ?_)
            rw [Frame.tags_eq p] at hr1
            exact hr1.symm
    · cases win with
      | none =>
        simp only [Option.some.injEq] at hs
        rw [← hs]; exact h
      | some wid =>
        simp only at hs
        obtain ⟨id, he2⟩ := setFocus_eq _ _ _ hs
        subst he2
        simp only [equalWins, splitConvert, Frame.tags_layout]
        have hcs : cs = [] := by
          cases cs with
          | nil => rfl
          | cons c cs => simp [Frame.hasChildren] at hc
        subst hcs
        obtain ⟨rest, hr1, hr2⟩ := Frame.tags_updateAt e.topFrame f _ hn
        rw [Frame.tags_leaf (Frame.mk a fv w h1 x y (some wid) []) rfl] at hr1
        simp only [Frame.addr_mk, Frame.win_mk, List.singleton_append] at hr1
        refine registryMatches_perm _ _ _ _ _ (hr2 _).symm ?_
        exact registryMatches_convert rest e.wins e.frameIndex e.winIndex a wid
          (registryMatches_perm _ _ _ _ _ hr1 h)

/-- The call `exchange` keeps the registry, the counters and, up to the order, the tags. -/
theorem exchange_matches (f : List Nat) : ∀ (e e2 : Editor),
    (Frame.nodeInv e.topFrame ∨ Frame.emptyRoot e.topFrame) →
    exchange e f = some e2 →
    (Frame.tags e2.topFrame).Perm (Frame.tags e.topFrame) ∧ e2.wins = e.wins ∧
      e2.frameIndex = e.frameIndex ∧ e2.winIndex = e.winIndex := by
  induction f with
  | nil =>
    intro e e2 _ hx
    simp only [exchange, Option.some.injEq] at hx
    subst hx
    exact ⟨List.Perm.refl _, rfl, rfl, rfl⟩
  | cons i q ih =>
    intro e e2 h hx
    rw [exchange] at hx
    cases hn : Frame.nodeAt e.topFrame (i :: q) with
    | none => rw [hn] at hx; simp at hx
    | some n =>
      cases hq : Frame.nodeAt e.topFrame q with
      | none => rw [hn, hq] at hx; simp at hx
      | some p =>
        rw [hn, hq] at hx
        simp only at hx
        split at hx
        · exact ih e e2 h hx
        · obtain ⟨id, he2⟩ := setFocus_eq _ _ _ hx
          subst he2
          simp only [equalWins, Frame.tags_layout, and_self, and_true]
          obtain ⟨rest, hr1, hr2⟩ := Frame.tags_updateAt e.topFrame q p hq
          refine (hr2 _).trans (List.Perm.trans ?_ hr1.symm)
          rw [Frame.tags_setChildren, Frame.tags_eq p]
          refine List.Perm.append_right rest (List.Perm.cons _ ?_)
          split
          · exact (perm_swapChildren _ _ _).flatMap_right _
          · exact (perm_swapChildren _ _ _).flatMap_right _

end Editor
end Lapce
namespace Lapce
namespace Editor

/-- What the last part of `close` does to the registry and the counters: the window of the
closed frame, if it has one, is deleted, and the tags of the tree stay. -/
theorem close_finish_fields (r : Option (Editor × Option (List Nat))) (w : Option Nat)
    (e3 : Editor) (nf3 : Option (List Nat))
    (res : Option (Editor × Option (List Nat)))
    (hres : res = (match r with
      | none => none
      | some (e2, newFocus) =>
        match w with
        | none => some (e2, newFocus)
        | some id =>
          match newFocus with
          | none => some (equalWins { e2 with wins := deleteWin e2.wins id }, none)
          | some nf =>
            (setFocus (equalWins { e2 with wins := deleteWin e2.wins id }) nf).map
              (fun e4 => (e4, some nf))))
    (h : res = some (e3, nf3)) :
    ∃ e2 nf2, r = some (e2, nf2) ∧
      Frame.tags e3.topFrame = Frame.tags e2.topFrame ∧
      e3.winIndex = e2.winIndex ∧ e3.frameIndex = e2.frameIndex ∧
      (w = none → e3.wins = e2.wins) ∧ (∀ id, w = some id → e3.wins = deleteWin e2.wins id) := by
  subst hres
  cases r with
  | none => simp at h
  | some r =>
    obtain ⟨e2, nf2⟩ := r
    cases w with
    | none =>
      simp only [Option.some.injEq, Prod.mk.injEq] at h
      obtain ⟨h1, -⟩ := h
      subst h1
      exact ⟨e2, nf2, rfl, rfl, rfl, rfl, fun _ => rfl, fun id hid => by simp at hid⟩
    | some id =>
      cases nf2 with
      | none =>
        simp only [Option.some.injEq, Prod.mk.injEq] at h
        obtain ⟨h1, -⟩ := h
        subst h1
        refine ⟨e2, none, rfl, ?_, rfl, rfl, fun h0 => by simp at h0, ?_⟩
        · simp only [equalWins, Frame.tags_layout]
        · intro id2 hid
          simp only [Option.some.injEq] at hid
          subst hid
          rfl
      | some nf =>
        simp only at h
        rcases Option.map_eq_some'.1 h with ⟨e4, h4, h5⟩
        simp only [Prod.mk.injEq] at h5
        obtain ⟨h6, -⟩ := h5
        subst h6
        obtain ⟨wid, he4⟩ := setFocus_eq _ _ _ h4
        subst he4
        refine ⟨e2, some nf, rfl, ?_, rfl, rfl, fun h0 => by simp at h0, ?_⟩
        · simp only [equalWins, Frame.tags_layout]
        · intro id2 hid
          simp only [Option.some.injEq] at hid
          subst hid
          rfl

/-- What `close` does to the tags and the registry, also when it starts in a tree where the
frame to be closed is the one frame that breaks the node invariant by having no children:
on the root nothing changes; otherwise the tags lose the frame and maybe ancestors, which
hold no window, and the registry loses the window of the frame, if it has one. -/
theorem close_tags_aux (r : List Nat) : ∀ (e : Editor) (t0 b n0 : Frame),
    Frame.nodeInv t0 → Frame.nodeAt t0 r = some n0 → b.children = [] →
    e.topFrame = Frame.updateAt t0 r (fun _ => b) →
    ∀ e3 nf3, close e r = some (e3, nf3) →
      e3.winIndex = e.winIndex ∧ e3.frameIndex = e.frameIndex ∧
      ((r = [] ∧ e3 = e) ∨
        ∃ removed, (Frame.tags e.topFrame).Perm
            ((b.addr, b.win) :: (removed ++ Frame.tags e3.topFrame)) ∧
          (∀ x ∈ removed, x.2 = none) ∧
          (b.win = none → e3.wins = e.wins) ∧
          (∀ id, b.win = some id → e3.wins = deleteWin e.wins id)) := by
  induction r with
  | nil =>
    intro e t0 b n0 _ _ _ _ e3 nf3 hc
    simp only [close, Option.some.injEq, Prod.mk.injEq] at hc
    obtain ⟨h1, -⟩ := hc
    subst h1
    exact ⟨rfl, rfl, Or.inl ⟨rfl, rfl⟩⟩
  | cons i q ih =>
    intro e t0 b n0 ht0 hn0 hb he e3 nf3 hc
    have hn0b := hn0
    rw [Frame.nodeAt_cons] at hn0b
    cases hq0 : Frame.nodeAt t0 q with
    | none => rw [hq0] at hn0b; simp at hn0b
    | some p0 =>
      rw [hq0] at hn0b
      simp only [Option.some_bind, List.get?_eq_getElem?] at hn0b
      have hfb : Frame.nodeAt e.topFrame (i :: q) = some b := by
        rw [he, Frame.nodeAt_updateAt, hn0]; rfl
      have hqb : Frame.nodeAt e.topFrame q =
          some (Frame.setChildren p0 (List.modify (fun _ => b) i p0.children)) := by
        rw [he, Frame.updateAt, Frame.nodeAt_updateAt, hq0]; rfl
      have hch : b.hasChildren = false := by simp [Frame.hasChildren, hb]
      rw [close_cons e i q b _ hfb hqb hch] at hc
      obtain ⟨e2, nf2, hr, htags, hwi, hfi, hw1, hw2⟩ := close_finish_fields _ _ _ _ _ rfl hc
      rw [Frame.children_setChildren, Frame.eraseIdx_modify] at hr
      have htree : Frame.updateAt e.topFrame q
          (fun n => Frame.setChildren n (p0.children.eraseIdx i)) =
          Frame.updateAt t0 q (fun _ => Frame.setChildren p0 (p0.children.eraseIdx i)) := by
        rw [he, Frame.updateAt, Frame.updateAt_updateAt]
        apply Frame.updateAt_congr _ _ _ _ p0 hq0
        rw [Frame.setChildren_setChildren]
      have hpinv := (Frame.nodeInv_iff p0).1 (Frame.nodeInv_nodeAt _ q p0 ht0 hq0)
      have hne : p0.children ≠ [] := by
        intro h0; rw [h0] at hn0b; simp at hn0b
      have hp0win : p0.win = none := by
        rcases hpinv.1 with h2 | h2
        · exact absurd h2.2 hne
        · exact h2.1
      -- the tags before and after the frame is taken out of the children of its parent
      obtain ⟨rest, hr1, hr2⟩ := Frame.tags_updateAt t0 q p0 hq0
      have hbefore : (Frame.tags e.topFrame).Perm ((b.addr, b.win) ::
          Frame.tags (Frame.updateAt t0 q
            (fun _ => Frame.setChildren p0 (p0.children.eraseIdx i)))) := by
        rw [he, Frame.updateAt]
        refine (hr2 _).trans (List.Perm.trans ?_ ((hr2 _).symm.cons _))
        rw [Frame.tags_setChildren, Frame.tags_setChildren]
        have h3 := (Frame.perm_modify p0.children i n0 (fun _ => b) hn0b).flatMap_right
          Frame.tags
        simp only [List.flatMap_cons] at h3
        rw [Frame.tags_leaf b hb] at h3
        refine ((h3.cons (p0.addr, p0.win)).append_right rest).trans ?_
        simp only [List.cons_append, List.nil_append]
        exact List.Perm.swap _ _ _
      refine ⟨?_, ?_, Or.inr ?_⟩
      · split at hr
        · have := (ih _ t0 (Frame.setChildren p0 (p0.children.eraseIdx i)) p0 ht0 hq0
            (by rw [Frame.children_setChildren]; exact List.length_eq_zero.1 ‹_›) htree
            e2 nf2 hr).1
          rw [hwi, this]
        · simp only [Option.some.injEq, Prod.mk.injEq] at hr
          rw [hwi, ← hr.1]
      · split at hr
        · have := (ih _ t0 (Frame.setChildren p0 (p0.children.eraseIdx i)) p0 ht0 hq0
            (by rw [Frame.children_setChildren]; exact List.length_eq_zero.1 ‹_›) htree
            e2 nf2 hr).2.1
          rw [hfi, this]
        · simp only [Option.some.injEq, Prod.mk.injEq] at hr
          rw [hfi, ← hr.1]
      · split at hr
        · rename_i hlen
          obtain ⟨-, -, h4⟩ := ih _ t0 (Frame.setChildren p0 (p0.children.eraseIdx i)) p0
            ht0 hq0 (by rw [Frame.children_setChildren]; exact List.length_eq_zero.1 hlen)
            htree e2 nf2 hr
          rcases h4 with ⟨_, h4⟩ | ⟨removed, h5, h6, h7, -⟩
          · subst h4
            refine ⟨[], ?_, fun x hx => by simp at hx, ?_, ?_⟩
            · rw [htags]
              simp only [List.nil_append]
              rw [htree]
              exact hbefore
            · intro h0; rw [hw1 h0]
            · intro id hid; rw [hw2 id hid]
          · rw [Frame.win_setChildren, hp0win] at h7
            have h8 := h7 rfl
            simp only at h8 h5
            refine ⟨((Frame.setChildren p0 (p0.children.eraseIdx i)).addr,
              (Frame.setChildren p0 (p0.children.eraseIdx i)).win) :: removed, ?_, ?_, ?_, ?_⟩
            · rw [htags]
              rw [htree] at h5
              exact hbefore.trans (h5.cons _)
            · intro x hx
              rcases List.mem_cons.1 hx with rfl | hx
              · simp only [Frame.win_setChildren, hp0win]
              · exact h6 x hx
            · intro h0; rw [hw1 h0, h8]
            · intro id hid; rw [hw2 id hid, h8]
        · simp only [Option.some.injEq, Prod.mk.injEq] at hr
          obtain ⟨hr1e, -⟩ := hr
          subst hr1e
          refine ⟨[], ?_, fun x hx => by simp at hx, ?_, ?_⟩
          · rw [htags]
            simp only [List.nil_append]
            rw [htree]
            exact hbefore
          · intro h0; rw [hw1 h0]
          · intro id hid; rw [hw2 id hid]

end Editor
end Lapce
namespace Lapce
namespace Editor

/-- The call `close` keeps the registry matching the tree. -/
theorem close_consistent (e e2 : Editor) (f : List Nat) (nf : Option (List Nat))
    (h : consistent e) (hc : close e f = some (e2, nf)) : consistent e2 := by
  refine ⟨close_inv e e2 f nf h.1 hc, ?_⟩
  cases f with
  | nil =>
    simp only [close, Option.some.injEq, Prod.mk.injEq] at hc
    rw [← hc.1]; exact h.2
  | cons i q =>
    cases hn : Frame.nodeAt e.topFrame (i :: q) with
    | none => rw [close, hn] at hc; simp at hc
    | some n =>
      have ht := nodeInv_of_node _ _ _ _ h.1 hn
      by_cases hch : n.hasChildren = true
      · cases hq : Frame.nodeAt e.topFrame q with
        | none => rw [close, hn, hq] at hc; simp at hc
        | some p =>
          rw [close, hn, hq] at hc
          simp only [hch, if_true, Option.some.injEq, Prod.mk.injEq] at hc
          rw [← hc.1]; exact h.2
      · have hnc : n.children = [] := by simpa [Frame.hasChildren] using hch
        obtain ⟨h1, h2, h3⟩ := close_tags_aux (i :: q) e e.topFrame n n ht hn hnc
          (by rw [Frame.updateAt_self _ _ _ n hn rfl]) e2 nf hc
        rcases h3 with ⟨h4, _⟩ | ⟨removed, h5, h6, -, h8⟩
        · simp at h4
        · obtain ⟨id, hid⟩ : ∃ id, n.win = some id := by
            rcases ((Frame.nodeInv_iff n).1 (Frame.nodeInv_nodeAt _ _ n ht hn)).1 with h9 | h9
            · exact Option.isSome_iff_exists.1 h9.1
            · exact absurd hnc h9.2
          rw [h1, h2, h8 id hid]
          rw [hid] at h5
          exact registryMatches_close _ removed _ _ _ n.addr id
            (registryMatches_perm _ _ _ _ _ h5 h.2) h6

/-- Every editor reachable from a single registered leaf is consistent. -/
theorem reachableFrom_consistent (e0 e : Editor) (h0 : singleLeaf e0)
    (hr : ReachableFrom e0 e) : consistent e := by
  induction hr with
  | start =>
    obtain ⟨hc, wid, hw, hwins, hwi, hfi⟩ := h0
    refine ⟨Or.inl ?_, ?_⟩
    · rw [Frame.nodeInv_iff, hc, hw]
      simp
    · rw [Frame.tags_leaf _ hc, hw, hwins]
      refine ⟨by simp, ?_, by simp, ?_, ?_⟩
      · intro x hx
        simp only [List.mem_singleton] at hx
        subst hx
        exact hfi
      · intro p hp
        simp only [List.mem_singleton] at hp
        subst hp
        exact hwi
      · intro id addr
        simp only [List.mem_singleton, Prod.mk.injEq, Option.some.injEq]
        exact ⟨fun h => ⟨h.2, h.1⟩, fun h => ⟨h.2, h.1⟩⟩
  | split e1 e2 f v _ hs ih => exact ⟨split_inv e1 e2 f v ih.1 hs, split_matches e1 e2 f v ih.2 hs⟩
  | close e1 e2 f nf _ hc ih => exact close_consistent e1 e2 f nf ih hc
  | exchange e1 e2 f _ hx ih =>
    obtain ⟨h1, h2, h3, h4⟩ := exchange_matches f e1 e2 ih.1 hx
    refine ⟨exchange_inv f e1 e2 ih.1 hx, ?_⟩
    rw [h2, h3, h4]
    exact registryMatches_perm _ _ _ _ _ h1.symm ih.2

/-- In a consistent editor a tag with a window is the tag of a frame without children. -/
theorem consistent_leaf (e : Editor) (h : consistent e) (n : Frame)
    (hn : n ∈ Frame.nodes e.topFrame) (id : Nat) (hw : n.win = some id) : n.children = [] := by
  rcases h.1 with h1 | h1
  · rcases h1 n hn with h2 | h2
    · exact h2.2
    · rw [hw] at h2; simp at h2
  · have hnodes : ∀ t : Frame, t.children = [] → Frame.nodes t = [t] := by
      intro t ht
      obtain ⟨a, fv, w, h2, x, y, win, cs⟩ := t
      simp only [Frame.children_mk] at ht
      subst ht
      rfl
    have hnodes := hnodes e.topFrame h1.2
    rw [hnodes] at hn
    simp only [List.mem_singleton] at hn
    subst hn
    rw [h1.1] at hw
    simp at hw

/-- In a consistent editor the address of a frame of the tree designates the frame. -/
theorem consistent_frameAt (e : Editor) (h : consistent e) (n : Frame)
    (hn : n ∈ Frame.nodes e.topFrame) : frameAt e.topFrame n.addr = some n := by
  have hnd : ((Frame.nodes e.topFrame).map Frame.addr).Nodup := by
    have := h.2.1
    unfold Frame.tags at this
    rw [List.map_map] at this
    exact this
  unfold frameAt
  cases hf : (Frame.nodes e.topFrame).find? (fun m => m.addr == n.addr) with
  | none =>
    have := List.find?_eq_none.1 hf n hn
    simp at this
  | some m =>
    have hm := List.mem_of_find?_eq_some hf
    have hp := List.find?_some hf
    simp only [beq_iff_eq] at hp
    rw [List.inj_on_of_nodup_map hnd hm hn hp]

end Editor
end Lapce
namespace Lapce
namespace Editor

/-- C21: in every editor reachable by `split`, `close` and `exchange` from a single
registered leaf, the windows of the registry are exactly the windows held by frames without
children; the frame of a registered window (its back-reference) is in the tree, has no
children, holds the window and is the only frame that holds it; and `close` on a leaf with
a parent returns with the entry of the window of the leaf deleted and every other entry as
it was. -/
theorem registry_tree_consistent (e0 e : Editor) (h0 : singleLeaf e0)
    (hr : ReachableFrom e0 e) :
    (∀ id, (∃ addr, (id, addr) ∈ e.wins) ↔
      ∃ n ∈ Frame.nodes e.topFrame, n.children = [] ∧ n.win = some id) ∧
    (∀ id addr, (id, addr) ∈ e.wins →
      ∃ n ∈ Frame.nodes e.topFrame, frameAt e.topFrame addr = some n ∧ n.children = [] ∧
        n.win = some id ∧ ∀ m ∈ Frame.nodes e.topFrame, m.win = some id → m = n) ∧
    registryOK e ∧
    (∀ i q f, Frame.nodeAt e.topFrame (i :: q) = some f → f.children = [] →
      ∃ id e2 nf, f.win = some id ∧ close e (i :: q) = some (e2, nf) ∧
        e2.wins = deleteWin e.wins id ∧ (∀ a, (id, a) ∉ e2.wins) ∧
        ∀ p : Nat × Nat, p.1 ≠ id → (p ∈ e2.wins ↔ p ∈ e.wins)) := by
  have hcons := reachableFrom_consistent e0 e h0 hr
  have htag : ∀ id addr, (id, addr) ∈ e.wins ↔
      ∃ n ∈ Frame.nodes e.topFrame, n.addr = addr ∧ n.win = some id := by
    intro id addr
    rw [hcons.2.2.2.2.2 id addr]
    unfold Frame.tags
    simp only [List.mem_map, Prod.mk.injEq]
  have hback : ∀ id addr, (id, addr) ∈ e.wins →
      ∃ n ∈ Frame.nodes e.topFrame, frameAt e.topFrame addr = some n ∧ n.children = [] ∧
        n.win = some id ∧ ∀ m ∈ Frame.nodes e.topFrame, m.win = some id → m = n := by
    intro id addr hm
    obtain ⟨n, hn, hna, hnw⟩ := (htag id addr).1 hm
    have hfn := consistent_frameAt e hcons n hn
    rw [hna] at hfn
    refine ⟨n, hn, hfn, consistent_leaf e hcons n hn id hnw, hnw, ?_⟩
    intro m hmn hmw
    have h1 : (id, m.addr) ∈ e.wins := (htag id m.addr).2 ⟨m, hmn, rfl, hmw⟩
    have h2 := addr_unique e.wins hcons.2.2.2.1 id m.addr addr h1 hm
    have h3 := consistent_frameAt e hcons m hmn
    rw [h2, hfn] at h3
    exact (Option.some.inj h3).symm
  refine ⟨?_, hback, ?_, ?_⟩
  · intro id
    constructor
    · rintro ⟨addr, hm⟩
      obtain ⟨n, hn, -, hc, hw, -⟩ := hback id addr hm
      exact ⟨n, hn, hc, hw⟩
    · rintro ⟨n, hn, -, hw⟩
      exact ⟨n.addr, (htag id n.addr).2 ⟨n, hn, rfl, hw⟩⟩
  · intro p hp
    obtain ⟨n, -, hf, hc, hw, -⟩ := hback p.1 p.2 hp
    rw [hf]
    simp only [Option.map_some', Frame.hasChildren, hc, hw, List.isEmpty_nil, Bool.not_true]
  · intro i q f hf hc
    have ht := nodeInv_of_node _ _ _ _ hcons.1 hf
    obtain ⟨id, hid⟩ : ∃ id, f.win = some id := by
      rcases ((Frame.nodeInv_iff f).1 (Frame.nodeInv_nodeAt _ _ f ht hf)).1 with h9 | h9
      · exact Option.isSome_iff_exists.1 h9.1
      · exact absurd hc h9.2
    obtain ⟨e2, nf, hcl, -⟩ := close_returns_aux (i :: q) e e.topFrame f f ht hf hc
      (by rw [Frame.updateAt_self _ _ _ f hf rfl])
    obtain ⟨-, -, h3⟩ := close_tags_aux (i :: q) e e.topFrame f f ht hf hc
      (by rw [Frame.updateAt_self _ _ _ f hf rfl]) e2 nf hcl
    have hw : e2.wins = deleteWin e.wins id := by
      rcases h3 with ⟨h4, _⟩ | ⟨_, -, -, -, h8⟩
      · simp at h4
      · exact h8 id hid
    refine ⟨id, e2, nf, hid, hcl, hw, ?_, ?_⟩
    · intro a ha
      rw [hw] at ha
      unfold deleteWin at ha
      have := (List.mem_filter.1 ha).2
      simp at this
    · intro p hp
      rw [hw]
      unfold deleteWin
      simp only [List.mem_filter, ne_eq, decide_not, Bool.not_eq_true',
        decide_eq_false_iff_not, and_iff_left_iff_imp]
      exact fun _ => hp

/-- C21, witness: the example editor with one window and the editor after `split` of its
root. -/
theorem registry_tree_consistent_witness :
    (∀ id, (∃ addr, (id, addr) ∈ exampleSplit.wins) ↔
      ∃ n ∈ Frame.nodes exampleSplit.topFrame, n.children = [] ∧ n.win = some id) ∧
    (∀ id addr, (id, addr) ∈ exampleSplit.wins →
      ∃ n ∈ Frame.nodes exampleSplit.topFrame,
        frameAt exampleSplit.topFrame addr = some n ∧ n.children = [] ∧
        n.win = some id ∧ ∀ m ∈ Frame.nodes exampleSplit.topFrame, m.win = some id → m = n) ∧
    registryOK exampleSplit ∧
    (∀ i q f, Frame.nodeAt exampleSplit.topFrame (i :: q) = some f → f.children = [] →
      ∃ id e2 nf, f.win = some id ∧ close exampleSplit (i :: q) = some (e2, nf) ∧
        e2.wins = deleteWin exampleSplit.wins id ∧ (∀ a, (id, a) ∉ e2.wins) ∧
        ∀ p : Nat × Nat, p.1 ≠ id → (p ∈ e2.wins ↔ p ∈ exampleSplit.wins)) :=
  registry_tree_consistent exampleEditor exampleSplit
    ⟨rfl, 0, rfl, rfl, by decide, by decide⟩
    (ReachableFrom.split exampleEditor _ [] true ReachableFrom.start rfl)

end Editor
end Lapce

/-! ## The counts are positive -/

namespace Lapce

/-- The count of a child is at most the running sum of the loop of `countSplits` over a list
that holds the child. -/
theorem Frame.countSum_ge_mem (cs : List Frame) (v : Bool) (n : Int) (hn : 0 ≤ n) :
    ∀ c ∈ cs, Frame.countSplits c v ≤ Frame.countSum cs v n := by
  intro c hc
  rw [Frame.countSum_eq]
  induction cs with
  | nil => simp at hc
  | cons d ds ih =>
    have hpos : ∀ l : List Frame, 0 ≤ (l.map (fun c => Frame.countSplits c v)).sum := by
      intro l
      induction l with
      | nil => simp
      | cons x l ihl =>
        have := Frame.countSplits_pos x v
        simp only [List.map_cons, List.sum_cons]
        omega
    simp only [List.map_cons, List.sum_cons]
    rcases List.mem_cons.1 hc with rfl | hc
    · have := hpos ds
      omega
    · have := ih hc
      have := Frame.countSplits_pos d v
      omega

/-- The count of a child is at most the count of its parent, on both axes. -/
theorem Frame.countSplits_child_le (f c : Frame) (v : Bool) (hc : c ∈ f.children) :
    Frame.countSplits c v ≤ Frame.countSplits f v := by
  obtain ⟨a, fv, w, h, x, y, win, cs⟩ := f
  simp only [Frame.children_mk] at hc
  cases cs with
  | nil => simp at hc
  | cons d ds =>
    rw [Frame.countSplits_node]
    split_ifs
    · exact Frame.countSum_ge_mem _ _ 0 (le_refl _) c hc
    · exact Frame.countMax_ge_mem _ _ 0 c hc

end Lapce

/-! ## The geometry in the arithmetic of `int` -/

namespace Lapce
namespace Frame

/-- A value of `int` is not changed by wrapping. -/
theorem wrap_of_inRange (n : Int) (h : inRange n) : wrap n = n := by
  unfold inRange at h
  unfold wrap
  omega

/-- A wrapped value is a value of `int`. -/
theorem inRange_wrap (n : Int) : inRange (wrap n) := by
  unfold inRange wrap
  omega

/-- With a smaller positive factor a product stays in the range of `int`. -/
theorem inRange_mul_le (n m u : Int) (hn : 1 ≤ n) (hnm : n ≤ m) (h : inRange (m * u)) :
    inRange (n * u) := by
  unfold inRange at h ⊢
  rcases le_or_lt 0 u with hu | hu
  · have h1 : n * u ≤ m * u := Int.mul_le_mul_of_nonneg_right hnm hu
    have h2 : 0 ≤ n * u := Int.mul_nonneg (by omega) hu
    omega
  · have h1 : m * u ≤ n * u := Int.mul_le_mul_of_nonpos_right hnm (le_of_lt hu)
    have h2 : n * u ≤ 0 := Int.mul_nonpos_of_nonneg_of_nonpos (by omega) (le_of_lt hu)
    omega

/-- The truncated quotient times the divisor lies between 0 and the dividend. -/
theorem mul_tdiv_bounds (p n : Int) (hn : 1 ≤ n) :
    (0 ≤ p → 0 ≤ n * Int.tdiv p n ∧ n * Int.tdiv p n ≤ p) ∧
    (p ≤ 0 → p ≤ n * Int.tdiv p n ∧ n * Int.tdiv p n ≤ 0) := by
  have key : ∀ q : Int, 0 ≤ q → 0 ≤ n * Int.tdiv q n ∧ n * Int.tdiv q n ≤ q := by
    intro q hq
    have hmod := Int.tmod_add_tdiv q n
    have h1 : 0 ≤ Int.tmod q n := Int.tmod_nonneg n hq
    have h2 : 0 ≤ Int.tdiv q n := Int.tdiv_nonneg hq (by omega)
    have h3 : 0 ≤ n * Int.tdiv q n := Int.mul_nonneg (by omega) h2
    omega
  refine ⟨key p, ?_⟩
  intro hp
  have h := key (-p) (by omega)
  rw [Int.neg_tdiv, Int.mul_neg] at h
  omega

/-- The product of the divisor and the truncated quotient of a value of `int` is a value of
`int`. -/
theorem inRange_mul_tdiv (p n : Int) (hn : 1 ≤ n) (h : inRange p) :
    inRange (n * Int.tdiv p n) := by
  have hb := mul_tdiv_bounds p n hn
  unfold inRange at h ⊢
  rcases le_or_lt 0 p with hp | hp
  · have := hb.1 hp
    omega
  · have := hb.2 (le_of_lt hp)
    omega

theorem setSizeSame64_eq_map (cs : List Frame) (v : Bool) (u : Int) :
    setSizeSame64 cs v u = cs.map (fun c => setSize64 c v u) := by
  induction cs with
  | nil => simp [setSizeSame64]
  | cons c cs ih => simp [setSizeSame64, ih]

theorem setSizeScaled64_eq_map (cs : List Frame) (v : Bool) (u m : Int) :
    setSizeScaled64 cs v u m =
      cs.map (fun c => setSize64 c v (Int.tdiv (wrap (u * m)) (countSplits c v))) := by
  induction cs with
  | nil => simp [setSizeScaled64]
  | cons c cs ih => simp [setSizeScaled64, ih]

/-- The equation of `setSize64` for a frame with children. -/
theorem setSize64_node (a : Nat) (fv : Bool) (w h x y : Int) (win : Option Nat) (c : Frame)
    (cs : List Frame) (v : Bool) (u : Int) :
    setSize64 (mk a fv w h x y win (c :: cs)) v u =
      mk a fv (if v then wrap (countSplits (mk a fv w h x y win (c :: cs)) v * u) else w)
        (if v then h else wrap (countSplits (mk a fv w h x y win (c :: cs)) v * u)) x y win
        (if fv = v then (c :: cs).map (fun d => setSize64 d v u)
         else (c :: cs).map (fun d => setSize64 d v
          (Int.tdiv (wrap (u * countSplits (mk a fv w h x y win (c :: cs)) v))
            (countSplits d v)))) := by
  by_cases hv : fv = v
  · simp only [setSize64, hv, if_true, setSizeSame64_eq_map]
  · simp only [setSize64, hv, if_false, setSizeScaled64_eq_map]

/-- The children after `setSize64`: each child resized with the unit handed to it. -/
theorem setSize64_children_unit (f : Frame) (v : Bool) (u : Int) :
    (setSize64 f v u).children = f.children.map (fun c => setSize64 c v (childUnit64 f c v u)) := by
  obtain ⟨a, fv, w, h, x, y, win, cs⟩ := f
  cases cs with
  | nil => cases v <;> simp [setSize64, children]
  | cons c cs =>
    rw [setSize64_node]
    simp only [children_mk, childUnit64, vertical_mk]
    split_ifs <;> rfl

/-- As long as `max * singleValue` is a value of `int`, no product of `setSize` wraps:
`setSize64` and `setSize` give the same frame. -/
theorem setSize64_eq (f : Frame) (v : Bool) (u : Int) (h : inRange (countSplits f v * u)) :
    setSize64 f v u = setSize f v u := by
  induction f using induct generalizing u with
  | step a fv w h1 x y win cs ih =>
    cases cs with
    | nil => cases v <;> simp [setSize64, setSize]
    | cons c cs =>
      rw [setSize64_node, setSize_node, wrap_of_inRange _ h,
        show u * countSplits (mk a fv w h1 x y win (c :: cs)) v
          = countSplits (mk a fv w h1 x y win (c :: cs)) v * u from mul_comm _ _,
        wrap_of_inRange _ h]
      congr 1
      split_ifs with hv
      · apply List.map_congr_left
        intro d hd
        apply ih d hd
        exact inRange_mul_le _ _ _ (countSplits_pos d v)
          (countSplits_child_le (mk a fv w h1 x y win (c :: cs)) d v hd) h
      · apply List.map_congr_left
        intro d hd
        apply ih d hd
        exact inRange_mul_tdiv _ _ (countSplits_pos d v) h

end Frame
end Lapce
namespace Lapce
namespace Frame

theorem setPos64_width (f : Frame) (x y : Int) : (setPos64 f x y).width = f.width := by
  cases f; simp [setPos64, width]

theorem setPos64_height (f : Frame) (x y : Int) : (setPos64 f x y).height = f.height := by
  cases f; simp [setPos64, height]

/-- The loop of `setPos64` over the children of a vertical frame does not wrap when the
children are not negative in width and fit, one after the other, into the range of `int`. -/
theorem setPosChildren64_eq_true (cs : List Frame) :
    ∀ (x y : Int),
      (∀ c ∈ cs, ∀ x y : Int, inRange x → inRange (x + c.width) → inRange y →
        inRange (y + c.height) → setPos64 c x y = setPos c x y) →
      (∀ c ∈ cs, 0 ≤ c.width) → inRange x →
      inRange (x + (cs.map (fun c => c.width)).sum) → inRange y →
      (∀ c ∈ cs, inRange (y + c.height)) →
      setPosChildren64 cs true x y = setPosChildren cs true x y := by
  induction cs with
  | nil => intro x y _ _ _ _ _ _; rfl
  | cons c cs ih =>
    intro x y hih hnn hx hsum hy hh
    have hc0 := hnn c (List.mem_cons_self _ _)
    have hs0 : 0 ≤ (cs.map (fun c => c.width)).sum := by
      apply List.sum_nonneg
      intro a ha
      obtain ⟨d, hd, rfl⟩ := List.mem_map.1 ha
      exact hnn d (List.mem_cons_of_mem _ hd)
    simp only [List.map_cons, List.sum_cons] at hsum
    have hxc : inRange (x + c.width) := by
      unfold inRange at hx hsum ⊢
      omega
    have hhead := hih c (List.mem_cons_self _ _) x y hx hxc hy (hh c (List.mem_cons_self _ _))
    simp only [setPosChildren64, setPosChildren, if_true, setPos64_width, setPos_width,
      wrap_of_inRange _ hxc, hhead]
    congr 1
    apply ih (x + c.width) y (fun d hd => hih d (List.mem_cons_of_mem _ hd))
      (fun d hd => hnn d (List.mem_cons_of_mem _ hd)) hxc ?_ hy
      (fun d hd => hh d (List.mem_cons_of_mem _ hd))
    rw [add_assoc]
    exact hsum

/-- The loop of `setPos64` over the children of a horizontal frame does not wrap when the
children are not negative in height and fit, one after the other, into the range of
`int`. -/
theorem setPosChildren64_eq_false (cs : List Frame) :
    ∀ (x y : Int),
      (∀ c ∈ cs, ∀ x y : Int, inRange x → inRange (x + c.width) → inRange y →
        inRange (y + c.height) → setPos64 c x y = setPos c x y) →
      (∀ c ∈ cs, 0 ≤ c.height) → inRange y →
      inRange (y + (cs.map (fun c => c.height)).sum) → inRange x →
      (∀ c ∈ cs, inRange (x + c.width)) →
      setPosChildren64 cs false x y = setPosChildren cs false x y := by
  induction cs with
  | nil => intro x y _ _ _ _ _ _; rfl
  | cons c cs ih =>
    intro x y hih hnn hy hsum hx hw
    have hc0 := hnn c (List.mem_cons_self _ _)
    have hs0 : 0 ≤ (cs.map (fun c => c.height)).sum := by
      apply List.sum_nonneg
      intro a ha
      obtain ⟨d, hd, rfl⟩ := List.mem_map.1 ha
      exact hnn d (List.mem_cons_of_mem _ hd)
    simp only [List.map_cons, List.sum_cons] at hsum
    have hyc : inRange (y + c.height) := by
      unfold inRange at hy hsum ⊢
      omega
    have hhead := hih c (List.mem_cons_self _ _) x y hx (hw c (List.mem_cons_self _ _)) hy hyc
    simp only [setPosChildren64, setPosChildren, Bool.false_eq_true, if_false,
      setPos64_height, setPos_height, wrap_of_inRange _ hyc, hhead]
    congr 1
    apply ih x (y + c.height) (fun d hd => hih d (List.mem_cons_of_mem _ hd))
      (fun d hd => hnn d (List.mem_cons_of_mem _ hd)) hyc ?_ hx
      (fun d hd => hw d (List.mem_cons_of_mem _ hd))
    rw [add_assoc]
    exact hsum

/-- In a tree whose extents are not negative and fit (the children of a frame into the
frame), placed so that the rectangle of the root lies in the range of `int`, no sum of
`setPos` wraps: `setPos64` and `setPos` give the same frame. -/
theorem setPos64_eq (f : Frame) (ht : axisOK f true) (hf : axisOK f false) (x y : Int)
    (hx : inRange x) (hxw : inRange (x + f.width)) (hy : inRange y)
    (hyh : inRange (y + f.height)) : setPos64 f x y = setPos f x y := by
  induction f using induct generalizing x y with
  | step a fv w h x0 y0 win cs ih =>
    rw [axisOK_iff] at ht hf
    obtain ⟨⟨ht0, ht1⟩, ht2⟩ := ht
    obtain ⟨⟨hf0, hf1⟩, hf2⟩ := hf
    simp only [extent_true, extent_false, width_mk, height_mk, vertical_mk, children_mk]
      at ht0 ht1 hf0 hf1 hxw hyh
    have hih : ∀ c ∈ cs, ∀ x y : Int, inRange x → inRange (x + c.width) → inRange y →
        inRange (y + c.height) → setPos64 c x y = setPos c x y :=
      fun c hc x y h1 h2 h3 h4 => ih c hc (ht2 c hc) (hf2 c hc) x y h1 h2 h3 h4
    have hw0 : ∀ c ∈ cs, 0 ≤ c.width := fun c hc => by
      have := ((axisOK_iff c true).1 (ht2 c hc)).1.1
      simpa using this
    have hh0 : ∀ c ∈ cs, 0 ≤ c.height := fun c hc => by
      have := ((axisOK_iff c false).1 (hf2 c hc)).1.1
      simpa using this
    simp only [setPos64, setPos]
    congr 1
    cases fv with
    | true =>
      simp only [if_true, Bool.true_eq_false, if_false] at ht1 hf1
      have hs0 : 0 ≤ (cs.map (fun c => c.width)).sum := by
        apply List.sum_nonneg
        intro a ha
        obtain ⟨d, hd, rfl⟩ := List.mem_map.1 ha
        exact hw0 d hd
      apply setPosChildren64_eq_true cs x y hih hw0 hx ?_ hy ?_
      · unfold inRange at hx hxw ⊢
        omega
      · intro c hc
        have h1 := hf1 c hc
        have h2 := hh0 c hc
        unfold inRange at hy hyh ⊢
        omega
    | false =>
      simp only [Bool.false_eq_true, if_false, if_true] at ht1 hf1
      have hs0 : 0 ≤ (cs.map (fun c => c.height)).sum := by
        apply List.sum_nonneg
        intro a ha
        obtain ⟨d, hd, rfl⟩ := List.mem_map.1 ha
        exact hh0 d hd
      apply setPosChildren64_eq_false cs x y hih hh0 hy ?_ hx ?_
      · unfold inRange at hy hyh ⊢
        omega
      · intro c hc
        have h1 := ht1 c hc
        have h2 := hw0 c hc
        unfold inRange at hx hxw ⊢
        omega

end Frame
end Lapce
namespace Lapce
namespace Frame

/-- The layout pass `setSize(true, uw)`, `setSize(false, uh)`, `setPos(x0, y0)` does not
wrap when the units are not negative and the rectangle of the root, `countSplits(true) * uw`
wide and `countSplits(false) * uh` high at `(x0, y0)`, lies in the range of `int`: the pass
in the arithmetic of `int` and the pass in exact integers give the same tree. -/
theorem place64_eq (f : Frame) (uw uh x0 y0 : Int) (hw : 0 ≤ uw) (hh : 0 ≤ uh)
    (hrw : inRange (countSplits f true * uw)) (hrh : inRange (countSplits f false * uh))
    (hx : inRange x0) (hxw : inRange (x0 + countSplits f true * uw))
    (hy : inRange y0) (hyh : inRange (y0 + countSplits f false * uh)) :
    ((f.setSize64 true uw).setSize64 false uh).setPos64 x0 y0 =
      ((f.setSize true uw).setSize false uh).setPos x0 y0 := by
  rw [setSize64_eq f true uw hrw,
    setSize64_eq (f.setSize true uw) false uh (by rw [countSplits_setSize]; exact hrh)]
  have h1 : axisOK ((f.setSize true uw).setSize false uh) true :=
    axisOK_setSize_other (f.setSize true uw) false uh (axisOK_setSize f true uw hw)
  have h2 : axisOK ((f.setSize true uw).setSize false uh) false :=
    axisOK_setSize _ false uh hh
  have e1 : ((f.setSize true uw).setSize false uh).width = countSplits f true * uw := by
    have := setSize_extent_other (f.setSize true uw) false uh
    simp only [Bool.not_false, extent_true] at this
    rw [this]
    have := setSize_extent f true uw
    simpa using this
  have e2 : ((f.setSize true uw).setSize false uh).height = countSplits f false * uh := by
    have := setSize_extent (f.setSize true uw) false uh
    rw [countSplits_setSize] at this
    simpa using this
  exact setPos64_eq _ h1 h2 x0 y0 hx (by rw [e1]; exact hxw) hy (by rw [e2]; exact hyh)

/-- The layout pass for a canvas `W x H` whose sizes are values of `int` and not negative
does not wrap: in the arithmetic of `int` it gives the tree of `layout`. -/
theorem layout_in_int (f : Frame) (W H : Int) (hW : 0 ≤ W) (hH : 0 ≤ H) (hrW : inRange W)
    (hrH : inRange H) :
    ((f.setSize64 true (Int.tdiv W (countSplits f true))).setSize64 false
        (Int.tdiv H (countSplits f false))).setPos64 0 0 = layout f W H := by
  have b1 := (mul_tdiv_bounds W (countSplits f true) (countSplits_pos f true)).1 hW
  have b2 := (mul_tdiv_bounds H (countSplits f false) (countSplits_pos f false)).1 hH
  have hz : inRange 0 := by unfold inRange; omega
  unfold layout
  rw [countSplits_setSize]
  apply place64_eq
  · exact Int.tdiv_nonneg hW (by have := countSplits_pos f true; omega)
  · exact Int.tdiv_nonneg hH (by have := countSplits_pos f false; omega)
  · unfold inRange at hrW ⊢; omega
  · unfold inRange at hrH ⊢; omega
  · exact hz
  · unfold inRange at hrW ⊢; omega
  · exact hz
  · unfold inRange at hrH ⊢; omega

end Frame

/-- C1, counterexample: with the unit `2^62` the row of three leaves gets three children of
width `2^62` each, which add up to `3 * 2^62`, while the product `3 * 2^62` of the root
wraps to the width `-2^62`. -/
theorem setSize_children_sum_wraps :
    Frame.exampleRow.hasChildren = true ∧
    (Frame.exampleRow.setSize64 Frame.exampleRow.vertical 4611686018427387904).children.map
        (fun c => c.extent Frame.exampleRow.vertical)
      = [4611686018427387904, 4611686018427387904, 4611686018427387904] ∧
    (Frame.exampleRow.setSize64 Frame.exampleRow.vertical 4611686018427387904).extent
        Frame.exampleRow.vertical = -4611686018427387904 ∧
    ¬ (((Frame.exampleRow.setSize64 Frame.exampleRow.vertical
          4611686018427387904).children.map (fun c => c.extent Frame.exampleRow.vertical)).sum =
        (Frame.exampleRow.setSize64 Frame.exampleRow.vertical 4611686018427387904).extent
          Frame.exampleRow.vertical) := by
  decide

/-- C1: for a frame with at least one child and a unit for which `max * singleValue` is a
value of `int`, after `setSize` along the orientation of the frame the extents of the
children along the split axis add up to the extent of the frame. -/
theorem setSize_children_sum (f : Frame) (u : Int) (h : f.hasChildren = true)
    (hr : Frame.inRange (Frame.countSplits f f.vertical * u)) :
    ((f.setSize64 f.vertical u).children.map (fun c => c.extent f.vertical)).sum =
      (f.setSize64 f.vertical u).extent f.vertical := by
  have hne : f.children ≠ [] := by
    intro h0
    simp [Frame.hasChildren, h0] at h
  rw [Frame.setSize64_eq f f.vertical u hr]
  rw [Frame.setSize_extent, Frame.setSize_children, if_pos rfl, List.map_map,
    Frame.countSplits_same f hne]
  have : (List.map ((fun c => c.extent f.vertical) ∘ fun c => c.setSize f.vertical u)
      f.children) = f.children.map (fun c => Frame.countSplits c f.vertical * u) := by
    apply List.map_congr_left
    intro c _
    simp [Frame.setSize_extent]
  rw [this, Frame.sum_map_mul]

/-- C1, witness: the row of three leaves with unit 100. -/
theorem setSize_children_sum_witness :
    (Frame.exampleRow.hasChildren = true ∧
      Frame.inRange (Frame.countSplits Frame.exampleRow Frame.exampleRow.vertical * 100)) ∧
      ((Frame.exampleRow.setSize64 Frame.exampleRow.vertical 100).children.map
        (fun c => c.extent Frame.exampleRow.vertical)).sum =
      (Frame.exampleRow.setSize64 Frame.exampleRow.vertical 100).extent
        Frame.exampleRow.vertical :=
  ⟨⟨by decide, by decide⟩, setSize_children_sum Frame.exampleRow 100 (by decide) (by decide)⟩

/-- C8, counterexample: in the row of five leaves laid out with the units `2^62` and 100 at
the origin, the running offset `x += child.width` wraps: the leaves start at `0`, `2^62`,
`-2^63`, `-2^62` and `0`, so the fifth leaf has the rectangle of the first one. -/
theorem layout_leaves_overlap_wraps :
    (0 : Int) < 4611686018427387904 ∧ (0 : Int) < 100 ∧
    (Frame.leaves (((Frame.exampleFive.setSize64 true 4611686018427387904).setSize64 false
        100).setPos64 0 0)).map Frame.rect
      = [(0, 0, 4611686018427387904, 100),
         (4611686018427387904, 0, 4611686018427387904, 100),
         (-9223372036854775808, 0, 4611686018427387904, 100),
         (-4611686018427387904, 0, 4611686018427387904, 100),
         (0, 0, 4611686018427387904, 100)] ∧
    ¬ (Frame.leaves (((Frame.exampleFive.setSize64 true 4611686018427387904).setSize64 false
        100).setPos64 0 0)).Pairwise (fun a b => ¬ Frame.overlaps a b) := by
  decide

/-- C8: after `setSize(true, uw)`, `setSize(false, uh)`, `setPos(x0, y0)` with positive
units, the rectangle of the root lying in the range of `int`, no two distinct leaves have
overlapping rectangles, and in every frame of the tree child number `k` starts along the
split axis at the offset of the frame plus the extents of the children before it and has
the coordinate of the frame on the other axis. -/
theorem layout_leaves_disjoint (f : Frame) (uw uh x0 y0 : Int) (hw : 0 < uw) (hh : 0 < uh)
    (hrw : Frame.inRange (Frame.countSplits f true * uw))
    (hrh : Frame.inRange (Frame.countSplits f false * uh))
    (hx : Frame.inRange x0) (hxw : Frame.inRange (x0 + Frame.countSplits f true * uw))
    (hy : Frame.inRange y0) (hyh : Frame.inRange (y0 + Frame.countSplits f false * uh)) :
    (Frame.leaves (((f.setSize64 true uw).setSize64 false uh).setPos64 x0 y0)).Pairwise
        (fun a b => ¬ Frame.overlaps a b) ∧
      ∀ n ∈ Frame.nodes (((f.setSize64 true uw).setSize64 false uh).setPos64 x0 y0),
        Frame.childrenPlaced n := by
  rw [Frame.place64_eq f uw uh x0 y0 (le_of_lt hw) (le_of_lt hh) hrw hrh hx hxw hy hyh]
  refine ⟨?_, Frame.childrenPlaced_setPos _ _ _⟩
  have h1 : Frame.axisOK ((f.setSize true uw).setSize false uh) true :=
    Frame.axisOK_setSize_other (f.setSize true uw) false uh
      (Frame.axisOK_setSize f true uw (le_of_lt hw))
  have h2 : Frame.axisOK ((f.setSize true uw).setSize false uh) false :=
    Frame.axisOK_setSize _ false uh (le_of_lt hh)
  exact (Frame.leaves_setPos _ h1 h2 x0 y0).2

/-- C8, witness: the mixed tree with units 101 and 50 placed at the origin. -/
theorem layout_leaves_disjoint_witness :
    ((0 : Int) < 101 ∧ (0 : Int) < 50 ∧
      Frame.inRange (Frame.countSplits Frame.exampleMixed true * 101) ∧
      Frame.inRange (Frame.countSplits Frame.exampleMixed false * 50) ∧
      Frame.inRange 0 ∧ Frame.inRange (0 + Frame.countSplits Frame.exampleMixed true * 101) ∧
      Frame.inRange (0 + Frame.countSplits Frame.exampleMixed false * 50)) ∧
      ((Frame.leaves
          (((Frame.exampleMixed.setSize64 true 101).setSize64 false 50).setPos64 0 0)).Pairwise
        (fun a b => ¬ Frame.overlaps a b) ∧
      ∀ n ∈ Frame.nodes
          (((Frame.exampleMixed.setSize64 true 101).setSize64 false 50).setPos64 0 0),
        Frame.childrenPlaced n) :=
  ⟨by decide, layout_leaves_disjoint Frame.exampleMixed 101 50 0 0 (by decide) (by decide)
    (by decide) (by decide) (by decide) (by decide) (by decide) (by decide)⟩

/-- C19, counterexample: with the unit `2^62` the row of three leaves, whose count is 3,
gets the width `-2^62`, the product `3 * 2^62` wrapped, and not `3 * 2^62`. -/
theorem setSize_extent_wraps :
    Frame.countSplits Frame.exampleRow true = 3 ∧
    (Frame.setSize64 Frame.exampleRow true 4611686018427387904).extent true
      = -4611686018427387904 ∧
    ¬ ((Frame.setSize64 Frame.exampleRow true 4611686018427387904).extent true
      = 4611686018427387904 * Frame.countSplits Frame.exampleRow true) := by
  decide

/-- C19: after `f.setSize(v, u)`, `max * singleValue` being a value of `int`, the extent of
`f` along `v` is `u * countSplits(f, v)` and the extent on the other axis is as before,
where `countSplits` is 1 for a frame without children, the sum of the counts of the
children for a frame of orientation `v`, and the greatest count of a child for a frame of
the other orientation. -/
theorem setSize_extent_countSplits (f : Frame) (v : Bool) (u : Int)
    (hr : Frame.inRange (Frame.countSplits f v * u)) :
    (Frame.setSize64 f v u).extent v = u * Frame.countSplits f v ∧
    (Frame.setSize64 f v u).extent (!v) = f.extent (!v) ∧
    (f.children = [] → Frame.countSplits f v = 1) ∧
    (f.children ≠ [] → f.vertical = v →
      Frame.countSplits f v = (f.children.map (fun c => Frame.countSplits c v)).sum) ∧
    (f.children ≠ [] → f.vertical ≠ v →
      (∀ c ∈ f.children, Frame.countSplits c v ≤ Frame.countSplits f v) ∧
      ∃ c ∈ f.children, Frame.countSplits c v = Frame.countSplits f v) := by
  rw [Frame.setSize64_eq f v u hr]
  refine ⟨by rw [Frame.setSize_extent, mul_comm], Frame.setSize_extent_other f v u, ?_, ?_, ?_⟩
  · intro h
    obtain ⟨a, fv, w, h1, x, y, win, cs⟩ := f
    simp only [Frame.children_mk] at h
    subst h
    exact Frame.countSplits_leaf _ _ _ _ _ _ _ _
  · intro h hv
    obtain ⟨a, fv, w, h1, x, y, win, cs⟩ := f
    simp only [Frame.children_mk, Frame.vertical_mk] at h hv ⊢
    cases cs with
    | nil => exact absurd rfl h
    | cons c cs =>
      rw [Frame.countSplits_node, if_pos hv, Frame.countSum_eq, zero_add]
  · intro h hv
    obtain ⟨a, fv, w, h1, x, y, win, cs⟩ := f
    simp only [Frame.children_mk, Frame.vertical_mk] at h hv ⊢
    cases cs with
    | nil => exact absurd rfl h
    | cons c cs =>
      rw [Frame.countSplits_node, if_neg hv]
      refine ⟨Frame.countMax_ge_mem _ _ _, ?_⟩
      rcases Frame.countMax_attained (c :: cs) v 0 with h0 | h0
      · have h1 := Frame.countMax_ge_mem (c :: cs) v 0 c (List.mem_cons_self _ _)
        have h2 := Frame.countSplits_pos c v
        omega
      · exact h0

/-- C19, witness: the mixed tree resized along the vertical axis with unit 101. -/
theorem setSize_extent_countSplits_witness :
    (Frame.setSize64 Frame.exampleMixed true 101).extent true
        = 101 * Frame.countSplits Frame.exampleMixed true ∧
    (Frame.setSize64 Frame.exampleMixed true 101).extent (!true)
        = Frame.exampleMixed.extent (!true) ∧
    (Frame.exampleMixed.children = [] → Frame.countSplits Frame.exampleMixed true = 1) ∧
    (Frame.exampleMixed.children ≠ [] → Frame.exampleMixed.vertical = true →
      Frame.countSplits Frame.exampleMixed true
        = (Frame.exampleMixed.children.map (fun c => Frame.countSplits c true)).sum) ∧
    (Frame.exampleMixed.children ≠ [] → Frame.exampleMixed.vertical ≠ true →
      (∀ c ∈ Frame.exampleMixed.children,
        Frame.countSplits c true ≤ Frame.countSplits Frame.exampleMixed true) ∧
      ∃ c ∈ Frame.exampleMixed.children,
        Frame.countSplits c true = Frame.countSplits Frame.exampleMixed true) :=
  setSize_extent_countSplits Frame.exampleMixed true 101 (by decide)

/-- C22, counterexample: in the mixed tree, whose count along the vertical axis is 3, the
first child has the count 2; with the unit `2^62`, which is not negative, the product
`2^62 * 3` wraps to `-2^62` and the child is handed the unit `-2^61`, smaller than the unit
of its parent, and its leaves get the width `-2^61`. -/
theorem childUnit_smaller_wraps :
    Frame.countSplits Frame.exampleMixed true = 3 ∧
    (Frame.exampleMixed.children.map (fun c => Frame.countSplits c true)) = [2, 3] ∧
    (0 : Int) ≤ 4611686018427387904 ∧
    (Frame.exampleMixed.children.map
        (fun c => Frame.childUnit64 Frame.exampleMixed c true 4611686018427387904))
      = [-2305843009213693952, -1537228672809129301] ∧
    ((Frame.setSize64 Frame.exampleMixed true 4611686018427387904).children.map
        (fun c => c.children.map (fun l => l.width)))
      = [[-2305843009213693952, -2305843009213693952],
         [-1537228672809129301, -1537228672809129301, -1537228672809129301]] ∧
    ¬ (∀ c ∈ Frame.exampleMixed.children,
        (4611686018427387904 : Int)
          ≤ Frame.childUnit64 Frame.exampleMixed c true 4611686018427387904) := by
  decide

/-- C22: `countSplits(f, v) >= 1` for every tree and axis; so in `setSize` the divisor `n`,
the count of a child, is never zero and is at most `max`, the count of the frame, and the
unit handed to a child, `singleValue` itself or `singleValue*max/n`, is at least the unit
of the frame when that unit is not negative and `singleValue*max` is a value of `int`. -/
theorem countSplits_ge_one (f : Frame) (v : Bool) :
    1 ≤ Frame.countSplits f v ∧
    (∀ c ∈ f.children,
      Frame.countSplits c v ≠ 0 ∧ Frame.countSplits c v ≤ Frame.countSplits f v) ∧
    (∀ u : Int, (Frame.setSize64 f v u).children =
      f.children.map (fun c => Frame.setSize64 c v (Frame.childUnit64 f c v u))) ∧
    (∀ c ∈ f.children, ∀ u : Int,
      (f.vertical = v → Frame.childUnit64 f c v u = u) ∧
      (f.vertical ≠ v → Frame.childUnit64 f c v u
        = Int.tdiv (Frame.wrap (u * Frame.countSplits f v)) (Frame.countSplits c v)) ∧
      (0 ≤ u → Frame.inRange (u * Frame.countSplits f v) →
        u ≤ Frame.childUnit64 f c v u)) := by
  refine ⟨Frame.countSplits_pos f v, ?_, Frame.setSize64_children_unit f v, ?_⟩
  · intro c hc
    have := Frame.countSplits_pos c v
    exact ⟨by omega, Frame.countSplits_child_le f c v hc⟩
  · intro c hc u
    refine ⟨fun h => by rw [Frame.childUnit64, if_pos h],
      fun h => by rw [Frame.childUnit64, if_neg h], ?_⟩
    intro hu hr
    unfold Frame.childUnit64
    split_ifs
    · exact le_refl _
    · rw [Frame.wrap_of_inRange _ hr]
      exact (Frame.scaled_bounds u _ _ hu (Frame.countSplits_pos c v)
        (Frame.countSplits_child_le f c v hc)).1

/-- C22, witness: in the mixed tree along the vertical axis with the unit 101, the first
child, whose count is 2 under the count 3 of the root, is handed the unit 151. -/
theorem countSplits_ge_one_witness :
    1 ≤ Frame.countSplits Frame.exampleMixed true ∧
    ((0 : Int) ≤ 101 ∧ Frame.inRange (101 * Frame.countSplits Frame.exampleMixed true)) ∧
    (101 : Int) ≤ Frame.childUnit64 Frame.exampleMixed
      (Frame.mk 2 true 0 0 0 0 none [Frame.leafOf 4 0, Frame.leafOf 3 2]) true 101 ∧
    Frame.childUnit64 Frame.exampleMixed
      (Frame.mk 2 true 0 0 0 0 none [Frame.leafOf 4 0, Frame.leafOf 3 2]) true 101 = 151 :=
  ⟨(countSplits_ge_one Frame.exampleMixed true).1, ⟨by decide, by decide⟩,
    ((countSplits_ge_one Frame.exampleMixed true).2.2.2 _
      (by simp [Frame.exampleMixed]) 101).2.2 (by decide) (by decide), by decide⟩

end Lapce

/-! ## The collapse of `close` in closed form -/

namespace Lapce
namespace Editor

/-- One level of `close` on a frame without children that is child `i` of a frame `p0` with
other children, in a tree that has the node invariant apart from that frame: the call
returns the neighbour, and the tree is the old one without the frame, up to the geometry. -/
theorem close_step_siblings (e : Editor) (t0 b n0 p0 : Frame) (i : Nat) (q : List Nat)
    (ht0 : Frame.nodeInv t0) (hn0 : Frame.nodeAt t0 (i :: q) = some n0)
    (hq0 : Frame.nodeAt t0 q = some p0) (hb : b.children = [])
    (he : e.topFrame = Frame.updateAt t0 (i :: q) (fun _ => b))
    (h2 : 2 ≤ p0.children.length) :
    ∃ e2, close e (i :: q) = some (e2, some ((if i > 0 then i - 1 else i) :: q)) ∧
      Frame.skeleton e2.topFrame = Frame.skeleton (Frame.updateAt t0 q (fun n =>
        Frame.setChildren n (p0.children.eraseIdx i))) := by
  have hn0b := hn0
  rw [Frame.nodeAt_cons, hq0] at hn0b
  simp only [Option.some_bind, List.get?_eq_getElem?] at hn0b
  have hil : i < p0.children.length := (List.getElem?_eq_some_iff.1 hn0b).1
  have hfb : Frame.nodeAt e.topFrame (i :: q) = some b := by
    rw [he, Frame.nodeAt_updateAt, hn0]; rfl
  have hqb : Frame.nodeAt e.topFrame q =
      some (Frame.setChildren p0 (List.modify (fun _ => b) i p0.children)) := by
    rw [he, Frame.updateAt, Frame.nodeAt_updateAt, hq0]; rfl
  have hch : b.hasChildren = false := by simp [Frame.hasChildren, hb]
  have htree : Frame.updateAt e.topFrame q
      (fun n => Frame.setChildren n (p0.children.eraseIdx i)) =
      Frame.updateAt t0 q (fun n => Frame.setChildren n (p0.children.eraseIdx i)) := by
    rw [he, Frame.updateAt, Frame.updateAt_updateAt]
    apply Frame.updateAt_congr _ _ _ _ p0 hq0
    rw [Frame.setChildren_setChildren]
  have hpinv := (Frame.nodeInv_iff p0).1 (Frame.nodeInv_nodeAt _ q p0 ht0 hq0)
  have hlen2 : (p0.children.eraseIdx i).length = p0.children.length - 1 := by
    rw [List.length_eraseIdx, if_pos hil]
  have hlen : ¬ (p0.children.eraseIdx i).length = 0 := by omega
  have hi2 : (if i > 0 then i - 1 else i) < (p0.children.eraseIdx i).length := by
    split_ifs <;> omega
  have hmem : (p0.children.eraseIdx i)[if i > 0 then i - 1 else i] ∈ p0.children :=
    List.mem_of_mem_eraseIdx (List.getElem_mem _)
  obtain ⟨id, hid⟩ := Frame.firstLeaf_win_of_nodeInv _ (hpinv.2 _ hmem)
  rw [close_cons e i q b _ hfb hqb hch, Frame.children_setChildren, Frame.eraseIdx_modify,
    if_neg hlen, htree]
  obtain ⟨e3, h3, hsk, -⟩ := close_finish_returns
    { e with topFrame := Frame.updateAt t0 q (fun n =>
        Frame.setChildren n (p0.children.eraseIdx i)) }
    (some ((if i > 0 then i - 1 else i) :: q)) b.win _ rfl (by
      intro ref href
      simp only [Option.some.injEq] at href
      subst href
      refine ⟨_, id, ?_, hid⟩
      simp only
      rw [Frame.nodeAt_cons, Frame.nodeAt_updateAt, hq0]
      simp only [Option.map_some', Option.some_bind, Frame.children_setChildren,
        List.get?_eq_getElem?]
      exact List.getElem?_eq_getElem hi2)
  exact ⟨e3, h3, hsk⟩

/-- One level of `close` on a frame without children that is the only child of a frame
`p0`, in a tree that has the node invariant apart from that frame: the call returns what
`close` returns on `p0` left without children, with the tree that call leaves, up to the
geometry. -/
theorem close_step_only (e : Editor) (t0 b n0 p0 : Frame) (i : Nat) (q : List Nat)
    (hn0 : Frame.nodeAt t0 (i :: q) = some n0)
    (hq0 : Frame.nodeAt t0 q = some p0) (hb : b.children = [])
    (he : e.topFrame = Frame.updateAt t0 (i :: q) (fun _ => b))
    (h1 : p0.children.length = 1) (e3 : Editor) (nf3 : Option (List Nat))
    (h3 : close { e with topFrame := Frame.updateAt t0 q (fun _ =>
      Frame.setChildren p0 []) } q = some (e3, nf3))
    (hfoc : ∀ ref, nf3 = some ref →
      ∃ n id, Frame.nodeAt e3.topFrame ref = some n ∧ n.firstLeaf.win = some id) :
    ∃ e2, close e (i :: q) = some (e2, nf3) ∧
      Frame.skeleton e2.topFrame = Frame.skeleton e3.topFrame := by
  have hn0b := hn0
  rw [Frame.nodeAt_cons, hq0] at hn0b
  simp only [Option.some_bind, List.get?_eq_getElem?] at hn0b
  have hil : i < p0.children.length := (List.getElem?_eq_some_iff.1 hn0b).1
  have hfb : Frame.nodeAt e.topFrame (i :: q) = some b := by
    rw [he, Frame.nodeAt_updateAt, hn0]; rfl
  have hqb : Frame.nodeAt e.topFrame q =
      some (Frame.setChildren p0 (List.modify (fun _ => b) i p0.children)) := by
    rw [he, Frame.updateAt, Frame.nodeAt_updateAt, hq0]; rfl
  have hch : b.hasChildren = false := by simp [Frame.hasChildren, hb]
  have hnil : p0.children.eraseIdx i = [] := by
    rw [List.eraseIdx_eq_nil]
    right
    exact ⟨h1, by omega⟩
  have htree : Frame.updateAt e.topFrame q
      (fun n => Frame.setChildren n []) =
      Frame.updateAt t0 q (fun _ => Frame.setChildren p0 []) := by
    rw [he, Frame.updateAt, Frame.updateAt_updateAt]
    apply Frame.updateAt_congr _ _ _ _ p0 hq0
    rw [Frame.setChildren_setChildren]
  rw [close_cons e i q b _ hfb hqb hch, Frame.children_setChildren, Frame.eraseIdx_modify,
    hnil]
  simp only [List.length_nil, if_true]
  rw [htree, h3]
  obtain ⟨e4, h4, hsk, -⟩ := close_finish_returns e3 nf3 b.win _ rfl hfoc
  exact ⟨e4, h4, hsk⟩

end Editor
end Lapce
namespace Lapce
namespace Editor

/-- The frame at a reference has its parent in the tree, and is its child. -/
theorem nodeAt_parent (t : Frame) (i : Nat) (q : List Nat) (n : Frame)
    (h : Frame.nodeAt t (i :: q) = some n) :
    ∃ p, Frame.nodeAt t q = some p ∧ p.children[i]? = some n := by
  rw [Frame.nodeAt_cons] at h
  cases hq : Frame.nodeAt t q with
  | none => rw [hq] at h; simp at h
  | some p =>
    rw [hq] at h
    simp only [Option.some_bind, List.get?_eq_getElem?] at h
    exact ⟨p, rfl, h⟩

/-- The collapse of `close`: on a frame without children that hangs below a frame `A` with
at least two children through child `j` of `A` and then `k` frames with one child each, in
a tree that has the node invariant apart from that frame, the call returns the neighbour of
child `j` and leaves the tree without the whole child `j` of `A`, up to the geometry. -/
theorem close_chain (k : Nat) : ∀ (e : Editor) (t0 b n0 A : Frame) (j : Nat) (anc : List Nat),
    Frame.nodeInv t0 → Frame.nodeAt t0 (List.replicate k 0 ++ j :: anc) = some n0 →
    b.children = [] →
    e.topFrame = Frame.updateAt t0 (List.replicate k 0 ++ j :: anc) (fun _ => b) →
    Frame.nodeAt t0 anc = some A → 2 ≤ A.children.length →
    (∀ m, m < k → ∃ nd, Frame.nodeAt t0 (List.replicate m 0 ++ j :: anc) = some nd ∧
      nd.children.length = 1) →
    ∃ e2, close e (List.replicate k 0 ++ j :: anc)
        = some (e2, some ((if j > 0 then j - 1 else j) :: anc)) ∧
      Frame.skeleton e2.topFrame = Frame.skeleton (Frame.updateAt t0 anc (fun n =>
        Frame.setChildren n (A.children.eraseIdx j))) := by
  induction k with
  | zero =>
    intro e t0 b n0 A j anc ht0 hn0 hb he hA h2 _
    simp only [List.replicate_zero, List.nil_append] at hn0 he ⊢
    exact close_step_siblings e t0 b n0 A j anc ht0 hn0 hA hb he h2
  | succ k ih =>
    intro e t0 b n0 A j anc ht0 hn0 hb he hA h2 hchain
    simp only [List.replicate_succ, List.cons_append] at hn0 he ⊢
    obtain ⟨p0, hq0, -⟩ := nodeAt_parent _ _ _ _ hn0
    obtain ⟨nd, hnd, hnd1⟩ := hchain k (Nat.lt_succ_self k)
    rw [hq0] at hnd
    simp only [Option.some.injEq] at hnd
    subst hnd
    obtain ⟨e3, h3, hsk3⟩ := ih
      { e with topFrame := Frame.updateAt t0 (List.replicate k 0 ++ j :: anc) (fun _ =>
          Frame.setChildren p0 []) }
      t0 (Frame.setChildren p0 []) p0 A j anc ht0 hq0 (Frame.children_setChildren _ _) rfl
      hA h2 (fun m hm => hchain m (Nat.lt_succ_of_lt hm))
    -- the frame returned lies over a leaf with a window
    obtain ⟨pA, hApr⟩ : ∃ s, (A.children.eraseIdx j)[if j > 0 then j - 1 else j]? = some s := by
      have hjl : j < A.children.length := by
        have : ∃ x, Frame.nodeAt t0 (j :: anc) = some x := by
          cases k with
          | zero => exact ⟨p0, by simpa using hq0⟩
          | succ k' =>
            obtain ⟨x, hx, -⟩ := hchain 0 (Nat.succ_pos _)
            exact ⟨x, by simpa using hx⟩
        obtain ⟨x, hx⟩ := this
        obtain ⟨pp, hpp, hppc⟩ := nodeAt_parent _ _ _ _ hx
        rw [hA] at hpp
        simp only [Option.some.injEq] at hpp
        subst hpp
        exact (List.getElem?_eq_some_iff.1 hppc).1
      have hlen2 : (A.children.eraseIdx j).length = A.children.length - 1 := by
        rw [List.length_eraseIdx, if_pos hjl]
      have hi2 : (if j > 0 then j - 1 else j) < (A.children.eraseIdx j).length := by
        split_ifs <;> omega
      exact ⟨_, List.getElem?_eq_getElem hi2⟩
    have hAinv := (Frame.nodeInv_iff A).1 (Frame.nodeInv_nodeAt _ anc A ht0 hA)
    obtain ⟨id, hid⟩ := Frame.firstLeaf_win_of_nodeInv pA
      (hAinv.2 _ (List.mem_of_mem_eraseIdx (List.getElem?_mem hApr)))
    have hfoc : ∀ ref, some ((if j > 0 then j - 1 else j) :: anc) = some ref →
        ∃ n id, Frame.nodeAt e3.topFrame ref = some n ∧ n.firstLeaf.win = some id := by
      intro ref href
      simp only [Option.some.injEq] at href
      subst href
      obtain ⟨n2, hn2, hs2⟩ := Frame.nodeAt_of_skeleton
        (Frame.updateAt t0 anc (fun n => Frame.setChildren n (A.children.eraseIdx j)))
        e3.topFrame ((if j > 0 then j - 1 else j) :: anc) pA hsk3 (by
          rw [Frame.nodeAt_cons, Frame.nodeAt_updateAt, hA]
          simp only [Option.map_some', Option.some_bind, Frame.children_setChildren,
            List.get?_eq_getElem?]
          exact hApr)
      exact ⟨n2, id, hn2, by rw [Frame.firstLeaf_win_of_skeleton n2 pA hs2, hid]⟩
    obtain ⟨e2, h2c, hsk2⟩ := close_step_only e t0 b n0 p0 0
      (List.replicate k 0 ++ j :: anc) hn0 hq0 hb he hnd1 e3 _ h3 hfoc
    exact ⟨e2, h2c, hsk2.trans hsk3⟩

/-- The collapse of `close` up to the root: on a frame without children that hangs below
the root through frames with one child each, the root included, in a tree that has the node
invariant apart from that frame, the call returns no frame and leaves the root without
children, up to the geometry. -/
theorem close_chain_root (k : Nat) : ∀ (e : Editor) (t0 b n0 : Frame),
    Frame.nodeAt t0 (List.replicate (k + 1) 0) = some n0 → b.children = [] →
    e.topFrame = Frame.updateAt t0 (List.replicate (k + 1) 0) (fun _ => b) →
    (∀ m, m ≤ k → ∃ nd, Frame.nodeAt t0 (List.replicate m 0) = some nd ∧
      nd.children.length = 1) →
    ∃ e2, close e (List.replicate (k + 1) 0) = some (e2, none) ∧
      Frame.skeleton e2.topFrame = Frame.skeleton (Frame.setChildren t0 []) := by
  induction k with
  | zero =>
    intro e t0 b n0 hn0 hb he hchain
    simp only [List.replicate_succ, List.replicate_zero] at hn0 he ⊢
    obtain ⟨nd, hnd, hnd1⟩ := hchain 0 (le_refl _)
    simp only [List.replicate_zero, Frame.nodeAt, Option.some.injEq] at hnd
    subst hnd
    exact close_step_only e t0 b n0 t0 0 [] hn0 rfl hb he hnd1
      { e with topFrame := Frame.updateAt t0 [] (fun _ => Frame.setChildren t0 []) } none rfl
      (fun ref h => by simp at h)
  | succ k ih =>
    intro e t0 b n0 hn0 hb he hchain
    rw [List.replicate_succ] at hn0 he ⊢
    obtain ⟨p0, hq0, -⟩ := nodeAt_parent _ _ _ _ hn0
    obtain ⟨nd, hnd, hnd1⟩ := hchain (k + 1) (le_refl _)
    rw [hq0] at hnd
    simp only [Option.some.injEq] at hnd
    subst hnd
    obtain ⟨e3, h3, hsk3⟩ := ih
      { e with topFrame := Frame.updateAt t0 (List.replicate (k + 1) 0) (fun _ =>
          Frame.setChildren p0 []) }
      t0 (Frame.setChildren p0 []) p0 hq0 (Frame.children_setChildren _ _) rfl
      (fun m hm => hchain m (Nat.le_succ_of_le hm))
    obtain ⟨e2, h2c, hsk2⟩ := close_step_only e t0 b n0 p0 0
      (List.replicate (k + 1) 0) hn0 hq0 hb he hnd1 e3 none h3 (fun ref h => by simp at h)
    exact ⟨e2, h2c, hsk2.trans hsk3⟩

/-- Every frame below the root hangs below a frame with at least two children through
frames with one child each, or below the root through frames with one child each, the root
included. -/
theorem chain_cases (t : Frame) (r : List Nat) : ∀ f, Frame.nodeAt t r = some f → r ≠ [] →
    (∃ (k j : Nat) (anc : List Nat) (A : Frame), r = List.replicate k 0 ++ j :: anc ∧
      Frame.nodeAt t anc = some A ∧ 2 ≤ A.children.length ∧
      ∀ m, m < k → ∃ nd, Frame.nodeAt t (List.replicate m 0 ++ j :: anc) = some nd ∧
        nd.children.length = 1) ∨
    (∃ k : Nat, r = List.replicate (k + 1) 0 ∧
      ∀ m, m ≤ k → ∃ nd, Frame.nodeAt t (List.replicate m 0) = some nd ∧
        nd.children.length = 1) := by
  induction r with
  | nil => intro f _ h; exact absurd rfl h
  | cons i q ih =>
    intro f hf _
    obtain ⟨p, hq, hpi⟩ := nodeAt_parent _ _ _ _ hf
    have hil : i < p.children.length := (List.getElem?_eq_some_iff.1 hpi).1
    by_cases h2 : 2 ≤ p.children.length
    · left
      exact ⟨0, i, q, p, rfl, hq, h2, fun m hm => absurd hm (Nat.not_lt_zero m)⟩
    · have h1 : p.children.length = 1 := by omega
      have hi0 : i = 0 := by omega
      subst hi0
      cases q with
      | nil =>
        right
        refine ⟨0, rfl, ?_⟩
        intro m hm
        have : m = 0 := by omega
        subst this
        exact ⟨p, hq, h1⟩
      | cons i2 q2 =>
        rcases ih p hq (by simp) with ⟨k, j, anc, A, hr, hA, hA2, hch⟩ | ⟨k, hr, hch⟩
        · left
          refine ⟨k + 1, j, anc, A, ?_, hA, hA2, ?_⟩
          · rw [hr, List.replicate_succ, List.cons_append]
          · intro m hm
            rcases Nat.lt_succ_iff_lt_or_eq.1 hm with hm | hm
            · exact hch m hm
            · subst hm
              exact ⟨p, by rw [← hr]; exact hq, h1⟩
        · right
          refine ⟨k + 1, ?_, ?_⟩
          · rw [hr, List.replicate_succ (n := k + 1)]
          · intro m hm
            rcases Nat.le_succ_iff.1 hm with hm | hm
            · exact hch m hm
            · subst hm
              exact ⟨p, by rw [← hr]; exact hq, h1⟩

end Editor
end Lapce

namespace Lapce
namespace Editor

/-- The example with a frame that has one child has the node invariant. -/
theorem nodeInv_exampleChain : Frame.nodeInv exampleChain.topFrame := by
  have h : Frame.nodes exampleChain.topFrame =
      [exampleChain.topFrame, Frame.mk 1 false 150 100 0 0 (some 0) [],
        Frame.mk 2 false 150 100 150 0 none [Frame.mk 3 false 150 100 150 0 (some 1) []],
        Frame.mk 3 false 150 100 150 0 (some 1) []] := rfl
  intro n hn
  rw [h] at hn
  simp only [List.mem_cons, List.mem_singleton, List.not_mem_nil, or_false] at hn
  rcases hn with rfl | rfl | rfl | rfl
  · right; exact ⟨rfl, by simp [exampleChain]⟩
  · left; exact ⟨rfl, rfl⟩
  · right; exact ⟨rfl, by simp⟩
  · left; exact ⟨rfl, rfl⟩

/-- C11: `close` on a leaf with a parent, in a tree with the node invariant, returns.  When
the leaf is child `i` of a frame `p` with other children, they stay in their order without
the leaf, and the frame returned is the sibling that was at index `i - 1`, or the first of
the others (the old child 1) when `i = 0`.  When the leaf was the only child of `p`, the
frame returned is the one `close` returns on `p` left without children, with the tree that
call leaves; in closed form: when the leaf hangs below a frame `A` with at least two
children through child `j` of `A` and `k` frames with one child each, the whole child `j`
is taken out of the children of `A`, everything else stays, and the frame returned is the
neighbour of child `j` in `A`; when all frames above the leaf, the root included, have one
child, the root is left without children and no frame is returned.  One of the two is the
case for every leaf with a parent. -/
theorem close_returns_neighbour (e : Editor) (r : List Nat) (f : Frame)
    (hinv : Frame.nodeInv e.topFrame) (hf : Frame.nodeAt e.topFrame r = some f)
    (hc : f.children = []) (hr : r ≠ []) :
    ∃ (e2 : Editor) (nf : Option (List Nat)), close e r = some (e2, nf) ∧
      (∀ (i : Nat) (q : List Nat) (p : Frame), r = i :: q →
        Frame.nodeAt e.topFrame q = some p →
        (2 ≤ p.children.length →
          nf = some ((if i > 0 then i - 1 else i) :: q) ∧
          (∃ n2, Frame.nodeAt e2.topFrame q = some n2 ∧
            n2.children.map Frame.skeleton = (p.children.eraseIdx i).map Frame.skeleton) ∧
          (∃ m2 s, Frame.nodeAt e2.topFrame ((if i > 0 then i - 1 else i) :: q) = some m2 ∧
            p.children[if i > 0 then i - 1 else 1]? = some s ∧
            Frame.skeleton m2 = Frame.skeleton s)) ∧
        (p.children.length = 1 →
          ∃ e3, close { e with topFrame := Frame.updateAt e.topFrame q (fun m =>
              Frame.setChildren m []) } q = some (e3, nf) ∧ (q = [] → nf = none) ∧
            Frame.skeleton e2.topFrame = Frame.skeleton e3.topFrame)) ∧
      (∀ (k j : Nat) (anc : List Nat) (A : Frame), r = List.replicate k 0 ++ j :: anc →
        Frame.nodeAt e.topFrame anc = some A → 2 ≤ A.children.length →
        (∀ m, m < k → ∃ nd, Frame.nodeAt e.topFrame (List.replicate m 0 ++ j :: anc) = some nd ∧
          nd.children.length = 1) →
        nf = some ((if j > 0 then j - 1 else j) :: anc) ∧
        Frame.skeleton e2.topFrame = Frame.skeleton (Frame.updateAt e.topFrame anc (fun n =>
          Frame.setChildren n (A.children.eraseIdx j))) ∧
        ∃ m2 s, Frame.nodeAt e2.topFrame ((if j > 0 then j - 1 else j) :: anc) = some m2 ∧
          A.children[if j > 0 then j - 1 else 1]? = some s ∧
          Frame.skeleton m2 = Frame.skeleton s) ∧
      (∀ k : Nat, r = List.replicate (k + 1) 0 →
        (∀ m, m ≤ k → ∃ nd, Frame.nodeAt e.topFrame (List.replicate m 0) = some nd ∧
          nd.children.length = 1) →
        nf = none ∧
        Frame.skeleton e2.topFrame = Frame.skeleton (Frame.setChildren e.topFrame [])) ∧
      ((∃ (k j : Nat) (anc : List Nat) (A : Frame), r = List.replicate k 0 ++ j :: anc ∧
          Frame.nodeAt e.topFrame anc = some A ∧ 2 ≤ A.children.length ∧
          ∀ m, m < k → ∃ nd, Frame.nodeAt e.topFrame (List.replicate m 0 ++ j :: anc) = some nd ∧
            nd.children.length = 1) ∨
        (∃ k : Nat, r = List.replicate (k + 1) 0 ∧
          ∀ m, m ≤ k → ∃ nd, Frame.nodeAt e.topFrame (List.replicate m 0) = some nd ∧
            nd.children.length = 1)) := by
  have hself : e.topFrame = Frame.updateAt e.topFrame r (fun _ => f) := by
    rw [Frame.updateAt_self _ _ _ f hf rfl]
  obtain ⟨e2, nf, hcl, -⟩ := close_returns_aux r e e.topFrame f f hinv hf hc hself
  -- the closed form of the collapse below a frame with at least two children
  have hP2 : ∀ (k j : Nat) (anc : List Nat) (A : Frame), r = List.replicate k 0 ++ j :: anc →
      Frame.nodeAt e.topFrame anc = some A → 2 ≤ A.children.length →
      (∀ m, m < k → ∃ nd, Frame.nodeAt e.topFrame (List.replicate m 0 ++ j :: anc) = some nd ∧
        nd.children.length = 1) →
      nf = some ((if j > 0 then j - 1 else j) :: anc) ∧
      Frame.skeleton e2.topFrame = Frame.skeleton (Frame.updateAt e.topFrame anc (fun n =>
        Frame.setChildren n (A.children.eraseIdx j))) ∧
      ∃ m2 s, Frame.nodeAt e2.topFrame ((if j > 0 then j - 1 else j) :: anc) = some m2 ∧
        A.children[if j > 0 then j - 1 else 1]? = some s ∧
        Frame.skeleton m2 = Frame.skeleton s := by
    intro k j anc A hrk hA hA2 hch
    subst hrk
    obtain ⟨e2b, hclb, hskb⟩ := close_chain k e e.topFrame f f A j anc hinv hf hc hself hA hA2
      hch
    rw [hcl] at hclb
    simp only [Option.some.injEq, Prod.mk.injEq] at hclb
    obtain ⟨h1, h2⟩ := hclb
    subst h1
    refine ⟨h2, hskb, ?_⟩
    have hjl : j < A.children.length := by
      have : ∃ x, Frame.nodeAt e.topFrame (j :: anc) = some x := by
        cases k with
        | zero => exact ⟨f, by simpa using hf⟩
        | succ k' =>
          obtain ⟨x, hx, -⟩ := hch 0 (Nat.succ_pos _)
          exact ⟨x, by simpa using hx⟩
      obtain ⟨x, hx⟩ := this
      obtain ⟨pp, hpp, hppc⟩ := nodeAt_parent _ _ _ _ hx
      rw [hA] at hpp
      simp only [Option.some.injEq] at hpp
      subst hpp
      exact (List.getElem?_eq_some_iff.1 hppc).1
    have hlen2 : (A.children.eraseIdx j).length = A.children.length - 1 := by
      rw [List.length_eraseIdx, if_pos hjl]
    have hi2 : (if j > 0 then j - 1 else j) < (A.children.eraseIdx j).length := by
      split_ifs <;> omega
    have hsib : (A.children.eraseIdx j)[if j > 0 then j - 1 else j]?
        = A.children[if j > 0 then j - 1 else 1]? := by
      rw [List.getElem?_eraseIdx]
      split_ifs <;> first | rfl | omega | (congr 1; omega)
    obtain ⟨m2, hm2, hs2⟩ := Frame.nodeAt_of_skeleton
      (Frame.updateAt e.topFrame anc (fun n => Frame.setChildren n (A.children.eraseIdx j)))
      e2.topFrame ((if j > 0 then j - 1 else j) :: anc)
      ((A.children.eraseIdx j)[if j > 0 then j - 1 else j]) hskb (by
        rw [Frame.nodeAt_cons, Frame.nodeAt_updateAt, hA]
        simp only [Option.map_some', Option.some_bind, Frame.children_setChildren,
          List.get?_eq_getElem?]
        exact List.getElem?_eq_getElem hi2)
    refine ⟨m2, _, hm2, ?_, hs2⟩
    rw [← hsib]
    exact List.getElem?_eq_getElem hi2
  refine ⟨e2, nf, hcl, ?_, hP2, ?_, chain_cases e.topFrame r f hf hr⟩
  · intro i q p hri hq
    subst hri
    constructor
    · intro h2
      obtain ⟨h3, h4, h5⟩ := hP2 0 i q p (by simp) hq h2
        (fun m hm => absurd hm (Nat.not_lt_zero m))
      refine ⟨h3, ?_, h5⟩
      obtain ⟨n2, hn2, hs2⟩ := Frame.nodeAt_of_skeleton
        (Frame.updateAt e.topFrame q (fun n => Frame.setChildren n (p.children.eraseIdx i)))
        e2.topFrame q (Frame.setChildren p (p.children.eraseIdx i)) h4
        (by rw [Frame.nodeAt_updateAt, hq]; rfl)
      refine ⟨n2, hn2, ?_⟩
      rw [← Frame.skeleton_children, hs2, Frame.skeleton_children,
        Frame.children_setChildren]
    · intro h1
      have htree : Frame.updateAt e.topFrame q (fun n => Frame.setChildren n [])
          = Frame.updateAt e.topFrame q (fun _ => Frame.setChildren p []) :=
        Frame.updateAt_congr _ _ _ _ p hq rfl
      obtain ⟨e3, nf3, h3, hfoc3⟩ := close_returns_aux q
        { e with topFrame := Frame.updateAt e.topFrame q (fun n => Frame.setChildren n []) }
        e.topFrame (Frame.setChildren p []) p hinv hq (Frame.children_setChildren _ _) htree
      have h3b : close { e with topFrame := Frame.updateAt e.topFrame q (fun _ =>
          Frame.setChildren p []) } q = some (e3, nf3) := by
        rw [← htree]; exact h3
      obtain ⟨e2b, hclb, hskb⟩ := close_step_only e e.topFrame f f p i q hf hq hc hself h1
        e3 nf3 h3b hfoc3
      rw [hcl] at hclb
      simp only [Option.some.injEq, Prod.mk.injEq] at hclb
      obtain ⟨h4, h5⟩ := hclb
      subst h4 h5
      refine ⟨e3, h3, ?_, hskb⟩
      intro hq0
      subst hq0
      simp only [close, Option.some.injEq, Prod.mk.injEq] at h3
      exact h3.2.symm
  · intro k hrk hch
    subst hrk
    obtain ⟨e2b, hclb, hskb⟩ := close_chain_root k e e.topFrame f f hf hc hself hch
    rw [hcl] at hclb
    simp only [Option.some.injEq, Prod.mk.injEq] at hclb
    obtain ⟨h1, h2⟩ := hclb
    subst h1
    exact ⟨h2, hskb⟩

end Editor
end Lapce

namespace Lapce
namespace Editor

/-- C11, witness: the leaf that is the only child of the second child of the root, in the
example with a frame that has one child. -/
theorem close_returns_neighbour_witness :
    ∃ (e2 : Editor) (nf : Option (List Nat)), close exampleChain [0, 1] = some (e2, nf) ∧
      (∀ (i : Nat) (q : List Nat) (p : Frame), [0, 1] = i :: q →
        Frame.nodeAt exampleChain.topFrame q = some p →
        (2 ≤ p.children.length →
          nf = some ((if i > 0 then i - 1 else i) :: q) ∧
          (∃ n2, Frame.nodeAt e2.topFrame q = some n2 ∧
            n2.children.map Frame.skeleton = (p.children.eraseIdx i).map Frame.skeleton) ∧
          (∃ m2 s, Frame.nodeAt e2.topFrame ((if i > 0 then i - 1 else i) :: q) = some m2 ∧
            p.children[if i > 0 then i - 1 else 1]? = some s ∧
            Frame.skeleton m2 = Frame.skeleton s)) ∧
        (p.children.length = 1 →
          ∃ e3, close { exampleChain with
              topFrame := Frame.updateAt exampleChain.topFrame q (fun m =>
                Frame.setChildren m []) } q = some (e3, nf) ∧ (q = [] → nf = none) ∧
            Frame.skeleton e2.topFrame = Frame.skeleton e3.topFrame)) ∧
      (∀ (k j : Nat) (anc : List Nat) (A : Frame), [0, 1] = List.replicate k 0 ++ j :: anc →
        Frame.nodeAt exampleChain.topFrame anc = some A → 2 ≤ A.children.length →
        (∀ m, m < k → ∃ nd,
          Frame.nodeAt exampleChain.topFrame (List.replicate m 0 ++ j :: anc) = some nd ∧
          nd.children.length = 1) →
        nf = some ((if j > 0 then j - 1 else j) :: anc) ∧
        Frame.skeleton e2.topFrame
          = Frame.skeleton (Frame.updateAt exampleChain.topFrame anc (fun n =>
            Frame.setChildren n (A.children.eraseIdx j))) ∧
        ∃ m2 s, Frame.nodeAt e2.topFrame ((if j > 0 then j - 1 else j) :: anc) = some m2 ∧
          A.children[if j > 0 then j - 1 else 1]? = some s ∧
          Frame.skeleton m2 = Frame.skeleton s) ∧
      (∀ k : Nat, [0, 1] = List.replicate (k + 1) 0 →
        (∀ m, m ≤ k → ∃ nd, Frame.nodeAt exampleChain.topFrame (List.replicate m 0) = some nd ∧
          nd.children.length = 1) →
        nf = none ∧
        Frame.skeleton e2.topFrame
          = Frame.skeleton (Frame.setChildren exampleChain.topFrame [])) ∧
      ((∃ (k j : Nat) (anc : List Nat) (A : Frame), [0, 1] = List.replicate k 0 ++ j :: anc ∧
          Frame.nodeAt exampleChain.topFrame anc = some A ∧ 2 ≤ A.children.length ∧
          ∀ m, m < k → ∃ nd,
            Frame.nodeAt exampleChain.topFrame (List.replicate m 0 ++ j :: anc) = some nd ∧
            nd.children.length = 1) ∨
        (∃ k : Nat, [0, 1] = List.replicate (k + 1) 0 ∧
          ∀ m, m ≤ k → ∃ nd, Frame.nodeAt exampleChain.topFrame (List.replicate m 0) = some nd ∧
            nd.children.length = 1)) :=
  close_returns_neighbour exampleChain [0, 1] (Frame.mk 3 false 150 100 150 0 (some 1) [])
    nodeInv_exampleChain rfl rfl (by decide)

/-- The collapse evaluated: closing the leaf that is the only child of the second child of
the root takes the second child out of the root and returns the first child. -/
theorem close_exampleChain :
    (close exampleChain [0, 1]).map (fun p => (p.2, Frame.skeleton p.1.topFrame))
      = some (some [0], Frame.skeleton
          (Frame.mk 0 true 300 100 0 0 none [Frame.mk 1 false 150 100 0 0 (some 0) []])) := by
  rfl

end Editor
end Lapce
